import Mathlib

/-!
light-matrix: ranges, element-wise nodes and repeat evaluation.

A shallow embedding of

* `light_mat/common/range.h` (the `range` / `step_range` classes and the two
  `colon` constructors),
* `light_mat/matrix/matrix_ewise_expr.h` (unary / binary element-wise nodes and
  the `ewise` construction overloads),
* `light_mat/matrix/matrix_repeat_eval.h` (the `evaluate` routines of the
  horizontal and vertical repeat nodes, the vector-based evaluators and their
  selection),
* the kernel evaluations exercised by `tests/mateval/test_linear_ewise.cpp`,
  whose implementation is not among the sources and is modelled from the
  specification,

followed by the theorems that relate this code to its written specification.

Conventions of the embedding.

* `index_t` is a signed machine integer whose width is fixed in `prim_types.h`.
  Index arithmetic is carried out over `Int`, i.e. the statements hold whenever
  no intermediate result leaves the machine range (signed overflow is undefined
  behaviour in C++, so there is nothing else to model).  The C++ operator `/` on
  signed integers truncates toward zero and is rendered by `Int.tdiv`.
* Extents of matrices (row count, column count, leading dimension) are
  non-negative and are carried as `Nat`.
* A destination buffer is a map from element offsets (relative to `ptr_data()`)
  to values; writing through a view writes this map.
-/

namespace lmat

/-! ## Definitions -/

/-! ### range.h -/

/-! Every `index_t` of the source appears below as `Int`. -/

/-- The class `whole`: the full extent of a dimension. -/
structure whole where
  deriving DecidableEq, Repr

/-- The member `whole::get_num`. -/
def whole.get_num (_ : whole) (dim : Int) : Int := dim

/-- The member `whole::get_offset`. -/
def whole.get_offset (_ : whole) (_ : Int) (i : Int) : Int := i

/-- The class `range`: a contiguous run of `m_num` indices from `m_begin`. -/
structure range where
  m_begin : Int
  m_num : Int
  deriving DecidableEq, Repr

/-- The member `range::begin_index`. -/
def range.begin_index (r : range) : Int := r.m_begin

/-- The member `range::end_index`. -/
def range.end_index (r : range) : Int := r.m_begin + r.m_num

/-- The member `range::num`. -/
def range.num (r : range) : Int := r.m_num

/-- The member `range::get_num`. -/
def range.get_num (r : range) (_ : Int) : Int := r.m_num

/-- The member `range::get_offset`. -/
def range.get_offset (r : range) (_ : Int) (i : Int) : Int := r.m_begin + i

/-- The class `step_range`: `m_num` indices from `m_begin` in steps of `m_step`.
The constructor takes `(i, n, s)` in this order. -/
structure step_range where
  m_begin : Int
  m_num : Int
  m_step : Int
  deriving DecidableEq, Repr

/-- The member `step_range::begin_index`. -/
def step_range.begin_index (r : step_range) : Int := r.m_begin

/-- The member `step_range::end_index`. -/
def step_range.end_index (r : step_range) : Int := r.m_begin + r.m_num * r.m_step

/-- The member `step_range::num`. -/
def step_range.num (r : step_range) : Int := r.m_num

/-- The member `step_range::step`. -/
def step_range.step (r : step_range) : Int := r.m_step

/-- The member `step_range::get_num`. -/
def step_range.get_num (r : step_range) (_ : Int) : Int := r.m_num

/-- The member `step_range::get_offset`. -/
def step_range.get_offset (r : step_range) (_ : Int) (i : Int) : Int :=
  r.m_begin + i * r.m_step

/-- The two-argument `colon(a, b)`, which returns `range(a, b-a)`. -/
def colon (a b : Int) : range := ⟨a, b - a⟩

/-- The three-argument overload `colon(a, s, b)`:
`n = a <= b ? (s > 0 ? (b - a) / s : 0) : (s < 0 ? (a - b) / (-s) : 0)`
and the result is `step_range(a, n, s)`. -/
def colon_step (a s b : Int) : step_range :=
  let n : Int :=
    if a ≤ b then (if s > 0 then Int.tdiv (b - a) s else 0)
    else (if s < 0 then Int.tdiv (a - b) (-s) else 0)
  ⟨a, n, s⟩

/-! ### range.h: the division of `colon` with its fault made explicit -/

/-- The C++ operator `/` on `index_t`, whose behaviour is undefined for a zero
divisor: `none` stands for the fault. -/
def index_div (x y : Int) : Option Int :=
  if y = 0 then none else some (Int.tdiv x y)

/-- The three-argument `colon(a, s, b)` again, with each division written as
`index_div`: the result is `none` if a division by zero is evaluated. -/
def colon_step_checked (a s b : Int) : Option step_range :=
  let n : Option Int :=
    if a ≤ b then (if s > 0 then index_div (b - a) s else some 0)
    else (if s < 0 then index_div (a - b) (-s) else some 0)
  n.map (fun n => ⟨a, n, s⟩)

/-! ### Matrices, destination buffers and memory primitives -/

/-- Modelled from the spec: the readable-matrix capability (`IMatrixXpr`, declared
in `matrix_expr_base.h`, which is not among the sources at hand).  A matrix
expression exposes its row count, its column count and the value at every
column-major linear index (index `i` is row `i mod rows`, column `i div rows`). -/
structure IMatrixXpr (T : Type) where
  nrows : Nat
  ncolumns : Nat
  get_value : Nat → T

/-- Modelled from the spec: the total element count of a matrix expression is
`rows * columns` (the member `nelems()` of the absent matrix interface). -/
def IMatrixXpr.nelems {T : Type} (A : IMatrixXpr T) : Nat := A.nrows * A.ncolumns

/-- Modelled from the spec: the member `size()` of the absent matrix interface,
the element count as an unsigned number. -/
def IMatrixXpr.size {T : Type} (A : IMatrixXpr T) : Nat := A.nrows * A.ncolumns

/-- Modelled from the spec: the writable dense-matrix capability (`IDenseMatrix`,
declared outside the sources at hand): extents, the leading-dimension stride and
raw element access by offset.  The field `data` is the memory seen from
`ptr_data()`: `data k` is the element stored `k` positions after `ptr_data()`. -/
structure IDenseMatrix (T : Type) where
  nrows : Nat
  ncolumns : Nat
  lead_dim : Nat
  data : Nat → T

/-- Modelled from the spec: `ptr_data()`, the base of the memory of a dense
matrix; every offset is counted from it. -/
def IDenseMatrix.ptr_data {T : Type} (_ : IDenseMatrix T) : Nat := 0

/-- Modelled from the spec: `ptr_col(j)`, as an offset from `ptr_data()`; column
`j` starts `j` leading dimensions after the first element. -/
def IDenseMatrix.ptr_col {T : Type} (D : IDenseMatrix T) (j : Nat) : Nat := j * D.lead_dim

/-- Modelled from the spec: the logical element `(i, j)` of a dense matrix, read at
offset `ptr_col(j) + i`. -/
def IDenseMatrix.elem {T : Type} (D : IDenseMatrix T) (i j : Nat) : T :=
  D.data (D.ptr_col j + i)

/-- Modelled from the spec: the element of a dense matrix at column-major linear
index `k`, i.e. row `k mod rows` of column `k div rows`. -/
def IDenseMatrix.at_linear {T : Type} (D : IDenseMatrix T) (k : Nat) : T :=
  D.elem (k % D.nrows) (k / D.nrows)

/-- Modelled from the spec: `has_continuous_layout(dst)` (declared outside the
sources at hand): no gap between the end of one column and the start of the
next, i.e. the leading dimension equals the row count. -/
def has_continuous_layout {T : Type} (D : IDenseMatrix T) : Bool := D.lead_dim == D.nrows

/-- Modelled from the spec: the view `ref_col<T, M>(p, m)`, a contiguous column of
`m` elements over the memory at `p`. -/
def ref_col {T : Type} (mem : Nat → T) (m : Nat) : IDenseMatrix T := ⟨m, 1, m, mem⟩

/-- Modelled from the spec: the view `ref_row<T, N>(p, n)`, a contiguous row of `n`
elements over the memory at `p`. -/
def ref_row {T : Type} (mem : Nat → T) (n : Nat) : IDenseMatrix T := ⟨1, n, 1, mem⟩

/-- Modelled from the spec: the view `ref_matrix_ex<T, M, N>(p, m, n, ldim)`, an
`m`-by-`n` matrix with leading dimension `ldim` over the memory at `p`. -/
def ref_matrix_ex {T : Type} (mem : Nat → T) (m n ldim : Nat) : IDenseMatrix T :=
  ⟨m, n, ldim, mem⟩

/-- A single element store `p[k] = v`. -/
def store {T : Type} (mem : Nat → T) (k : Nat) (v : T) : Nat → T :=
  fun x => if x = k then v else mem x

/-- The counted loop `for (index_t j = 0; j < n; ++j) body(j)` acting on a state. -/
def for_index {σ : Type} (n : Nat) (body : Nat → σ → σ) (s : σ) : σ :=
  match n with
  | 0 => s
  | k + 1 => body k (for_index k body s)

/-- Modelled from the spec: `copy_mem(n, src, dst)` (a memory primitive declared
outside the sources at hand) copies the `n` values `src[0..n)` to the `n`
positions starting at offset `p`. -/
def copy_mem {T : Type} (n : Nat) (src : Nat → T) (mem : Nat → T) (p : Nat) : Nat → T :=
  for_index n (fun i cur => store cur (p + i) (src i)) mem

/-- Modelled from the spec: `fill_mem(n, dst, v)` (a memory primitive declared
outside the sources at hand) sets the `n` positions starting at offset `p` to
`v`. -/
def fill_mem {T : Type} (n : Nat) (mem : Nat → T) (p : Nat) (v : T) : Nat → T :=
  for_index n (fun i cur => store cur (p + i) v) mem

/-- Modelled from the spec: `fill(dst, v)` (declared outside the sources at hand)
fills the entire destination, every element of every column, with `v`. -/
def fill {T : Type} (dst : IDenseMatrix T) (v : T) : IDenseMatrix T :=
  { dst with
    data := for_index dst.ncolumns
      (fun j cur => fill_mem dst.nrows cur (dst.ptr_col j) v) dst.data }

/-- Modelled from the spec: `evaluate_by_scalars(expr, dst)` (declared outside the
sources at hand).  When the destination is contiguous a single linear pass
stores `expr[i]` at offset `i` for every linear index `i < rows * cols`;
otherwise a per-column loop addresses the contiguous span of each column `j`
and stores `expr[j * rows + i]` at `ptr_col(j) + i`. -/
def evaluate_by_scalars {T : Type} (expr : IMatrixXpr T) (dst : IDenseMatrix T) :
    IDenseMatrix T :=
  if has_continuous_layout dst then
    { dst with data := copy_mem (dst.nrows * dst.ncolumns) expr.get_value dst.data 0 }
  else
    { dst with
      data := for_index dst.ncolumns
        (fun j cur =>
          copy_mem dst.nrows (fun i => expr.get_value (j * dst.nrows + i)) cur (dst.ptr_col j))
        dst.data }

/-- Modelled from the spec: `default_evaluate(expr, dst)` (declared outside the
sources at hand), the entry point that materialises an expression into a
caller-owned destination.  Lane-wise execution is an execution-width
optimisation that changes no value, so the entry point is the scalar pass. -/
def default_evaluate {T : Type} (expr : IMatrixXpr T) (dst : IDenseMatrix T) :
    IDenseMatrix T :=
  evaluate_by_scalars expr dst

/-! ### matrix_ewise_expr.h -/

/-- The failure raised when two operands disagree in shape. -/
inductive Error where
  | ShapeMismatch
  deriving DecidableEq, Repr

/-- Modelled from the spec: `check_same_size(a, b, msg)` (declared outside the
sources at hand) fails with `ShapeMismatch` when the two operands differ in row
count or in column count, and otherwise returns normally. -/
def check_same_size {S1 S2 : Type} (a : IMatrixXpr S1) (b : IMatrixXpr S2) :
    Except Error Unit :=
  if a.nrows = b.nrows ∧ a.ncolumns = b.ncolumns then .ok () else .error .ShapeMismatch

/-- Modelled from the spec: `const_matrix<T, M, N>(m, n, v)` (declared outside the
sources at hand), the constant-valued matrix of `m` rows and `n` columns. -/
structure const_matrix (T : Type) where
  m_nrows : Nat
  m_ncols : Nat
  m_val : T

/-- Modelled from the spec: a constant-valued matrix as a matrix expression: it
reports the extents it was built with and has the value `v` at every index. -/
def const_matrix.toXpr {T : Type} (c : const_matrix T) : IMatrixXpr T :=
  ⟨c.m_nrows, c.m_ncols, fun _ => c.m_val⟩

/-- The class `unary_ewise_expr<Fun, Arg_HP, Arg>`: the function object and the
argument held by the base `unary_expr`.  Its constructor performs no check. -/
structure unary_ewise_expr (S T : Type) where
  m_fun : S → T
  m_arg : IMatrixXpr S

/-- The accessor `arg()` of the base class. -/
def unary_ewise_expr.arg {S T : Type} (e : unary_ewise_expr S T) : IMatrixXpr S := e.m_arg

/-- The member `unary_ewise_expr::nelems`. -/
def unary_ewise_expr.nelems {S T : Type} (e : unary_ewise_expr S T) : Nat := e.arg.nelems

/-- The member `unary_ewise_expr::size`. -/
def unary_ewise_expr.size {S T : Type} (e : unary_ewise_expr S T) : Nat := e.arg.size

/-- The member `unary_ewise_expr::nrows`. -/
def unary_ewise_expr.nrows {S T : Type} (e : unary_ewise_expr S T) : Nat := e.arg.nrows

/-- The member `unary_ewise_expr::ncolumns`. -/
def unary_ewise_expr.ncolumns {S T : Type} (e : unary_ewise_expr S T) : Nat := e.arg.ncolumns

/-- Modelled from the spec: a unary node as a matrix expression; the value at
linear index `i` is `f(A[i])` (the evaluator lives in `matrix_ewise_eval.h`,
which is not among the sources at hand). -/
def unary_ewise_expr.toXpr {S T : Type} (e : unary_ewise_expr S T) : IMatrixXpr T :=
  ⟨e.nrows, e.ncolumns, fun i => e.m_fun (e.arg.get_value i)⟩

/-- The class `binary_ewise_expr<Fun, Arg1_HP, Arg1, Arg2_HP, Arg2>`: the function
object and the two arguments held by the base `binary_expr`. -/
structure binary_ewise_expr (S1 S2 T : Type) where
  m_fun : S1 → S2 → T
  m_arg1 : IMatrixXpr S1
  m_arg2 : IMatrixXpr S2

/-- The accessor `first_arg()` of the base class. -/
def binary_ewise_expr.first_arg {S1 S2 T : Type} (e : binary_ewise_expr S1 S2 T) :
    IMatrixXpr S1 := e.m_arg1

/-- The accessor `second_arg()` of the base class. -/
def binary_ewise_expr.second_arg {S1 S2 T : Type} (e : binary_ewise_expr S1 S2 T) :
    IMatrixXpr S2 := e.m_arg2

/-- The constructor of `binary_ewise_expr`: it stores the function and both
arguments, then runs `check_same_size(first_arg(), second_arg(), ...)`; when
the check fails no node is returned. -/
def binary_ewise_expr.construct {S1 S2 T : Type} (f : S1 → S2 → T)
    (arg1 : IMatrixXpr S1) (arg2 : IMatrixXpr S2) : Except Error (binary_ewise_expr S1 S2 T) :=
  let e : binary_ewise_expr S1 S2 T := ⟨f, arg1, arg2⟩
  match check_same_size e.first_arg e.second_arg with
  | .error err => .error err
  | .ok _ => .ok e

/-- The member `binary_ewise_expr::nelems`. -/
def binary_ewise_expr.nelems {S1 S2 T : Type} (e : binary_ewise_expr S1 S2 T) : Nat :=
  e.first_arg.nelems

/-- The member `binary_ewise_expr::size`. -/
def binary_ewise_expr.size {S1 S2 T : Type} (e : binary_ewise_expr S1 S2 T) : Nat :=
  e.first_arg.size

/-- The member `binary_ewise_expr::nrows`. -/
def binary_ewise_expr.nrows {S1 S2 T : Type} (e : binary_ewise_expr S1 S2 T) : Nat :=
  e.first_arg.nrows

/-- The member `binary_ewise_expr::ncolumns`. -/
def binary_ewise_expr.ncolumns {S1 S2 T : Type} (e : binary_ewise_expr S1 S2 T) : Nat :=
  e.first_arg.ncolumns

/-- Modelled from the spec: a binary node as a matrix expression; the value at
linear index `i` is `f(A[i], B[i])` (the evaluator lives in
`matrix_ewise_eval.h`, which is not among the sources at hand). -/
def binary_ewise_expr.toXpr {S1 S2 T : Type} (e : binary_ewise_expr S1 S2 T) : IMatrixXpr T :=
  ⟨e.nrows, e.ncolumns, fun i => e.m_fun (e.first_arg.get_value i) (e.second_arg.get_value i)⟩

/-- The tag `ewise_t<Fun>`, which carries the function object. -/
structure ewise_t (F : Type) where
  fn : F

/-- The one-argument `ewise(f)`, which wraps the function into the tag. -/
def ewise_tag {F : Type} (f : F) : ewise_t F := ⟨f⟩

/-- The static member `unary_expr_map<ewise_t<Fun>, Arg_HP, Arg>::get`. -/
def unary_expr_map_get {S T : Type} (spec : ewise_t (S → T)) (arg_fwd : IMatrixXpr S) :
    unary_ewise_expr S T :=
  ⟨spec.fn, arg_fwd⟩

/-- The static member `binary_expr_map<ewise_t<Fun>, ...>::get`. -/
def binary_expr_map_get {S1 S2 T : Type} (spec : ewise_t (S1 → S2 → T))
    (arg1_fwd : IMatrixXpr S1) (arg2_fwd : IMatrixXpr S2) :
    Except Error (binary_ewise_expr S1 S2 T) :=
  binary_ewise_expr.construct spec.fn arg1_fwd arg2_fwd

/-- The overload `ewise(fun, arg)`: `make_expr(ewise(fun), ref_arg(arg))`, where
`make_expr` hands the tag and the forwarded argument to the expression map. -/
def ewise_unary {S T : Type} (f : S → T) (arg : IMatrixXpr S) : unary_ewise_expr S T :=
  unary_expr_map_get (ewise_tag f) arg

/-- The overload `ewise(fun, arg1, arg2)`:
`make_expr(ewise(fun), ref_arg(arg1), ref_arg(arg2))`. -/
def ewise_binary {S1 S2 T : Type} (f : S1 → S2 → T) (arg1 : IMatrixXpr S1)
    (arg2 : IMatrixXpr S2) : Except Error (binary_ewise_expr S1 S2 T) :=
  binary_expr_map_get (ewise_tag f) arg1 arg2

/-- The overload `ewise(fun, arg1, arg2v)` with a scalar second argument: the
constant matrix `arg2(arg1.nrows(), arg1.ncolumns(), arg2v)` is built and
`make_expr(ewise(fun), ref_arg(arg1), copy_arg(arg2))` is returned. -/
def ewise_fix2 {S1 S2 T : Type} (f : S1 → S2 → T) (arg1 : IMatrixXpr S1) (arg2v : S2) :
    Except Error (binary_ewise_expr S1 S2 T) :=
  let arg2 : const_matrix S2 := ⟨arg1.nrows, arg1.ncolumns, arg2v⟩
  binary_expr_map_get (ewise_tag f) arg1 arg2.toXpr

/-- The overload `ewise(fun, arg1v, arg2)` with a scalar first argument: the
constant matrix `arg1(arg2.nrows(), arg2.ncolumns(), arg1v)` is built and
`make_expr(ewise(fun), copy_arg(arg1), ref_arg(arg2))` is returned. -/
def ewise_fix1 {S1 S2 T : Type} (f : S1 → S2 → T) (arg1v : S1) (arg2 : IMatrixXpr S2) :
    Except Error (binary_ewise_expr S1 S2 T) :=
  let arg1 : const_matrix S1 := ⟨arg2.nrows, arg2.ncolumns, arg1v⟩
  binary_expr_map_get (ewise_tag f) arg1.toXpr arg2

/-! ### matrix_repeat_eval.h -/

/-- Modelled from the spec: the node `horizontal_repeat_expr<Arg_HP, Arg, N>`
(declared in `matrix_repeat_expr.h`, which is not among the sources at hand).
It owns the seed and a column replication factor: `N` is the compile-time
factor, with `0` meaning that the column count `m_ncols` is given at run time.
The result has the seed's row count. -/
structure horizontal_repeat_expr (T : Type) where
  N : Nat
  m_arg : IMatrixXpr T
  m_ncols : Nat

/-- The accessor `arg()` of a horizontal repeat node. -/
def horizontal_repeat_expr.arg {T : Type} (e : horizontal_repeat_expr T) : IMatrixXpr T :=
  e.m_arg

/-- Modelled from the spec: the row count of a horizontal repeat is the seed's. -/
def horizontal_repeat_expr.nrows {T : Type} (e : horizontal_repeat_expr T) : Nat :=
  e.m_arg.nrows

/-- Modelled from the spec: the column count of a horizontal repeat is the
factor `N`, or the run-time value when `N` is the sentinel `0`. -/
def horizontal_repeat_expr.ncolumns {T : Type} (e : horizontal_repeat_expr T) : Nat :=
  if e.N = 0 then e.m_ncols else e.N

/-- Modelled from the spec: `is_column(expr)` (declared outside the sources at
hand) tells whether the result is a single column. -/
def horizontal_repeat_expr.is_column {T : Type} (e : horizontal_repeat_expr T) : Bool :=
  e.ncolumns == 1

/-- Modelled from the spec: the node `vertical_repeat_expr<Arg_HP, Arg, M>`
(declared in `matrix_repeat_expr.h`, which is not among the sources at hand).
It owns the seed and a row replication factor: `M` is the compile-time factor,
with `0` meaning that the row count `m_nrows` is given at run time.  The result
has the seed's column count. -/
structure vertical_repeat_expr (T : Type) where
  M : Nat
  m_arg : IMatrixXpr T
  m_nrows : Nat

/-- The accessor `arg()` of a vertical repeat node. -/
def vertical_repeat_expr.arg {T : Type} (e : vertical_repeat_expr T) : IMatrixXpr T :=
  e.m_arg

/-- Modelled from the spec: the row count of a vertical repeat is the factor `M`,
or the run-time value when `M` is the sentinel `0`. -/
def vertical_repeat_expr.nrows {T : Type} (e : vertical_repeat_expr T) : Nat :=
  if e.M = 0 then e.m_nrows else e.M

/-- Modelled from the spec: the column count of a vertical repeat is the seed's. -/
def vertical_repeat_expr.ncolumns {T : Type} (e : vertical_repeat_expr T) : Nat :=
  e.m_arg.ncolumns

/-- Modelled from the spec: `is_row(expr)` (declared outside the sources at hand)
tells whether the result is a single row. -/
def vertical_repeat_expr.is_row {T : Type} (e : vertical_repeat_expr T) : Bool :=
  e.nrows == 1

/-- Modelled from the spec: the wrapper `detail::repcol_ewrapper_map<Arg>::type`
(declared in `bits/repeat_vecs_internal.h`, which is not among the sources at
hand): the seed column made available as `nrows()` contiguous values. -/
structure repcol_ewrapper (T : Type) where
  nrows : Nat
  data : Nat → T

/-- Modelled from the spec: wrapping a seed column keeps its row count and its
values. -/
def repcol_ewrapper.wrap {T : Type} (s : IMatrixXpr T) : repcol_ewrapper T :=
  ⟨s.nrows, s.get_value⟩

/-- Modelled from the spec: `col_wrap[i]`, the `i`-th value of the wrapped column. -/
def repcol_ewrapper.get {T : Type} (w : repcol_ewrapper T) (i : Nat) : T := w.data i

/-- Modelled from the spec: the wrapper `detail::reprow_ewrapper_map<Arg>::type`
(declared in `bits/repeat_vecs_internal.h`, which is not among the sources at
hand): the seed row made available as `ncolumns()` values. -/
structure reprow_ewrapper (T : Type) where
  ncolumns : Nat
  data : Nat → T

/-- Modelled from the spec: wrapping a seed row keeps its column count and its
values. -/
def reprow_ewrapper.wrap {T : Type} (s : IMatrixXpr T) : reprow_ewrapper T :=
  ⟨s.ncolumns, s.get_value⟩

/-- Modelled from the spec: `row_wrap[j]`, the `j`-th value of the wrapped row. -/
def reprow_ewrapper.get {T : Type} (w : reprow_ewrapper T) (j : Nat) : T := w.data j

/-- The routine `evaluate(const horizontal_repeat_expr<Arg_HP, Arg, N>&, dst,
matrix_copy_policy)`.  The views built at `dst.ptr_data()` share the memory of
the destination, so what is evaluated into them is written to `dst`. -/
def horizontal_repeat_expr.evaluate {T : Type} (expr : horizontal_repeat_expr T)
    (dst : IDenseMatrix T) : IDenseMatrix T :=
  let s := expr.arg
  if expr.is_column then
    let dview := ref_col dst.data s.nrows
    { dst with data := (default_evaluate s dview).data }
  else
    let col_wrap := repcol_ewrapper.wrap s
    let m := col_wrap.nrows
    if m = 1 then
      fill dst (col_wrap.get 0)
    else
      let n := expr.ncolumns
      { dst with
        data := for_index n (fun j cur => copy_mem m col_wrap.data cur (dst.ptr_col j)) dst.data }

/-- The routine `evaluate(const horizontal_repeat_expr<Arg_HP, Arg, 1>&, dst,
matrix_copy_policy)`, the overload for the static factor `1`. -/
def horizontal_repeat_expr.evaluate_1 {T : Type} (expr : horizontal_repeat_expr T)
    (dst : IDenseMatrix T) : IDenseMatrix T :=
  default_evaluate expr.arg dst

/-- Overload resolution between the two routines above: the more specialised
overload is the one called when the static factor is `1`. -/
def horizontal_repeat_expr.evaluate_overload {T : Type} (expr : horizontal_repeat_expr T)
    (dst : IDenseMatrix T) : IDenseMatrix T :=
  if expr.N = 1 then expr.evaluate_1 dst else expr.evaluate dst

/-- The routine `evaluate(const vertical_repeat_expr<Arg_HP, Arg, M>&, dst,
matrix_copy_policy)`.  The views built at `dst.ptr_data()` share the memory of
the destination, so what is evaluated into them is written to `dst`. -/
def vertical_repeat_expr.evaluate {T : Type} (expr : vertical_repeat_expr T)
    (dst : IDenseMatrix T) : IDenseMatrix T :=
  let s := expr.arg
  if expr.is_row then
    if has_continuous_layout dst then
      let dview := ref_row dst.data s.ncolumns
      { dst with data := (default_evaluate s dview).data }
    else
      let dview := ref_matrix_ex dst.data 1 s.ncolumns dst.lead_dim
      { dst with data := (default_evaluate s dview).data }
  else
    let row_wrap := reprow_ewrapper.wrap s
    let n := row_wrap.ncolumns
    if expr.M = 0 then
      let m := expr.nrows
      if n = 1 then
        { dst with data := fill_mem m dst.data dst.ptr_data (row_wrap.get 0) }
      else
        { dst with
          data := for_index n
            (fun j cur => fill_mem m cur (dst.ptr_col j) (row_wrap.get j)) dst.data }
    else
      if n = 1 then
        { dst with data := fill_mem expr.M dst.data dst.ptr_data (row_wrap.get 0) }
      else
        { dst with
          data := for_index n
            (fun j cur => fill_mem expr.M cur (dst.ptr_col j) (row_wrap.get j)) dst.data }

/-- The routine `evaluate(const vertical_repeat_expr<Arg_HP, Arg, 1>&, dst,
matrix_copy_policy)`, the overload for the static factor `1`. -/
def vertical_repeat_expr.evaluate_1 {T : Type} (expr : vertical_repeat_expr T)
    (dst : IDenseMatrix T) : IDenseMatrix T :=
  default_evaluate expr.arg dst

/-- Overload resolution between the two routines above: the more specialised
overload is the one called when the static factor is `1`. -/
def vertical_repeat_expr.evaluate_overload {T : Type} (expr : vertical_repeat_expr T)
    (dst : IDenseMatrix T) : IDenseMatrix T :=
  if expr.M = 1 then expr.evaluate_1 dst else expr.evaluate dst

/-! ### matrix_repeat_eval.h: vector-based evaluators and their dispatch -/

/-- Modelled from the spec: the linear scalar evaluator of an argument
(`vector_eval<Arg, as_linear_vec, by_scalars>::evaluator_type`, declared outside
the sources at hand): it produces the value at flattened column-major index
`i`. -/
structure linear_scalar_evaluator (T : Type) where
  m_arg : IMatrixXpr T

/-- Modelled from the spec: `get_value(i)` of the linear evaluator of an argument. -/
def linear_scalar_evaluator.get_value {T : Type} (e : linear_scalar_evaluator T) (i : Nat) : T :=
  e.m_arg.get_value i

/-- Modelled from the spec: the per-column scalar evaluator of an argument
(`vector_eval<Arg, per_column, by_scalars>::evaluator_type`, declared outside
the sources at hand): it produces the values within the current column and is
advanced explicitly between columns; it starts at the first column. -/
structure percol_scalar_evaluator (T : Type) where
  m_arg : IMatrixXpr T
  m_col : Nat

/-- Modelled from the spec: a per-column evaluator bound to an argument starts at
column `0`. -/
def percol_scalar_evaluator.bind {T : Type} (arg : IMatrixXpr T) : percol_scalar_evaluator T :=
  ⟨arg, 0⟩

/-- Modelled from the spec: `get_value(i)` of the per-column evaluator of an
argument, the element at row `i` of the current column. -/
def percol_scalar_evaluator.get_value {T : Type} (e : percol_scalar_evaluator T) (i : Nat) : T :=
  e.m_arg.get_value (e.m_col * e.m_arg.nrows + i)

/-- Modelled from the spec: `next_column()` of the per-column evaluator of an
argument advances the current column by one. -/
def percol_scalar_evaluator.next_column {T : Type} (e : percol_scalar_evaluator T) :
    percol_scalar_evaluator T :=
  { e with m_col := e.m_col + 1 }

/-- Modelled from the spec: `to_scalar(arg)` (declared outside the sources at
hand), the single value of a 1-by-1 expression. -/
def to_scalar {T : Type} (arg : IMatrixXpr T) : T := arg.get_value 0

/-- Modelled from the spec: `ref()` of the column wrapper (declared outside the
sources at hand), the wrapped values seen as a dense column. -/
def repcol_ewrapper.ref {T : Type} (w : repcol_ewrapper T) : IMatrixXpr T :=
  ⟨w.nrows, 1, w.data⟩

/-- The class `single_vec_percol_evaluator<Arg_HP, Arg>`. -/
structure single_vec_percol_evaluator (T : Type) where
  m_eval : percol_scalar_evaluator T

/-- The constructor of `single_vec_percol_evaluator` from
`horizontal_repeat_expr<Arg_HP, Arg, 1>`: `m_eval(expr.arg())`. -/
def single_vec_percol_evaluator.of_horizontal {T : Type} (expr : horizontal_repeat_expr T) :
    single_vec_percol_evaluator T :=
  ⟨percol_scalar_evaluator.bind expr.arg⟩

/-- The constructor of `single_vec_percol_evaluator` from
`vertical_repeat_expr<Arg_HP, Arg, 1>`: `m_eval(expr.arg())`. -/
def single_vec_percol_evaluator.of_vertical {T : Type} (expr : vertical_repeat_expr T) :
    single_vec_percol_evaluator T :=
  ⟨percol_scalar_evaluator.bind expr.arg⟩

/-- The member `single_vec_percol_evaluator::get_value`. -/
def single_vec_percol_evaluator.get_value {T : Type} (e : single_vec_percol_evaluator T)
    (i : Nat) : T :=
  e.m_eval.get_value i

/-- The member `single_vec_percol_evaluator::next_column`. -/
def single_vec_percol_evaluator.next_column {T : Type} (e : single_vec_percol_evaluator T) :
    single_vec_percol_evaluator T :=
  ⟨e.m_eval.next_column⟩

/-- The class `single_vec_linear_evaluator<Arg_HP, Arg>`. -/
structure single_vec_linear_evaluator (T : Type) where
  m_eval : linear_scalar_evaluator T

/-- The constructor of `single_vec_linear_evaluator` from
`horizontal_repeat_expr<Arg_HP, Arg, 1>`: `m_eval(expr.arg())`. -/
def single_vec_linear_evaluator.of_horizontal {T : Type} (expr : horizontal_repeat_expr T) :
    single_vec_linear_evaluator T :=
  ⟨⟨expr.arg⟩⟩

/-- The constructor of `single_vec_linear_evaluator` from
`vertical_repeat_expr<Arg_HP, Arg, 1>`: `m_eval(expr.arg())`. -/
def single_vec_linear_evaluator.of_vertical {T : Type} (expr : vertical_repeat_expr T) :
    single_vec_linear_evaluator T :=
  ⟨⟨expr.arg⟩⟩

/-- The member `single_vec_linear_evaluator::get_value`. -/
def single_vec_linear_evaluator.get_value {T : Type} (e : single_vec_linear_evaluator T)
    (i : Nat) : T :=
  e.m_eval.get_value i

/-- The class `rep_scalar_percol_evaluator<Arg_HP, Arg>`. -/
structure rep_scalar_percol_evaluator (T : Type) where
  m_val : T

/-- The constructor of `rep_scalar_percol_evaluator` from a horizontal repeat:
`m_val = to_scalar(expr.arg())`. -/
def rep_scalar_percol_evaluator.of_horizontal {T : Type} (expr : horizontal_repeat_expr T) :
    rep_scalar_percol_evaluator T :=
  ⟨to_scalar expr.arg⟩

/-- The constructor of `rep_scalar_percol_evaluator` from a vertical repeat:
`m_val = to_scalar(expr.arg())`. -/
def rep_scalar_percol_evaluator.of_vertical {T : Type} (expr : vertical_repeat_expr T) :
    rep_scalar_percol_evaluator T :=
  ⟨to_scalar expr.arg⟩

/-- The member `rep_scalar_percol_evaluator::get_value`, which ignores its index. -/
def rep_scalar_percol_evaluator.get_value {T : Type} (e : rep_scalar_percol_evaluator T)
    (_ : Nat) : T :=
  e.m_val

/-- The member `rep_scalar_percol_evaluator::next_column`, with an empty body. -/
def rep_scalar_percol_evaluator.next_column {T : Type} (e : rep_scalar_percol_evaluator T) :
    rep_scalar_percol_evaluator T :=
  e

/-- The class `rep_scalar_linear_evaluator<Arg_HP, Arg>`. -/
structure rep_scalar_linear_evaluator (T : Type) where
  m_val : T

/-- The constructor of `rep_scalar_linear_evaluator` from a horizontal repeat:
`m_val = to_scalar(expr.arg())`. -/
def rep_scalar_linear_evaluator.of_horizontal {T : Type} (expr : horizontal_repeat_expr T) :
    rep_scalar_linear_evaluator T :=
  ⟨to_scalar expr.arg⟩

/-- The constructor of `rep_scalar_linear_evaluator` from a vertical repeat:
`m_val = to_scalar(expr.arg())`. -/
def rep_scalar_linear_evaluator.of_vertical {T : Type} (expr : vertical_repeat_expr T) :
    rep_scalar_linear_evaluator T :=
  ⟨to_scalar expr.arg⟩

/-- The member `rep_scalar_linear_evaluator::get_value`, which ignores its index. -/
def rep_scalar_linear_evaluator.get_value {T : Type} (e : rep_scalar_linear_evaluator T)
    (_ : Nat) : T :=
  e.m_val

/-- The class `repcol_percol_evaluator<Arg_HP, Arg>`: the wrapped seed column and a
per-column evaluator over it. -/
structure repcol_percol_evaluator (T : Type) where
  m_colwrap : repcol_ewrapper T
  m_eval : percol_scalar_evaluator T

/-- The constructor of `repcol_percol_evaluator`:
`m_colwrap(expr.arg()), m_eval(m_colwrap.ref())`. -/
def repcol_percol_evaluator.of_horizontal {T : Type} (expr : horizontal_repeat_expr T) :
    repcol_percol_evaluator T :=
  let m_colwrap := repcol_ewrapper.wrap expr.arg
  ⟨m_colwrap, percol_scalar_evaluator.bind m_colwrap.ref⟩

/-- The member `repcol_percol_evaluator::get_value`. -/
def repcol_percol_evaluator.get_value {T : Type} (e : repcol_percol_evaluator T) (i : Nat) : T :=
  e.m_eval.get_value i

/-- The member `repcol_percol_evaluator::next_column`, with an empty body. -/
def repcol_percol_evaluator.next_column {T : Type} (e : repcol_percol_evaluator T) :
    repcol_percol_evaluator T :=
  e

/-- The class `reprow_percol_evaluator<Arg_HP, Arg>`: the wrapped seed row and the
current column index. -/
structure reprow_percol_evaluator (T : Type) where
  m_rowwrap : reprow_ewrapper T
  m_j : Nat

/-- The constructor of `reprow_percol_evaluator`: `m_rowwrap(expr.arg()), m_j(0)`. -/
def reprow_percol_evaluator.of_vertical {T : Type} (expr : vertical_repeat_expr T) :
    reprow_percol_evaluator T :=
  ⟨reprow_ewrapper.wrap expr.arg, 0⟩

/-- The member `reprow_percol_evaluator::get_value`, which returns
`m_rowwrap[m_j]` whatever its index. -/
def reprow_percol_evaluator.get_value {T : Type} (e : reprow_percol_evaluator T) (_ : Nat) : T :=
  e.m_rowwrap.get e.m_j

/-- The member `reprow_percol_evaluator::next_column`: `++ m_j`. -/
def reprow_percol_evaluator.next_column {T : Type} (e : reprow_percol_evaluator T) :
    reprow_percol_evaluator T :=
  { e with m_j := e.m_j + 1 }

/-- Modelled from the spec: `cached_linear_evaluator<T>` (declared outside the
sources at hand): the expression it is built from is materialised once into a
contiguous cache of the result's shape, and `get_value(i)` reads the cache at
linear index `i`. -/
structure cached_linear_evaluator (T : Type) where
  m_cache : IDenseMatrix T

/-- Modelled from the spec: the cache of a horizontal repeat.  A fresh contiguous
matrix of the result's shape (holding `fresh` before it is written) receives
the default evaluation of the node, which for repeat nodes is `evaluate` with
`matrix_copy_policy` (the two `default_matrix_eval_policy` specialisations at
the top of `matrix_repeat_eval.h`). -/
def cached_linear_evaluator.of_horizontal {T : Type} (expr : horizontal_repeat_expr T)
    (fresh : Nat → T) : cached_linear_evaluator T :=
  ⟨expr.evaluate_overload ⟨expr.nrows, expr.ncolumns, expr.nrows, fresh⟩⟩

/-- Modelled from the spec: the cache of a vertical repeat, built like that of a
horizontal repeat. -/
def cached_linear_evaluator.of_vertical {T : Type} (expr : vertical_repeat_expr T)
    (fresh : Nat → T) : cached_linear_evaluator T :=
  ⟨expr.evaluate_overload ⟨expr.nrows, expr.ncolumns, expr.nrows, fresh⟩⟩

/-- Modelled from the spec: `get_value(i)` of the cached evaluator reads the cache. -/
def cached_linear_evaluator.get_value {T : Type} (e : cached_linear_evaluator T) (i : Nat) : T :=
  e.m_cache.data i

/-- The three evaluator types that
`vector_eval<.._repeat_expr<..>, as_linear_vec, by_scalars>::evaluator_type` can
name. -/
inductive repeat_linear_evaluator (T : Type) where
  | single_vec (e : single_vec_linear_evaluator T)
  | rep_scalar (e : rep_scalar_linear_evaluator T)
  | cached (e : cached_linear_evaluator T)

/-- The call `get_value(i)` on the selected linear evaluator. -/
def repeat_linear_evaluator.get_value {T : Type} (e : repeat_linear_evaluator T) (i : Nat) : T :=
  match e with
  | .single_vec e => e.get_value i
  | .rep_scalar e => e.get_value i
  | .cached e => e.get_value i

/-- The three evaluator types that
`vector_eval<horizontal_repeat_expr<..>, per_column, by_scalars>::evaluator_type`
can name. -/
inductive horizontal_percol_evaluator (T : Type) where
  | single_vec (e : single_vec_percol_evaluator T)
  | rep_scalar (e : rep_scalar_percol_evaluator T)
  | repcol (e : repcol_percol_evaluator T)

/-- The call `get_value(i)` on the selected per-column evaluator. -/
def horizontal_percol_evaluator.get_value {T : Type} (e : horizontal_percol_evaluator T)
    (i : Nat) : T :=
  match e with
  | .single_vec e => e.get_value i
  | .rep_scalar e => e.get_value i
  | .repcol e => e.get_value i

/-- The call `next_column()` on the selected per-column evaluator. -/
def horizontal_percol_evaluator.next_column {T : Type} (e : horizontal_percol_evaluator T) :
    horizontal_percol_evaluator T :=
  match e with
  | .single_vec e => .single_vec e.next_column
  | .rep_scalar e => .rep_scalar e.next_column
  | .repcol e => .repcol e.next_column

/-- The three evaluator types that
`vector_eval<vertical_repeat_expr<..>, per_column, by_scalars>::evaluator_type`
can name. -/
inductive vertical_percol_evaluator (T : Type) where
  | single_vec (e : single_vec_percol_evaluator T)
  | rep_scalar (e : rep_scalar_percol_evaluator T)
  | reprow (e : reprow_percol_evaluator T)

/-- The call `get_value(i)` on the selected per-column evaluator. -/
def vertical_percol_evaluator.get_value {T : Type} (e : vertical_percol_evaluator T)
    (i : Nat) : T :=
  match e with
  | .single_vec e => e.get_value i
  | .rep_scalar e => e.get_value i
  | .reprow e => e.get_value i

/-- The call `next_column()` on the selected per-column evaluator. -/
def vertical_percol_evaluator.next_column {T : Type} (e : vertical_percol_evaluator T) :
    vertical_percol_evaluator T :=
  match e with
  | .single_vec e => .single_vec e.next_column
  | .rep_scalar e => .rep_scalar e.next_column
  | .reprow e => .reprow e.next_column

/-- The selection `vector_eval<horizontal_repeat_expr<Arg_HP, Arg, N>,
as_linear_vec, by_scalars>::evaluator_type`, with `M = ct_rows<Arg>::value` the
static row count of the seed (`0` when only known at run time), together with
the construction of the selected evaluator from the node. -/
def horizontal_repeat_expr.vector_eval_linear {T : Type} (expr : horizontal_repeat_expr T)
    (M : Nat) (fresh : Nat → T) : repeat_linear_evaluator T :=
  if expr.N = 1 then .single_vec (single_vec_linear_evaluator.of_horizontal expr)
  else if M = 1 then .rep_scalar (rep_scalar_linear_evaluator.of_horizontal expr)
  else .cached (cached_linear_evaluator.of_horizontal expr fresh)

/-- The selection `vector_eval<vertical_repeat_expr<Arg_HP, Arg, M>,
as_linear_vec, by_scalars>::evaluator_type`, with `N = ct_cols<Arg>::value` the
static column count of the seed, together with the construction of the
selected evaluator from the node. -/
def vertical_repeat_expr.vector_eval_linear {T : Type} (expr : vertical_repeat_expr T)
    (N : Nat) (fresh : Nat → T) : repeat_linear_evaluator T :=
  if expr.M = 1 then .single_vec (single_vec_linear_evaluator.of_vertical expr)
  else if N = 1 then .rep_scalar (rep_scalar_linear_evaluator.of_vertical expr)
  else .cached (cached_linear_evaluator.of_vertical expr fresh)

/-- The selection `vector_eval<horizontal_repeat_expr<Arg_HP, Arg, N>, per_column,
by_scalars>::evaluator_type`, with `M = ct_rows<Arg>::value`, together with the
construction of the selected evaluator from the node. -/
def horizontal_repeat_expr.vector_eval_percol {T : Type} (expr : horizontal_repeat_expr T)
    (M : Nat) : horizontal_percol_evaluator T :=
  if expr.N = 1 then .single_vec (single_vec_percol_evaluator.of_horizontal expr)
  else if M = 1 then .rep_scalar (rep_scalar_percol_evaluator.of_horizontal expr)
  else .repcol (repcol_percol_evaluator.of_horizontal expr)

/-- The selection `vector_eval<vertical_repeat_expr<Arg_HP, Arg, M>, per_column,
by_scalars>::evaluator_type`, with `N = ct_cols<Arg>::value`, together with the
construction of the selected evaluator from the node. -/
def vertical_repeat_expr.vector_eval_percol {T : Type} (expr : vertical_repeat_expr T)
    (N : Nat) : vertical_percol_evaluator T :=
  if expr.M = 1 then .single_vec (single_vec_percol_evaluator.of_vertical expr)
  else if N = 1 then .rep_scalar (rep_scalar_percol_evaluator.of_vertical expr)
  else .reprow (reprow_percol_evaluator.of_vertical expr)

/-! ### matrix_repeat_eval.h: costs of the selected evaluators -/

/-- Modelled from the spec: the cost constants `VEC_EVAL_CACHE_COST`,
`SHORTVEC_LENGTH_THRESHOLD` and `SHORTVEC_PERCOL_COST` (declared outside the
sources at hand).  Their values are not known here, so they are parameters:
the materialisation cost, the length below which a vector counts as short, and
the cost of per-column access to short vectors. -/
structure eval_costs where
  VEC_EVAL_CACHE_COST : Int
  SHORTVEC_LENGTH_THRESHOLD : Int
  SHORTVEC_PERCOL_COST : Int
  deriving DecidableEq, Repr

/-- The static member `cost` of `vector_eval<horizontal_repeat_expr<Arg_HP, Arg, N>,
as_linear_vec, by_scalars>`: `(N == 1 || M == 1) ? 0 : VEC_EVAL_CACHE_COST`, with
`M = ct_rows<Arg>::value`. -/
def horizontal_repeat_expr.vector_eval_linear_cost {T : Type} (expr : horizontal_repeat_expr T)
    (c : eval_costs) (M : Nat) : Int :=
  if expr.N = 1 ∨ M = 1 then 0 else c.VEC_EVAL_CACHE_COST

/-- The static member `cost` of `vector_eval<vertical_repeat_expr<Arg_HP, Arg, M>,
as_linear_vec, by_scalars>`: `(M == 1 || N == 1) ? 0 : VEC_EVAL_CACHE_COST`, with
`N = ct_cols<Arg>::value`. -/
def vertical_repeat_expr.vector_eval_linear_cost {T : Type} (expr : vertical_repeat_expr T)
    (c : eval_costs) (N : Nat) : Int :=
  if expr.M = 1 ∨ N = 1 then 0 else c.VEC_EVAL_CACHE_COST

/-- The static member `cost` of `vector_eval<horizontal_repeat_expr<Arg_HP, Arg, N>,
per_column, by_scalars>`: with `normal_cost = 0` and
`shortv_cost = SHORTVEC_PERCOL_COST`, it is
`M < SHORTVEC_LENGTH_THRESHOLD ? shortv_cost : normal_cost`, where
`M = ct_rows<Arg>::value`; the factor `N` does not occur. -/
def horizontal_repeat_expr.vector_eval_percol_cost {T : Type} (_ : horizontal_repeat_expr T)
    (c : eval_costs) (M : Nat) : Int :=
  let normal_cost : Int := 0
  let shortv_cost : Int := c.SHORTVEC_PERCOL_COST
  if (M : Int) < c.SHORTVEC_LENGTH_THRESHOLD then shortv_cost else normal_cost

/-- The static member `cost` of `vector_eval<vertical_repeat_expr<Arg_HP, Arg, M>,
per_column, by_scalars>`: with `normal_cost = 0` and
`shortv_cost = SHORTVEC_PERCOL_COST`, it is
`M < SHORTVEC_LENGTH_THRESHOLD ? shortv_cost : normal_cost`, where `M` is the
replication factor; `N = ct_cols<Arg>::value` does not occur. -/
def vertical_repeat_expr.vector_eval_percol_cost {T : Type} (expr : vertical_repeat_expr T)
    (c : eval_costs) (_ : Nat) : Int :=
  let normal_cost : Int := 0
  let shortv_cost : Int := c.SHORTVEC_PERCOL_COST
  if (expr.M : Int) < c.SHORTVEC_LENGTH_THRESHOLD then shortv_cost else normal_cost

/-- The three ranks of the selection: the pass-through evaluator `single_vec_*`,
the scalar-caching evaluator `rep_scalar_*`, and the general evaluator
(`cached_linear_evaluator`, `repcol_percol_evaluator` or
`reprow_percol_evaluator`). -/
inductive evaluator_kind where
  | single_vec
  | rep_scalar
  | general
  deriving DecidableEq, Repr

/-- The rank of a selected linear evaluator. -/
def repeat_linear_evaluator.kind {T : Type} (e : repeat_linear_evaluator T) : evaluator_kind :=
  match e with
  | .single_vec _ => .single_vec
  | .rep_scalar _ => .rep_scalar
  | .cached _ => .general

/-- The rank of a selected per-column evaluator of a horizontal repeat. -/
def horizontal_percol_evaluator.kind {T : Type} (e : horizontal_percol_evaluator T) :
    evaluator_kind :=
  match e with
  | .single_vec _ => .single_vec
  | .rep_scalar _ => .rep_scalar
  | .repcol _ => .general

/-- The rank of a selected per-column evaluator of a vertical repeat. -/
def vertical_percol_evaluator.kind {T : Type} (e : vertical_percol_evaluator T) :
    evaluator_kind :=
  match e with
  | .single_vec _ => .single_vec
  | .rep_scalar _ => .rep_scalar
  | .reprow _ => .general

/-! ### matrix_ewise_expr.h: traits of a binary node -/

/-- The members of a `matrix_traits<..>` specialisation, for expressions whose
domain tag is of type `D`. -/
structure matrix_traits (D : Type) where
  num_dimensions : Nat
  compile_time_num_rows : Nat
  compile_time_num_cols : Nat
  is_readonly : Bool
  domain : D

/-- The failure of a build whose static assertion on domains does not hold. -/
inductive BuildError where
  | DomainMismatch
  deriving DecidableEq, Repr

/-- Modelled from the spec: `has_same_domain<Arg1, Arg2>::value` (declared outside
the sources at hand): whether the two operands are declared in the same element
domain. -/
def has_same_domain {D : Type} [DecidableEq D] (t1 t2 : matrix_traits D) : Bool :=
  decide (t1.domain = t2.domain)

/-- The specialisation `matrix_traits<binary_ewise_expr<Fun, Arg1_HP, Arg1, Arg2_HP,
Arg2> >`.  Only when the build defines `LMAT_USE_STATIC_ASSERT` does it contain
`static_assert(has_same_domain<Arg1, Arg2>::value, ..)`; its members are
`num_dimensions = 2`, the static extents `binary_ct_rows<Arg1, Arg2>::value` and
`binary_ct_cols<Arg1, Arg2>::value` (computed outside the sources at hand and
taken as given), `is_readonly = true` and the domain of `Arg1`. -/
def binary_ewise_expr_traits {D : Type} [DecidableEq D] (LMAT_USE_STATIC_ASSERT : Bool)
    (binary_ct_rows binary_ct_cols : Nat) (t1 t2 : matrix_traits D) :
    Except BuildError (matrix_traits D) :=
  if LMAT_USE_STATIC_ASSERT = true ∧ has_same_domain t1 t2 = false then
    .error .DomainMismatch
  else
    .ok ⟨2, binary_ct_rows, binary_ct_cols, true, t1.domain⟩

/-! ### Element-wise kernels through the linear path -/

/-- Modelled from the spec: `copy_kernel<T>` (declared outside the sources at hand;
`test_linear_ewise.cpp` applies it to `in_(s), out_(d)`): the destination
element becomes the source element.  Kernels are written here as combining
functions of the old destination value and the source value. -/
def copy_kernel {T : Type} (_ : T) (s : T) : T := s

/-- Modelled from the spec: `accum_kernel<T>` (declared outside the sources at
hand; applied to `in_out_(d), in_(s)`): the additive accumulation
`d := d + s`. -/
def accum_kernel {T : Type} [Add T] (d s : T) : T := d + s

/-- Modelled from the spec: `map_kernel<Fun>` (declared outside the sources at
hand; applied to `out_(d), in_(s)`): the element-wise map `d := f(s)`. -/
def map_kernel {S T : Type} (f : S → T) (_ : T) (s : S) : T := f s

/-- Modelled from the spec: the source `const_(v)` (declared outside the sources
at hand), which reads as `v` at every index. -/
def const_ {T : Type} (v : T) : Nat → T := fun _ => v

/-- Modelled from the spec: `ewise(kernel).eval(macc_<linear_, scalar_>(), ...)`
(declared in `mateval/ewise_eval.h`, which is not among the sources at hand):
the update of a destination in place by combining with a source, through the
linear path with the scalar access unit.  For every linear index `i < len`, in
order, `D[i] := g(D[i], S[i])`.  Element `i` of a view lives at offset
`i * step`: the step is `1` for a contiguous view, the element stride for a
strided single column and the leading dimension for a strided single row. -/
def linear_eval_scalar {S T : Type} (g : T → S → T) (len : Nat) (src : Nat → S)
    (sstep : Nat) (dst : Nat → T) (dstep : Nat) : Nat → T :=
  for_index len
    (fun i cur => store cur (i * dstep) (g (cur (i * dstep)) (src (i * sstep)))) dst

/-- Modelled from the spec: the load of a pack of lanes starting at offset `p`;
lane `l` of the pack is the element at `p + l`. -/
def load_pack {T : Type} (mem : Nat → T) (p : Nat) : Nat → T := fun l => mem (p + l)

/-- Modelled from the spec: the store of the `W` lanes of a pack at the offsets
`p .. p + W - 1`. -/
def store_pack {T : Type} (W : Nat) (mem : Nat → T) (p : Nat) (pk : Nat → T) : Nat → T :=
  copy_mem W pk mem p

/-- Modelled from the spec: `ewise(kernel).eval(macc_<linear_, simd_<..> >(), ...)`
(declared in `mateval/ewise_eval.h`, which is not among the sources at hand) on
contiguous views: the linear pass is split into chunks of `W` lanes, each
loaded, combined by the lane-wise function `gp` and stored as one pack, and the
remainder of fewer than `W` elements is processed by scalars with `g`. -/
def linear_eval_simd {S T : Type} (W : Nat)
    (gp : (Nat → T) → (Nat → S) → (Nat → T)) (g : T → S → T) (len : Nat)
    (src : Nat → S) (dst : Nat → T) : Nat → T :=
  let npacks := len / W
  let packed := for_index npacks
    (fun c cur => store_pack W cur (c * W) (gp (load_pack cur (c * W)) (load_pack src (c * W))))
    dst
  for_index (len - npacks * W)
    (fun r cur =>
      store cur (npacks * W + r) (g (cur (npacks * W + r)) (src (npacks * W + r))))
    packed

/-! ### Naive references for repeat evaluation -/

/-- Reference following the spec's words: the naive nested loops of a horizontal
repeat over `n` columns: for every column `j < n` and every row `i` of the seed
column, `dst(i, j) := seed[i]`. -/
def naive_horizontal_repeat {T : Type} (seed : IMatrixXpr T) (n : Nat)
    (dst : IDenseMatrix T) : IDenseMatrix T :=
  { dst with
    data := for_index n
      (fun j cur =>
        for_index seed.nrows (fun i c => store c (dst.ptr_col j + i) (seed.get_value i)) cur)
      dst.data }

/-- Reference following the spec's words: the naive nested loops of a vertical
repeat over `m` rows: for every column `j` of the seed row and every row
`i < m`, `dst(i, j) := seed[j]`. -/
def naive_vertical_repeat {T : Type} (seed : IMatrixXpr T) (m : Nat)
    (dst : IDenseMatrix T) : IDenseMatrix T :=
  { dst with
    data := for_index seed.ncolumns
      (fun j cur =>
        for_index m (fun i c => store c (dst.ptr_col j + i) (seed.get_value j)) cur)
      dst.data }

/-! ### Concrete inputs -/

/-- A seed column of three values `10, 11, 12`. -/
def sample_col : IMatrixXpr Nat := ⟨3, 1, fun i => 10 + i⟩

/-- A seed row of four values `10, 11, 12, 13`. -/
def sample_row : IMatrixXpr Nat := ⟨1, 4, fun j => 10 + j⟩

/-- A zeroed 3-by-4 destination with leading dimension 5. -/
def sample_dst : IDenseMatrix Nat := ⟨3, 4, 5, fun _ => 0⟩

/-- The node `horizontal_repeat(sample_col, 4)` with a run-time column count. -/
def sample_hrep : horizontal_repeat_expr Nat := ⟨0, sample_col, 4⟩

/-- The node `vertical_repeat(sample_row, 3)` with a run-time row count. -/
def sample_vrep : vertical_repeat_expr Nat := ⟨0, sample_row, 3⟩

/-- A 2-by-2 integer matrix with the values `0, 3, 6, 9` in column-major order. -/
def sample_mat : IMatrixXpr Int := ⟨2, 2, fun i => 3 * (i : Int)⟩

/-- A second 2-by-2 integer matrix, with the values `7, 5, 3, 1`. -/
def sample_mat2 : IMatrixXpr Int := ⟨2, 2, fun i => 7 - 2 * (i : Int)⟩

/-- A zeroed contiguous 2-by-2 integer destination. -/
def sample_dst2 : IDenseMatrix Int := ⟨2, 2, 2, fun _ => 0⟩

/-- The scalar function of the `max` test: `x > y ? x : y`. -/
def max_fun (x y : Int) : Int := if x > y then x else y

/-- A zeroed contiguous 3-by-4 destination (leading dimension 3). -/
def sample_dst_cont : IDenseMatrix Nat := ⟨3, 4, 3, fun _ => 0⟩

/-- The node `horizontal_repeat(sample_col, 1)` with a run-time column count. -/
def sample_hrep1 : horizontal_repeat_expr Nat := ⟨0, sample_col, 1⟩

/-- The node `vertical_repeat(sample_row, 1)` with a run-time row count. -/
def sample_vrep1 : vertical_repeat_expr Nat := ⟨0, sample_row, 1⟩

/-- A zeroed 3-by-1 destination with leading dimension 5. -/
def sample_dst_col : IDenseMatrix Nat := ⟨3, 1, 5, fun _ => 0⟩

/-- A zeroed 1-by-4 destination with leading dimension 3. -/
def sample_dst_row : IDenseMatrix Nat := ⟨1, 4, 3, fun _ => 0⟩

/-- A scalar (1-by-1) seed holding `7`. -/
def sample_scalar : IMatrixXpr Nat := ⟨1, 1, fun _ => 7⟩

/-- The node `horizontal_repeat(sample_scalar, 4)` with a run-time column count. -/
def sample_hrep_scalar : horizontal_repeat_expr Nat := ⟨0, sample_scalar, 4⟩

/-- The node `vertical_repeat(sample_scalar, 3)` with a run-time row count. -/
def sample_vrep_scalar : vertical_repeat_expr Nat := ⟨0, sample_scalar, 3⟩

/-- The squaring function of the varying-length test, over the integers. -/
def sqr_fun (x : Int) : Int := x * x

/-- A pack function that squares every lane. -/
def sqr_pack (ps : Nat → Int) : Nat → Int := fun l => sqr_fun (ps l)

/-- The pack function that applies a combining function on every lane. -/
def lanewise {S T : Type} (g : T → S → T) : (Nat → T) → (Nat → S) → (Nat → T) :=
  fun pd ps l => g (pd l) (ps l)

/-- The source of the varying-length test: `s[i] = 2 * i + 3`. -/
def sample_src : Nat → Int := fun i => 2 * (i : Int) + 3

/-- A zeroed integer buffer. -/
def zero_mem : Nat → Int := fun _ => 0

/-- The node `vertical_repeat(sample_row, 3)` with the static row count 3. -/
def sample_vrep_static : vertical_repeat_expr Nat := ⟨3, sample_row, 0⟩

/-- The node `horizontal_repeat(sample_col, 0)`: a 3-by-0 result. -/
def sample_hrep_empty : horizontal_repeat_expr Nat := ⟨0, sample_col, 0⟩

/-- The node `vertical_repeat` of an empty seed row over 3 rows: a 3-by-0 result. -/
def sample_vrep_empty : vertical_repeat_expr Nat := ⟨0, ⟨1, 0, fun _ => 0⟩, 3⟩

/-- A 3-by-0 destination with leading dimension 5 over a buffer holding `k` at
offset `k`. -/
def sample_dst_empty : IDenseMatrix Nat := ⟨3, 0, 5, fun k => k⟩

/-- A choice of the cost constants with a positive threshold and a positive
short-vector cost below the materialisation cost. -/
def sample_costs : eval_costs := ⟨1000, 4, 200⟩

/-- The node `horizontal_repeat(sample_col, 1)` with the static factor 1. -/
def sample_hrep_static1 : horizontal_repeat_expr Nat := ⟨1, sample_col, 0⟩

/-- The node `vertical_repeat(sample_row, 1)` with the static factor 1. -/
def sample_vrep_static1 : vertical_repeat_expr Nat := ⟨1, sample_row, 0⟩

/-- Two element domains. -/
inductive sample_domain where
  | cpu
  | other
  deriving DecidableEq, Repr

/-- A binary node over the two 2-by-2 sample matrices. -/
def sample_binary : binary_ewise_expr Int Int Int := ⟨max_fun, sample_mat, sample_mat2⟩

/-- A 1-by-4 destination with leading dimension 3 over a buffer holding `100 + k`
at offset `k`. -/
def sample_dst_row_marked : IDenseMatrix Nat := ⟨1, 4, 3, fun k => 100 + k⟩

/-- A 3-by-4 destination with leading dimension 5 over a buffer holding `100 + k`
at offset `k`. -/
def sample_dst_marked : IDenseMatrix Nat := ⟨3, 4, 5, fun k => 100 + k⟩

/-! ## Theorems -/

/-! ### Memory primitives and loops -/

/-- A store changes exactly the addressed position. -/
theorem store_apply {T : Type} (mem : Nat → T) (k : Nat) (v : T) (x : Nat) :
    store mem k v x = if x = k then v else mem x := rfl

/-- Unfolding of one more iteration of the counted loop. -/
theorem for_index_succ {σ : Type} (n : Nat) (body : Nat → σ → σ) (s : σ) :
    for_index (n + 1) body s = body n (for_index n body s) := rfl

/-- Closed form of `copy_mem`: the positions `p .. p + n - 1` receive the source
values in order and every other position is kept. -/
theorem copy_mem_apply {T : Type} (n : Nat) (src mem : Nat → T) (p k : Nat) :
    copy_mem n src mem p k = if p ≤ k ∧ k < p + n then src (k - p) else mem k := by
  induction n with
  | zero =>
    have hc : ¬ (p ≤ k ∧ k < p + 0) := by omega
    rw [if_neg hc]
    rfl
  | succ n ih =>
    have hstep : copy_mem (n + 1) src mem p
        = store (copy_mem n src mem p) (p + n) (src n) := rfl
    rw [hstep, store_apply, ih]
    by_cases hk : k = p + n
    · have hc : p ≤ k ∧ k < p + (n + 1) := by omega
      have hsub : k - p = n := by omega
      rw [if_pos hk, if_pos hc, hsub]
    · rw [if_neg hk]
      by_cases h2 : p ≤ k ∧ k < p + n
      · have hc : p ≤ k ∧ k < p + (n + 1) := by omega
        rw [if_pos h2, if_pos hc]
      · have hc : ¬ (p ≤ k ∧ k < p + (n + 1)) := by omega
        rw [if_neg h2, if_neg hc]

/-- Closed form of `fill_mem`: the positions `p .. p + n - 1` receive `v` and
every other position is kept. -/
theorem fill_mem_apply {T : Type} (n : Nat) (mem : Nat → T) (p : Nat) (v : T) (k : Nat) :
    fill_mem n mem p v k = if p ≤ k ∧ k < p + n then v else mem k := by
  induction n with
  | zero =>
    have hc : ¬ (p ≤ k ∧ k < p + 0) := by omega
    rw [if_neg hc]
    rfl
  | succ n ih =>
    have hstep : fill_mem (n + 1) mem p v = store (fill_mem n mem p v) (p + n) v := rfl
    rw [hstep, store_apply, ih]
    by_cases hk : k = p + n
    · have hc : p ≤ k ∧ k < p + (n + 1) := by omega
      rw [if_pos hk, if_pos hc]
    · rw [if_neg hk]
      by_cases h2 : p ≤ k ∧ k < p + n
      · have hc : p ≤ k ∧ k < p + (n + 1) := by omega
        rw [if_pos h2, if_pos hc]
      · have hc : ¬ (p ≤ k ∧ k < p + (n + 1)) := by omega
        rw [if_neg h2, if_neg hc]

/-- A loop over the columns `0 .. n - 1` whose `j`-th iteration rewrites exactly
the span `j * ld .. j * ld + m - 1` with the values `g j` leaves `g j i` at
offset `j * ld + i`, provided the spans do not overlap (`m <= ld`). -/
theorem for_index_columns {T : Type} (ld m : Nat) (g : Nat → Nat → T)
    (body : Nat → (Nat → T) → (Nat → T))
    (hbody : ∀ j cur k,
      body j cur k = if j * ld ≤ k ∧ k < j * ld + m then g j (k - j * ld) else cur k)
    (hld : m ≤ ld) (mem : Nat → T) (n : Nat) :
    ∀ j i, j < n → i < m → for_index n body mem (j * ld + i) = g j i := by
  induction n with
  | zero => intro j i hj; omega
  | succ n ih =>
    intro j i hj hi
    rw [for_index_succ, hbody]
    by_cases hjn : j = n
    · subst hjn
      have hc : j * ld ≤ j * ld + i ∧ j * ld + i < j * ld + m := by omega
      have hsub : j * ld + i - j * ld = i := by omega
      rw [if_pos hc, hsub]
    · have hlt : j < n := by omega
      have hmul : (j + 1) * ld ≤ n * ld := Nat.mul_le_mul_right ld hlt
      have hexp : (j + 1) * ld = j * ld + ld := by ring
      have hc : ¬ (n * ld ≤ j * ld + i ∧ j * ld + i < n * ld + m) := by omega
      rw [if_neg hc]
      exact ih j i hlt hi

/-- The same loop keeps every position that lies in none of the column spans. -/
theorem for_index_columns_frame {T : Type} (ld m : Nat) (g : Nat → Nat → T)
    (body : Nat → (Nat → T) → (Nat → T))
    (hbody : ∀ j cur k,
      body j cur k = if j * ld ≤ k ∧ k < j * ld + m then g j (k - j * ld) else cur k)
    (mem : Nat → T) (n k : Nat)
    (hk : ∀ j, j < n → ¬ (j * ld ≤ k ∧ k < j * ld + m)) :
    for_index n body mem k = mem k := by
  induction n with
  | zero => rfl
  | succ n ih =>
    rw [for_index_succ, hbody, if_neg (hk n (Nat.lt_succ_self n))]
    exact ih (fun j hj => hk j (Nat.lt_succ_of_lt hj))

/-- Scalar evaluation into a dense destination leaves `expr[j * rows + i]` at the
logical element `(i, j)`, on the linear path and on the per-column path. -/
theorem evaluate_by_scalars_elem {T : Type} (expr : IMatrixXpr T) (dst : IDenseMatrix T)
    (hld : dst.nrows ≤ dst.lead_dim) (i j : Nat) (hi : i < dst.nrows)
    (hj : j < dst.ncolumns) :
    (evaluate_by_scalars expr dst).elem i j = expr.get_value (j * dst.nrows + i) := by
  unfold evaluate_by_scalars
  by_cases hc : has_continuous_layout dst = true
  · rw [if_pos hc]
    have heq : dst.lead_dim = dst.nrows := by
      simpa [has_continuous_layout] using hc
    simp only [IDenseMatrix.elem, IDenseMatrix.ptr_col]
    rw [copy_mem_apply, heq]
    have hmul : (j + 1) * dst.nrows ≤ dst.ncolumns * dst.nrows := Nat.mul_le_mul_right _ hj
    have hexp : (j + 1) * dst.nrows = j * dst.nrows + dst.nrows := by ring
    have hcomm : dst.nrows * dst.ncolumns = dst.ncolumns * dst.nrows := Nat.mul_comm _ _
    have hin : 0 ≤ j * dst.nrows + i ∧ j * dst.nrows + i < 0 + dst.nrows * dst.ncolumns := by
      omega
    rw [if_pos hin]
    rfl
  · rw [if_neg hc]
    simp only [IDenseMatrix.elem, IDenseMatrix.ptr_col]
    exact for_index_columns dst.lead_dim dst.nrows
      (fun j i => expr.get_value (j * dst.nrows + i)) _
      (fun j cur k => copy_mem_apply _ _ _ _ _) hld dst.data dst.ncolumns j i hj hi

/-- The default entry point leaves `expr[j * rows + i]` at element `(i, j)`. -/
theorem default_evaluate_elem {T : Type} (expr : IMatrixXpr T) (dst : IDenseMatrix T)
    (hld : dst.nrows ≤ dst.lead_dim) (i j : Nat) (hi : i < dst.nrows)
    (hj : j < dst.ncolumns) :
    (default_evaluate expr dst).elem i j = expr.get_value (j * dst.nrows + i) :=
  evaluate_by_scalars_elem expr dst hld i j hi hj

/-- Evaluation changes the memory only: extents and stride of the destination
are those it had before. -/
theorem default_evaluate_shape {T : Type} (expr : IMatrixXpr T) (dst : IDenseMatrix T) :
    (default_evaluate expr dst).nrows = dst.nrows
      ∧ (default_evaluate expr dst).ncolumns = dst.ncolumns
      ∧ (default_evaluate expr dst).lead_dim = dst.lead_dim := by
  unfold default_evaluate evaluate_by_scalars
  by_cases hc : has_continuous_layout dst = true
  · rw [if_pos hc]; exact ⟨rfl, rfl, rfl⟩
  · rw [if_neg hc]; exact ⟨rfl, rfl, rfl⟩

/-- Filling a dense destination leaves `v` at every logical element. -/
theorem fill_elem {T : Type} (dst : IDenseMatrix T) (v : T)
    (hld : dst.nrows ≤ dst.lead_dim) (i j : Nat) (hi : i < dst.nrows)
    (hj : j < dst.ncolumns) :
    (fill dst v).elem i j = v := by
  simp only [fill, IDenseMatrix.elem, IDenseMatrix.ptr_col]
  exact for_index_columns dst.lead_dim dst.nrows (fun _ _ => v) _
    (fun j cur k => fill_mem_apply _ _ _ _ _) hld dst.data dst.ncolumns j i hj hi


/-! ### Repeat evaluation -/

/-- The general routine for a horizontal repeat leaves the seed value `s[i]` at
element `(i, j)` in each of its three branches. -/
theorem horizontal_repeat_evaluate_elem {T : Type} (expr : horizontal_repeat_expr T)
    (dst : IDenseMatrix T) (hm : dst.nrows = expr.arg.nrows)
    (hn : dst.ncolumns = expr.ncolumns) (hld : dst.nrows ≤ dst.lead_dim)
    (i j : Nat) (hi : i < dst.nrows) (hj : j < dst.ncolumns) :
    (expr.evaluate dst).elem i j = expr.arg.get_value i := by
  unfold horizontal_repeat_expr.evaluate
  have hcol : expr.is_column = true ↔ expr.ncolumns = 1 := by
    simp [horizontal_repeat_expr.is_column]
  by_cases h1 : expr.is_column = true
  · have hj0 : j = 0 := by have := hcol.1 h1; omega
    subst hj0
    have hview := default_evaluate_elem expr.arg (ref_col dst.data expr.arg.nrows)
      (Nat.le_refl _) i 0 (by simpa [ref_col, hm] using hi) (by simp [ref_col])
    simp only [IDenseMatrix.elem, IDenseMatrix.ptr_col, Nat.zero_mul, Nat.zero_add] at hview
    simp only [if_pos h1, IDenseMatrix.elem, IDenseMatrix.ptr_col, Nat.zero_mul, Nat.zero_add]
    exact hview
  · by_cases h2 : (repcol_ewrapper.wrap expr.arg).nrows = 1
    · have hrows : (repcol_ewrapper.wrap expr.arg).nrows = dst.nrows := by
        rw [hm]; rfl
      have hi0 : i = 0 := by omega
      subst hi0
      simp only [if_neg h1, if_pos h2]
      rw [fill_elem dst _ hld 0 j hi hj]
      rfl
    · simp only [if_neg h1, if_neg h2, IDenseMatrix.elem, IDenseMatrix.ptr_col]
      have hrows : (repcol_ewrapper.wrap expr.arg).nrows = dst.nrows := by
        rw [hm]; rfl
      rw [hrows]
      exact for_index_columns dst.lead_dim dst.nrows
        (fun _ i => (repcol_ewrapper.wrap expr.arg).data i) _
        (fun j cur k => copy_mem_apply _ _ _ _ _) hld dst.data expr.ncolumns j i
        (by omega) hi

/-- C1: evaluating `horizontal_repeat(s, n)` into an `m`-by-`n` dense destination
(`m` the seed's row count, leading dimension at least `m`) leaves
`dst(i, j) = s[i]` for every `i < m` and `j < n`.  This holds for the general
routine, whichever of its branches runs (single column, scalar seed, per-column
copy), and for the routine that overload resolution selects (the pass-through
overload when the static factor is `1`). -/
theorem horizontal_repeat_correct {T : Type} (expr : horizontal_repeat_expr T)
    (dst : IDenseMatrix T) (hm : dst.nrows = expr.arg.nrows)
    (hn : dst.ncolumns = expr.ncolumns) (hld : dst.nrows ≤ dst.lead_dim)
    (i j : Nat) (hi : i < dst.nrows) (hj : j < dst.ncolumns) :
    (expr.evaluate dst).elem i j = expr.arg.get_value i
      ∧ (expr.evaluate_overload dst).elem i j = expr.arg.get_value i := by
  have hgen := horizontal_repeat_evaluate_elem expr dst hm hn hld i j hi hj
  refine ⟨hgen, ?_⟩
  unfold horizontal_repeat_expr.evaluate_overload
  by_cases hN : expr.N = 1
  · rw [if_pos hN]
    have hcols : expr.ncolumns = 1 := by
      simp [horizontal_repeat_expr.ncolumns, hN]
    have hj0 : j = 0 := by omega
    subst hj0
    unfold horizontal_repeat_expr.evaluate_1
    rw [default_evaluate_elem expr.arg dst hld i 0 hi hj, Nat.zero_mul, Nat.zero_add]
  · rw [if_neg hN]
    exact hgen

/-- Witness of C1: the 3-row seed `10, 11, 12` repeated over four columns of a
destination with leading dimension 5; element `(2, 3)` receives `12`. -/
theorem horizontal_repeat_correct_witness :
    (sample_dst.nrows = sample_hrep.arg.nrows ∧ sample_dst.ncolumns = sample_hrep.ncolumns
        ∧ sample_dst.nrows ≤ sample_dst.lead_dim ∧ 2 < sample_dst.nrows
        ∧ 3 < sample_dst.ncolumns)
      ∧ (sample_hrep.evaluate sample_dst).elem 2 3 = 12
      ∧ (sample_hrep.evaluate_overload sample_dst).elem 2 3 = 12 :=
  ⟨⟨rfl, rfl, by decide, by decide, by decide⟩,
    horizontal_repeat_correct sample_hrep sample_dst rfl rfl (by decide) 2 3
      (by decide) (by decide)⟩

/-- The general routine for a vertical repeat leaves the seed value `s[j]` at
element `(i, j)` in each of its branches. -/
theorem vertical_repeat_evaluate_elem {T : Type} (expr : vertical_repeat_expr T)
    (dst : IDenseMatrix T) (hm : dst.nrows = expr.nrows)
    (hn : dst.ncolumns = expr.arg.ncolumns) (hld : dst.nrows ≤ dst.lead_dim)
    (i j : Nat) (hi : i < dst.nrows) (hj : j < dst.ncolumns) :
    (expr.evaluate dst).elem i j = expr.arg.get_value j := by
  unfold vertical_repeat_expr.evaluate
  have hrow : expr.is_row = true ↔ expr.nrows = 1 := by
    simp [vertical_repeat_expr.is_row]
  by_cases h1 : expr.is_row = true
  · have h1r : expr.nrows = 1 := hrow.1 h1
    have hi0 : i = 0 := by omega
    subst hi0
    by_cases hc : has_continuous_layout dst = true
    · have hldim : dst.lead_dim = 1 := by
        have h := hc
        simp only [has_continuous_layout, beq_iff_eq] at h
        omega
      have hview := default_evaluate_elem expr.arg (ref_row dst.data expr.arg.ncolumns)
        (Nat.le_refl _) 0 j (by simp [ref_row]) (by simpa [ref_row, hn] using hj)
      have hshape := (default_evaluate_shape expr.arg
        (ref_row dst.data expr.arg.ncolumns)).2.2
      simp only [IDenseMatrix.elem, IDenseMatrix.ptr_col, hshape] at hview
      simp only [ref_row, Nat.mul_one, Nat.add_zero] at hview
      simp only [if_pos h1, if_pos hc, IDenseMatrix.elem, IDenseMatrix.ptr_col, hldim,
        Nat.mul_one, Nat.add_zero]
      exact hview
    · have hview := default_evaluate_elem expr.arg
        (ref_matrix_ex dst.data 1 expr.arg.ncolumns dst.lead_dim)
        (by simpa [ref_matrix_ex, hm, h1r] using hld) 0 j (by simp [ref_matrix_ex])
        (by simpa [ref_matrix_ex, hn] using hj)
      have hshape := (default_evaluate_shape expr.arg
        (ref_matrix_ex dst.data 1 expr.arg.ncolumns dst.lead_dim)).2.2
      simp only [IDenseMatrix.elem, IDenseMatrix.ptr_col, hshape] at hview
      simp only [ref_matrix_ex, Nat.mul_one, Nat.add_zero] at hview
      simp only [if_pos h1, if_neg hc, IDenseMatrix.elem, IDenseMatrix.ptr_col, Nat.add_zero]
      exact hview
  · have hcols : (reprow_ewrapper.wrap expr.arg).ncolumns = dst.ncolumns := by
      rw [hn]; rfl
    have hlen : (if expr.M = 0 then expr.nrows else expr.M) = dst.nrows := by
      rw [hm]
      by_cases hM : expr.M = 0
      · rw [if_pos hM]
      · rw [if_neg hM]; simp [vertical_repeat_expr.nrows, hM]
    by_cases hM : expr.M = 0
    · rw [if_pos hM] at hlen
      by_cases hn1 : (reprow_ewrapper.wrap expr.arg).ncolumns = 1
      · have hj0 : j = 0 := by omega
        subst hj0
        simp only [if_neg h1, if_pos hM, if_pos hn1, IDenseMatrix.elem, IDenseMatrix.ptr_col,
          IDenseMatrix.ptr_data, Nat.zero_mul, Nat.zero_add]
        rw [fill_mem_apply, hlen, if_pos (by omega)]
        rfl
      · simp only [if_neg h1, if_pos hM, if_neg hn1, IDenseMatrix.elem, IDenseMatrix.ptr_col]
        rw [hlen, hcols]
        exact for_index_columns dst.lead_dim dst.nrows
          (fun j _ => (reprow_ewrapper.wrap expr.arg).get j) _
          (fun j cur k => fill_mem_apply _ _ _ _ _) hld dst.data dst.ncolumns j i hj hi
    · rw [if_neg hM] at hlen
      by_cases hn1 : (reprow_ewrapper.wrap expr.arg).ncolumns = 1
      · have hj0 : j = 0 := by omega
        subst hj0
        simp only [if_neg h1, if_neg hM, if_pos hn1, IDenseMatrix.elem, IDenseMatrix.ptr_col,
          IDenseMatrix.ptr_data, Nat.zero_mul, Nat.zero_add]
        rw [fill_mem_apply, hlen, if_pos (by omega)]
        rfl
      · simp only [if_neg h1, if_neg hM, if_neg hn1, IDenseMatrix.elem, IDenseMatrix.ptr_col]
        rw [hlen, hcols]
        exact for_index_columns dst.lead_dim dst.nrows
          (fun j _ => (reprow_ewrapper.wrap expr.arg).get j) _
          (fun j cur k => fill_mem_apply _ _ _ _ _) hld dst.data dst.ncolumns j i hj hi

/-- C2: evaluating `vertical_repeat(s, m)` into an `m`-by-`n` dense destination
(`n` the seed's column count, leading dimension at least `m`) leaves
`dst(i, j) = s[j]` for every `i < m` and `j < n`.  This holds for the general
routine, whichever of its branches runs (single row with contiguous or strided
destination, single-column seed, one fill per column, with run-time or static
row count), and for the routine that overload resolution selects. -/
theorem vertical_repeat_correct {T : Type} (expr : vertical_repeat_expr T)
    (dst : IDenseMatrix T) (hm : dst.nrows = expr.nrows)
    (hn : dst.ncolumns = expr.arg.ncolumns) (hld : dst.nrows ≤ dst.lead_dim)
    (i j : Nat) (hi : i < dst.nrows) (hj : j < dst.ncolumns) :
    (expr.evaluate dst).elem i j = expr.arg.get_value j
      ∧ (expr.evaluate_overload dst).elem i j = expr.arg.get_value j := by
  have hgen := vertical_repeat_evaluate_elem expr dst hm hn hld i j hi hj
  refine ⟨hgen, ?_⟩
  unfold vertical_repeat_expr.evaluate_overload
  by_cases hM : expr.M = 1
  · rw [if_pos hM]
    have hrows : expr.nrows = 1 := by
      simp [vertical_repeat_expr.nrows, hM]
    have hi0 : i = 0 := by omega
    subst hi0
    unfold vertical_repeat_expr.evaluate_1
    rw [default_evaluate_elem expr.arg dst hld 0 j hi hj, hm, hrows, Nat.mul_one,
      Nat.add_zero]
  · rw [if_neg hM]
    exact hgen

/-- Witness of C2: the 4-column seed `10, 11, 12, 13` repeated over three rows of
a destination with leading dimension 5; element `(2, 3)` receives `13`. -/
theorem vertical_repeat_correct_witness :
    (sample_dst.nrows = sample_vrep.nrows ∧ sample_dst.ncolumns = sample_vrep.arg.ncolumns
        ∧ sample_dst.nrows ≤ sample_dst.lead_dim ∧ 2 < sample_dst.nrows
        ∧ 3 < sample_dst.ncolumns)
      ∧ (sample_vrep.evaluate sample_dst).elem 2 3 = 13
      ∧ (sample_vrep.evaluate_overload sample_dst).elem 2 3 = 13 :=
  ⟨⟨rfl, rfl, by decide, by decide, by decide⟩,
    vertical_repeat_correct sample_vrep sample_dst rfl rfl (by decide) 2 3
      (by decide) (by decide)⟩

/-! ### Element-wise nodes -/

/-- At a column-major linear index `k < rows * cols` of the destination, default
evaluation leaves `expr[k]`. -/
theorem default_evaluate_at_linear {T : Type} (expr : IMatrixXpr T) (dst : IDenseMatrix T)
    (hld : dst.nrows ≤ dst.lead_dim) (k : Nat) (hk : k < dst.nrows * dst.ncolumns) :
    (default_evaluate expr dst).at_linear k = expr.get_value k := by
  have hpos : 0 < dst.nrows := by
    rcases Nat.eq_zero_or_pos dst.nrows with h0 | h0
    · rw [h0, Nat.zero_mul] at hk; omega
    · exact h0
  have hrow : k % dst.nrows < dst.nrows := Nat.mod_lt _ hpos
  have hcol : k / dst.nrows < dst.ncolumns := Nat.div_lt_of_lt_mul hk
  unfold IDenseMatrix.at_linear
  rw [(default_evaluate_shape expr dst).1,
    default_evaluate_elem expr dst hld _ _ hrow hcol, Nat.div_add_mod']

/-- The constructor of a binary node succeeds exactly on operands of equal shape,
and then stores them as given. -/
theorem binary_ewise_construct_eq {S1 S2 T : Type} (f : S1 → S2 → T)
    (a : IMatrixXpr S1) (b : IMatrixXpr S2) :
    binary_ewise_expr.construct f a b
      = if a.nrows = b.nrows ∧ a.ncolumns = b.ncolumns then .ok ⟨f, a, b⟩
        else .error .ShapeMismatch := by
  unfold binary_ewise_expr.construct check_same_size binary_ewise_expr.first_arg
    binary_ewise_expr.second_arg
  by_cases h : a.nrows = b.nrows ∧ a.ncolumns = b.ncolumns
  · simp only [if_pos h]
  · simp only [if_neg h]

/-- The scalar-second overload always returns the node over the argument and the
constant matrix of the argument's shape. -/
theorem ewise_fix2_ok {S C T : Type} (f : S → C → T) (A : IMatrixXpr S) (c : C) :
    ewise_fix2 f A c
      = .ok ⟨f, A, (⟨A.nrows, A.ncolumns, c⟩ : const_matrix C).toXpr⟩ := by
  unfold ewise_fix2 binary_expr_map_get
  rw [binary_ewise_construct_eq]
  exact if_pos ⟨rfl, rfl⟩

/-- The scalar-first overload always returns the node over the constant matrix of
the argument's shape and the argument. -/
theorem ewise_fix1_ok {S C T : Type} (f : C → S → T) (c : C) (A : IMatrixXpr S) :
    ewise_fix1 f c A
      = .ok ⟨f, (⟨A.nrows, A.ncolumns, c⟩ : const_matrix C).toXpr, A⟩ := by
  unfold ewise_fix1 binary_expr_map_get
  rw [binary_ewise_construct_eq]
  exact if_pos ⟨rfl, rfl⟩

/-- C3: for a unary node `ewise(f, A)` and a binary node `ewise(g, A, B)` over
operands of identical shape, evaluation into a dense destination `D` of that
shape gives `D[i] = f(A[i])`, respectively `D[i] = g(A[i], B[i])`, at every
column-major linear index `i < rows * cols`; this holds for the default
evaluation and for `evaluate_by_scalars`. -/
theorem ewise_evaluate_correct {S1 S2 T : Type} (f : S1 → T) (g : S1 → S2 → T)
    (A : IMatrixXpr S1) (B : IMatrixXpr S2) (D : IDenseMatrix T)
    (hB : A.nrows = B.nrows ∧ A.ncolumns = B.ncolumns)
    (hD : D.nrows = A.nrows ∧ D.ncolumns = A.ncolumns) (hld : D.nrows ≤ D.lead_dim)
    (i : Nat) (hi : i < A.nrows * A.ncolumns) :
    (default_evaluate (ewise_unary f A).toXpr D).at_linear i = f (A.get_value i)
      ∧ (evaluate_by_scalars (ewise_unary f A).toXpr D).at_linear i = f (A.get_value i)
      ∧ ∃ e : binary_ewise_expr S1 S2 T, ewise_binary g A B = .ok e
          ∧ (default_evaluate e.toXpr D).at_linear i = g (A.get_value i) (B.get_value i)
          ∧ (evaluate_by_scalars e.toXpr D).at_linear i
              = g (A.get_value i) (B.get_value i) := by
  have hk : i < D.nrows * D.ncolumns := by rw [hD.1, hD.2]; exact hi
  have hun := default_evaluate_at_linear (ewise_unary f A).toXpr D hld i hk
  have hok : ewise_binary g A B = .ok ⟨g, A, B⟩ := by
    unfold ewise_binary binary_expr_map_get
    rw [binary_ewise_construct_eq]
    exact if_pos hB
  have hbin := default_evaluate_at_linear (binary_ewise_expr.toXpr ⟨g, A, B⟩) D hld i hk
  exact ⟨hun, hun, ⟨g, A, B⟩, hok, hbin, hbin⟩

/-- Witness of C3 on 2-by-2 integer matrices: at linear index `3` the unary node
of `x + 1` gives `9 + 1` and the binary node of `max` gives `max(9, 1) = 9`. -/
theorem ewise_evaluate_correct_witness :
    ((sample_mat.nrows = sample_mat2.nrows ∧ sample_mat.ncolumns = sample_mat2.ncolumns)
        ∧ (sample_dst2.nrows = sample_mat.nrows ∧ sample_dst2.ncolumns = sample_mat.ncolumns)
        ∧ sample_dst2.nrows ≤ sample_dst2.lead_dim
        ∧ 3 < sample_mat.nrows * sample_mat.ncolumns)
      ∧ (default_evaluate (ewise_unary (fun x : Int => x + 1) sample_mat).toXpr
            sample_dst2).at_linear 3 = 10
      ∧ (evaluate_by_scalars (ewise_unary (fun x : Int => x + 1) sample_mat).toXpr
            sample_dst2).at_linear 3 = 10
      ∧ ∃ e : binary_ewise_expr Int Int Int, ewise_binary max_fun sample_mat sample_mat2 = .ok e
          ∧ (default_evaluate e.toXpr sample_dst2).at_linear 3 = 9
          ∧ (evaluate_by_scalars e.toXpr sample_dst2).at_linear 3 = 9 :=
  ⟨⟨⟨rfl, rfl⟩, ⟨rfl, rfl⟩, by decide, by decide⟩,
    ewise_evaluate_correct (fun x : Int => x + 1) max_fun sample_mat sample_mat2 sample_dst2
      ⟨rfl, rfl⟩ ⟨rfl, rfl⟩ (by decide) 3 (by decide)⟩

/-- C4: constructing a binary element-wise node fails with `ShapeMismatch` if and
only if the operands differ in row count or in column count.  The check is part
of the constructor, which the `ewise` overload runs: the construction returns
the node holding the two operands as given exactly when their shapes agree, so
every node it returns has operands of equal shape, untruncated and not
broadcast. -/
theorem binary_ewise_shape_check {S1 S2 T : Type} (f : S1 → S2 → T)
    (a : IMatrixXpr S1) (b : IMatrixXpr S2) :
    (binary_ewise_expr.construct f a b = .error .ShapeMismatch
        ↔ (a.nrows ≠ b.nrows ∨ a.ncolumns ≠ b.ncolumns))
      ∧ (binary_ewise_expr.construct f a b = .ok ⟨f, a, b⟩
        ↔ (a.nrows = b.nrows ∧ a.ncolumns = b.ncolumns))
      ∧ (∀ e : binary_ewise_expr S1 S2 T, binary_ewise_expr.construct f a b = .ok e →
          e.first_arg = a ∧ e.second_arg = b
            ∧ e.first_arg.nrows = e.second_arg.nrows
            ∧ e.first_arg.ncolumns = e.second_arg.ncolumns)
      ∧ ewise_binary f a b = binary_ewise_expr.construct f a b := by
  rw [binary_ewise_construct_eq]
  by_cases h : a.nrows = b.nrows ∧ a.ncolumns = b.ncolumns
  · rw [if_pos h]
    refine ⟨?_, ?_, ?_, ?_⟩
    · constructor
      · intro hc; cases hc
      · intro hne; omega
    · exact ⟨fun _ => h, fun _ => rfl⟩
    · intro e he
      cases he
      exact ⟨rfl, rfl, h.1, h.2⟩
    · unfold ewise_binary binary_expr_map_get
      rw [binary_ewise_construct_eq]
      exact if_pos h
  · rw [if_neg h]
    refine ⟨?_, ?_, ?_, ?_⟩
    · exact ⟨fun _ => by omega, fun _ => rfl⟩
    · constructor
      · intro hc; cases hc
      · intro heq; exact absurd heq h
    · intro e he
      cases he
    · unfold ewise_binary binary_expr_map_get
      rw [binary_ewise_construct_eq]
      exact if_neg h

/-- C5: the scalar overloads keep the argument order.  `ewise(f, A, c)` returns a
node whose value at every index `i` is `f(A[i], c)`, and `ewise(f, c, A)` one
whose value is `f(c, A[i])`; evaluated into a dense destination of the shape of
`A`, these are the values found at every linear index `i < rows * cols`. -/
theorem ewise_scalar_argument_order {S C T : Type} (f2 : S → C → T) (f1 : C → S → T)
    (A : IMatrixXpr S) (c : C) (D : IDenseMatrix T)
    (hD : D.nrows = A.nrows ∧ D.ncolumns = A.ncolumns) (hld : D.nrows ≤ D.lead_dim)
    (i : Nat) (hi : i < A.nrows * A.ncolumns) :
    (∃ e : binary_ewise_expr S C T, ewise_fix2 f2 A c = .ok e
        ∧ (∀ k, e.toXpr.get_value k = f2 (A.get_value k) c)
        ∧ (default_evaluate e.toXpr D).at_linear i = f2 (A.get_value i) c)
      ∧ (∃ e : binary_ewise_expr C S T, ewise_fix1 f1 c A = .ok e
        ∧ (∀ k, e.toXpr.get_value k = f1 c (A.get_value k))
        ∧ (default_evaluate e.toXpr D).at_linear i = f1 c (A.get_value i)) := by
  have hk : i < D.nrows * D.ncolumns := by rw [hD.1, hD.2]; exact hi
  refine ⟨⟨_, ewise_fix2_ok f2 A c, fun _ => rfl, ?_⟩, ⟨_, ewise_fix1_ok f1 c A, fun _ => rfl, ?_⟩⟩
  · rw [default_evaluate_at_linear _ D hld i hk]
    rfl
  · rw [default_evaluate_at_linear _ D hld i hk]
    rfl

/-- Witness of C5 with the `max` function and `c = 5` on the matrix `0, 3, 6, 9`:
at linear index `1`, `(max)(A, c)` gives `3 > 5 ? 3 : 5 = 5` and `(max)(c, A)`
gives `5 > 3 ? 5 : 3 = 5`. -/
theorem ewise_scalar_argument_order_witness :
    ((sample_dst2.nrows = sample_mat.nrows ∧ sample_dst2.ncolumns = sample_mat.ncolumns)
        ∧ sample_dst2.nrows ≤ sample_dst2.lead_dim
        ∧ 1 < sample_mat.nrows * sample_mat.ncolumns)
      ∧ (∃ e : binary_ewise_expr Int Int Int, ewise_fix2 max_fun sample_mat 5 = .ok e
        ∧ (∀ k, e.toXpr.get_value k = max_fun (sample_mat.get_value k) 5)
        ∧ (default_evaluate e.toXpr sample_dst2).at_linear 1 = 5)
      ∧ (∃ e : binary_ewise_expr Int Int Int, ewise_fix1 max_fun 5 sample_mat = .ok e
        ∧ (∀ k, e.toXpr.get_value k = max_fun 5 (sample_mat.get_value k))
        ∧ (default_evaluate e.toXpr sample_dst2).at_linear 1 = 5) :=
  ⟨⟨⟨rfl, rfl⟩, by decide, by decide⟩,
    ewise_scalar_argument_order max_fun max_fun sample_mat 5 sample_dst2 ⟨rfl, rfl⟩
      (by decide) 1 (by decide)⟩

/-- C6: for every matrix expression `A` (of any shape, empty ones included) and
every scalar `c`, neither `ewise(f, A, c)` nor `ewise(f, c, A)` fails with
`ShapeMismatch`: the constant operand is built with `A.nrows()` rows and
`A.ncolumns()` columns, the same-size check passes, and the returned node
reports the row and column counts of `A`. -/
theorem ewise_scalar_never_mismatch {S C T : Type} (f2 : S → C → T) (f1 : C → S → T)
    (A : IMatrixXpr S) (c : C) :
    (∃ e : binary_ewise_expr S C T, ewise_fix2 f2 A c = .ok e
        ∧ e.first_arg = A
        ∧ e.second_arg.nrows = A.nrows ∧ e.second_arg.ncolumns = A.ncolumns
        ∧ check_same_size e.first_arg e.second_arg = .ok ()
        ∧ e.nrows = A.nrows ∧ e.ncolumns = A.ncolumns)
      ∧ ewise_fix2 f2 A c ≠ .error .ShapeMismatch
      ∧ (∃ e : binary_ewise_expr C S T, ewise_fix1 f1 c A = .ok e
        ∧ e.second_arg = A
        ∧ e.first_arg.nrows = A.nrows ∧ e.first_arg.ncolumns = A.ncolumns
        ∧ check_same_size e.first_arg e.second_arg = .ok ()
        ∧ e.nrows = A.nrows ∧ e.ncolumns = A.ncolumns)
      ∧ ewise_fix1 f1 c A ≠ .error .ShapeMismatch := by
  have hchk2 : check_same_size A (⟨A.nrows, A.ncolumns, c⟩ : const_matrix C).toXpr = .ok () :=
    if_pos ⟨rfl, rfl⟩
  have hchk1 : check_same_size (⟨A.nrows, A.ncolumns, c⟩ : const_matrix C).toXpr A = .ok () :=
    if_pos ⟨rfl, rfl⟩
  refine ⟨⟨_, ewise_fix2_ok f2 A c, rfl, rfl, rfl, hchk2, rfl, rfl⟩, ?_,
    ⟨_, ewise_fix1_ok f1 c A, rfl, rfl, rfl, hchk1, rfl, rfl⟩, ?_⟩
  · rw [ewise_fix2_ok]
    intro hc; cases hc
  · rw [ewise_fix1_ok]
    intro hc; cases hc

/-! ### Ranges -/

/-- C7: for all integers `a`, `s`, `b` the element count of `colon(a, s, b)` is
`(b - a) / s` rounded toward zero when `s` and `b - a` are both non-zero and of
the same sign, and `0` otherwise; the range starts at `a` and has step `s`. -/
theorem colon_step_count (a s b : Int) :
    (colon_step a s b).num
        = (if (0 < s ∧ 0 < b - a) ∨ (s < 0 ∧ b - a < 0) then Int.tdiv (b - a) s else 0)
      ∧ (colon_step a s b).begin_index = a
      ∧ (colon_step a s b).step = s := by
  refine ⟨?_, rfl, rfl⟩
  simp only [colon_step, step_range.num]
  by_cases hab : a ≤ b
  · by_cases hs : s > 0
    · by_cases hlt : a < b
      · have hc : (0 < s ∧ 0 < b - a) ∨ (s < 0 ∧ b - a < 0) := Or.inl ⟨hs, by omega⟩
        rw [if_pos hab, if_pos hs, if_pos hc]
      · have hc : ¬ ((0 < s ∧ 0 < b - a) ∨ (s < 0 ∧ b - a < 0)) := by omega
        have hz : b - a = 0 := by omega
        rw [if_pos hab, if_pos hs, if_neg hc, hz]
        simp
    · have hc : ¬ ((0 < s ∧ 0 < b - a) ∨ (s < 0 ∧ b - a < 0)) := by omega
      rw [if_pos hab, if_neg hs, if_neg hc]
  · by_cases hs : s < 0
    · have hc : (0 < s ∧ 0 < b - a) ∨ (s < 0 ∧ b - a < 0) := Or.inr ⟨hs, by omega⟩
      rw [if_neg hab, if_pos hs, if_pos hc]
      have h1 : a - b = -(b - a) := by omega
      rw [h1, Int.neg_tdiv_neg]
    · have hc : ¬ ((0 < s ∧ 0 < b - a) ∨ (s < 0 ∧ b - a < 0)) := by omega
      rw [if_neg hab, if_neg hs, if_neg hc]

/-- C8 (evaluation at the failing inputs): `colon(0, 2, 5)` has count `5 / 2 = 2`,
so its offsets are `0` and `2` only, although `0 + 2 * 2 = 4` is a value
`a + k * s` strictly below `b = 5`; symmetrically `colon(5, -2, 0)` has count `2`
and never produces `5 + 2 * (-2) = 1`, which is strictly above `b = 0`. -/
theorem colon_step_drops_last :
    (colon_step 0 2 5).num = 2
      ∧ ((0 : Int) + 2 * 2 < 5)
      ∧ (¬ ∃ i : Int, 0 ≤ i ∧ i < (colon_step 0 2 5).num
            ∧ (colon_step 0 2 5).get_offset 5 i = 0 + 2 * 2)
      ∧ (colon_step 5 (-2) 0).num = 2
      ∧ ((0 : Int) < 5 + 2 * (-2))
      ∧ (¬ ∃ i : Int, 0 ≤ i ∧ i < (colon_step 5 (-2) 0).num
            ∧ (colon_step 5 (-2) 0).get_offset 5 i = 5 + 2 * (-2)) := by
  have h1 : (colon_step 0 2 5).num = 2 := by decide
  have h2 : (colon_step 5 (-2) 0).num = 2 := by decide
  refine ⟨h1, by decide, ?_, h2, by decide, ?_⟩
  · rintro ⟨i, h0, hlt, hoff⟩
    rw [h1] at hlt
    simp only [colon_step, step_range.get_offset] at hoff
    omega
  · rintro ⟨i, h0, hlt, hoff⟩
    rw [h2] at hlt
    simp only [colon_step, step_range.get_offset] at hoff
    omega

/-- C9: a step whose sign conflicts with the span (`s > 0` with `b < a`, or
`s < 0` with `a < b`) does not fail: `colon(a, s, b)` returns the range that
starts at `a`, has step `s` and holds `0` elements. -/
theorem colon_step_conflict (a s b : Int)
    (h : (0 < s ∧ b < a) ∨ (s < 0 ∧ a < b)) :
    colon_step a s b = ⟨a, 0, s⟩ ∧ (colon_step a s b).num = 0 := by
  have hn : colon_step a s b = ⟨a, 0, s⟩ := by
    simp only [colon_step]
    rcases h with ⟨hs, hba⟩ | ⟨hs, hab⟩
    · have h1 : ¬ a ≤ b := by omega
      have h2 : ¬ s < 0 := by omega
      rw [if_neg h1, if_neg h2]
    · have h1 : a ≤ b := by omega
      have h2 : ¬ s > 0 := by omega
      rw [if_pos h1, if_neg h2]
  exact ⟨hn, by rw [hn]; rfl⟩

/-- Witness of C9 at `colon(3, 2, 1)`, a positive step over a negative span. -/
theorem colon_step_conflict_witness :
    (((0 : Int) < 2 ∧ (1 : Int) < 3) ∨ ((2 : Int) < 0 ∧ (3 : Int) < 1))
      ∧ colon_step 3 2 1 = ⟨3, 0, 2⟩ ∧ (colon_step 3 2 1).num = 0 :=
  ⟨by decide, colon_step_conflict 3 2 1 (by decide)⟩

/-- C10: `colon(a, b)` is the contiguous range `[a, b)`: it begins at `a`, ends at
`b`, holds `b - a` elements, its `i`-th offset is `a + i`, and the offsets taken
at `0 <= i < num()` are exactly the integers `x` with `a <= x < b`.  (This holds
for all `a`, `b`; for `b < a` there is no such `i` and no such `x`.) -/
theorem colon_contiguous (a b : Int) :
    (colon a b).begin_index = a
      ∧ (colon a b).end_index = b
      ∧ (colon a b).num = b - a
      ∧ (∀ dim i : Int, (colon a b).get_offset dim i = a + i)
      ∧ (∀ dim x : Int,
          (∃ i : Int, 0 ≤ i ∧ i < (colon a b).num ∧ (colon a b).get_offset dim i = x)
            ↔ (a ≤ x ∧ x < b)) := by
  refine ⟨rfl, ?_, rfl, fun _ _ => rfl, ?_⟩
  · simp only [colon, range.end_index]
    omega
  · intro dim x
    simp only [colon, range.num, range.get_offset]
    constructor
    · rintro ⟨i, h0, hlt, hx⟩
      omega
    · rintro ⟨hax, hxb⟩
      exact ⟨x - a, by omega, by omega, by omega⟩

/-- The general routine for a horizontal repeat keeps the destination's stride. -/
theorem horizontal_repeat_evaluate_lead_dim {T : Type} (expr : horizontal_repeat_expr T)
    (dst : IDenseMatrix T) : (expr.evaluate dst).lead_dim = dst.lead_dim := by
  unfold horizontal_repeat_expr.evaluate
  by_cases h1 : expr.is_column = true
  · simp only [if_pos h1]
  · by_cases h2 : (repcol_ewrapper.wrap expr.arg).nrows = 1
    · simp only [if_neg h1, if_pos h2, fill]
    · simp only [if_neg h1, if_neg h2]

/-- The general routine for a vertical repeat keeps the destination's stride. -/
theorem vertical_repeat_evaluate_lead_dim {T : Type} (expr : vertical_repeat_expr T)
    (dst : IDenseMatrix T) : (expr.evaluate dst).lead_dim = dst.lead_dim := by
  unfold vertical_repeat_expr.evaluate
  by_cases h1 : expr.is_row = true
  · by_cases hc : has_continuous_layout dst = true
    · simp only [if_pos h1, if_pos hc]
    · simp only [if_pos h1, if_neg hc]
  · by_cases hM : expr.M = 0
    · by_cases hn1 : (reprow_ewrapper.wrap expr.arg).ncolumns = 1
      · simp only [if_neg h1, if_pos hM, if_pos hn1]
      · simp only [if_neg h1, if_pos hM, if_neg hn1]
    · by_cases hn1 : (reprow_ewrapper.wrap expr.arg).ncolumns = 1
      · simp only [if_neg h1, if_neg hM, if_pos hn1]
      · simp only [if_neg h1, if_neg hM, if_neg hn1]

/-- C11: the documented examples.  `colon(0, 5)` has 5 elements starting at 0;
`colon(0, 2, 10)` has 5 elements with offsets `0, 2, 4, 6, 8`;
`colon(10, -2, 0)` has 5 elements with offsets `10, 8, 6, 4, 2`;
`colon(0, -1, 5)` has 0 elements. -/
theorem colon_documented_examples :
    ((colon 0 5).num = 5 ∧ (colon 0 5).begin_index = 0
        ∧ (List.range 5).map (fun i => (colon 0 5).get_offset 5 (i : Int)) = [0, 1, 2, 3, 4])
      ∧ ((colon_step 0 2 10).num = 5
        ∧ (List.range 5).map (fun i => (colon_step 0 2 10).get_offset 10 (i : Int))
            = [0, 2, 4, 6, 8])
      ∧ ((colon_step 10 (-2) 0).num = 5
        ∧ (List.range 5).map (fun i => (colon_step 10 (-2) 0).get_offset 11 (i : Int))
            = [10, 8, 6, 4, 2])
      ∧ (colon_step 0 (-1) 5).num = 0 := by
  decide

/-! ### Repeat evaluation as expanded replication -/

/-- C14: in a contiguous `m`-by-`n` destination (`m >= 1`), after evaluation of a
horizontal repeat of a seed column the element at column-major linear index
`k < m * n`, which is stored at offset `k`, equals `seed[k mod m]`; after
evaluation of a vertical repeat of a seed row it equals `seed[k div m]`.  Both
hold for the general routine and for the routine overload resolution selects. -/
theorem repeat_expanded_replication {T : Type} (hexpr : horizontal_repeat_expr T)
    (vexpr : vertical_repeat_expr T) (dst : IDenseMatrix T)
    (hcont : dst.lead_dim = dst.nrows) (hpos : 1 ≤ dst.nrows)
    (hhm : dst.nrows = hexpr.arg.nrows) (hhn : dst.ncolumns = hexpr.ncolumns)
    (hvm : dst.nrows = vexpr.nrows) (hvn : dst.ncolumns = vexpr.arg.ncolumns)
    (k : Nat) (hk : k < dst.nrows * dst.ncolumns) :
    ((hexpr.evaluate dst).data k = hexpr.arg.get_value (k % dst.nrows)
        ∧ (hexpr.evaluate_overload dst).data k = hexpr.arg.get_value (k % dst.nrows))
      ∧ ((vexpr.evaluate dst).data k = vexpr.arg.get_value (k / dst.nrows)
        ∧ (vexpr.evaluate_overload dst).data k = vexpr.arg.get_value (k / dst.nrows)) := by
  have hrow : k % dst.nrows < dst.nrows := Nat.mod_lt _ hpos
  have hcol : k / dst.nrows < dst.ncolumns := Nat.div_lt_of_lt_mul hk
  have hld : dst.nrows ≤ dst.lead_dim := by omega
  have hoff : k / dst.nrows * dst.nrows + k % dst.nrows = k := Nat.div_add_mod' k dst.nrows
  have hh := horizontal_repeat_evaluate_elem hexpr dst hhm hhn hld _ _ hrow hcol
  have hv := vertical_repeat_evaluate_elem vexpr dst hvm hvn hld _ _ hrow hcol
  have hhshape : (hexpr.evaluate dst).lead_dim = dst.lead_dim :=
    horizontal_repeat_evaluate_lead_dim hexpr dst
  have hvshape : (vexpr.evaluate dst).lead_dim = dst.lead_dim :=
    vertical_repeat_evaluate_lead_dim vexpr dst
  simp only [IDenseMatrix.elem, IDenseMatrix.ptr_col, hhshape, hcont, hoff] at hh
  simp only [IDenseMatrix.elem, IDenseMatrix.ptr_col, hvshape, hcont, hoff] at hv
  refine ⟨⟨hh, ?_⟩, ⟨hv, ?_⟩⟩
  · unfold horizontal_repeat_expr.evaluate_overload
    by_cases hN : hexpr.N = 1
    · rw [if_pos hN]
      have h1 := default_evaluate_elem hexpr.arg dst hld _ _ hrow hcol
      have hs := (default_evaluate_shape hexpr.arg dst).2.2
      simp only [IDenseMatrix.elem, IDenseMatrix.ptr_col, hs, hcont, hoff] at h1
      have hcols : hexpr.ncolumns = 1 := by
        simp [horizontal_repeat_expr.ncolumns, hN]
      have hk' : k < dst.nrows := by
        rw [hhn, hcols, Nat.mul_one] at hk; exact hk
      unfold horizontal_repeat_expr.evaluate_1
      rw [h1, Nat.mod_eq_of_lt hk']
    · rw [if_neg hN]; exact hh
  · unfold vertical_repeat_expr.evaluate_overload
    by_cases hM : vexpr.M = 1
    · rw [if_pos hM]
      have h1 := default_evaluate_elem vexpr.arg dst hld _ _ hrow hcol
      have hs := (default_evaluate_shape vexpr.arg dst).2.2
      simp only [IDenseMatrix.elem, IDenseMatrix.ptr_col, hs, hcont, hoff] at h1
      have hrows : vexpr.nrows = 1 := by
        simp [vertical_repeat_expr.nrows, hM]
      unfold vertical_repeat_expr.evaluate_1
      rw [h1, hvm, hrows, Nat.div_one]
    · rw [if_neg hM]; exact hv

/-- Witness of C14 on the contiguous 3-by-4 destination: at linear index `7`
(row `1`, column `2`) the horizontal repeat of `10, 11, 12` leaves `11` and the
vertical repeat of `10, 11, 12, 13` leaves `12`. -/
theorem repeat_expanded_replication_witness :
    (sample_dst_cont.lead_dim = sample_dst_cont.nrows ∧ 1 ≤ sample_dst_cont.nrows
        ∧ 7 < sample_dst_cont.nrows * sample_dst_cont.ncolumns)
      ∧ ((sample_hrep.evaluate sample_dst_cont).data 7 = 11
        ∧ (sample_hrep.evaluate_overload sample_dst_cont).data 7 = 11)
      ∧ ((sample_vrep.evaluate sample_dst_cont).data 7 = 12
        ∧ (sample_vrep.evaluate_overload sample_dst_cont).data 7 = 12) :=
  ⟨⟨rfl, by decide, by decide⟩,
    repeat_expanded_replication sample_hrep sample_vrep sample_dst_cont rfl (by decide)
      rfl rfl rfl rfl 7 (by decide)⟩

/-! ### Single-replica factors and scalar seeds -/

/-- With one result column, the general routine for a horizontal repeat produces
the destination that evaluating the seed itself produces. -/
theorem horizontal_repeat_single_column {T : Type} (expr : horizontal_repeat_expr T)
    (dst : IDenseMatrix T) (h1 : expr.ncolumns = 1) (hm : dst.nrows = expr.arg.nrows)
    (hn : dst.ncolumns = 1) :
    expr.evaluate dst = default_evaluate expr.arg dst := by
  have hcol : expr.is_column = true := by
    simp [horizontal_repeat_expr.is_column, h1]
  obtain ⟨m, n, ld, data⟩ := dst
  simp only at hm hn
  subst hm hn
  unfold horizontal_repeat_expr.evaluate default_evaluate evaluate_by_scalars
  have hview : has_continuous_layout (ref_col data expr.arg.nrows) = true := by
    simp [has_continuous_layout, ref_col]
  simp only [if_pos hcol, hview, if_true]
  by_cases hc : has_continuous_layout
      ({ nrows := expr.arg.nrows, ncolumns := 1, lead_dim := ld, data := data } :
        IDenseMatrix T) = true
  · simp only [if_pos hc, ref_col]
  · simp only [if_neg hc, ref_col, for_index, IDenseMatrix.ptr_col, Nat.zero_mul,
      Nat.zero_add, Nat.mul_one]

/-- With one result row, the general routine for a vertical repeat produces the
destination that evaluating the seed itself produces. -/
theorem vertical_repeat_single_row {T : Type} (expr : vertical_repeat_expr T)
    (dst : IDenseMatrix T) (h1 : expr.nrows = 1) (hm : dst.nrows = 1)
    (hn : dst.ncolumns = expr.arg.ncolumns) :
    expr.evaluate dst = default_evaluate expr.arg dst := by
  have hrow : expr.is_row = true := by
    simp [vertical_repeat_expr.is_row, h1]
  obtain ⟨m, n, ld, data⟩ := dst
  simp only at hm hn
  subst hm hn
  unfold vertical_repeat_expr.evaluate default_evaluate evaluate_by_scalars
  by_cases hc : has_continuous_layout
      ({ nrows := 1, ncolumns := expr.arg.ncolumns, lead_dim := ld, data := data } :
        IDenseMatrix T) = true
  · have hview : has_continuous_layout
        ({ nrows := 1, ncolumns := expr.arg.ncolumns, lead_dim := 1, data := data } :
          IDenseMatrix T) = true := by
      simp [has_continuous_layout]
    simp only [if_pos hrow, if_pos hc, ref_row, if_pos hview]
  · simp only [if_pos hrow, if_neg hc, ref_matrix_ex]

/-- C13: for a single-replica factor, a horizontal repeat with one result column
or a vertical repeat with one result row, evaluating the repeat expression into
a destination of the result's shape yields exactly the destination that
evaluating the seed itself into it yields (same extents, same stride, same
memory contents), for the general routine and for the routine that overload
resolution selects. -/
theorem single_replica_pass_through {T : Type} (hexpr : horizontal_repeat_expr T)
    (vexpr : vertical_repeat_expr T) (hdst vdst : IDenseMatrix T)
    (hh1 : hexpr.ncolumns = 1) (hhm : hdst.nrows = hexpr.arg.nrows)
    (hhn : hdst.ncolumns = 1)
    (hv1 : vexpr.nrows = 1) (hvm : vdst.nrows = 1)
    (hvn : vdst.ncolumns = vexpr.arg.ncolumns) :
    (hexpr.evaluate hdst = default_evaluate hexpr.arg hdst
        ∧ hexpr.evaluate_overload hdst = default_evaluate hexpr.arg hdst)
      ∧ (vexpr.evaluate vdst = default_evaluate vexpr.arg vdst
        ∧ vexpr.evaluate_overload vdst = default_evaluate vexpr.arg vdst) := by
  have hh := horizontal_repeat_single_column hexpr hdst hh1 hhm hhn
  have hv := vertical_repeat_single_row vexpr vdst hv1 hvm hvn
  refine ⟨⟨hh, ?_⟩, ⟨hv, ?_⟩⟩
  · unfold horizontal_repeat_expr.evaluate_overload
    by_cases hN : hexpr.N = 1
    · rw [if_pos hN]; rfl
    · rw [if_neg hN]; exact hh
  · unfold vertical_repeat_expr.evaluate_overload
    by_cases hM : vexpr.M = 1
    · rw [if_pos hM]; rfl
    · rw [if_neg hM]; exact hv

/-- Witness of C13: the seed column `10, 11, 12` repeated once into a 3-by-1
destination, and the seed row `10, 11, 12, 13` repeated once into a 1-by-4
destination with leading dimension 3. -/
theorem single_replica_pass_through_witness :
    (sample_hrep1.ncolumns = 1 ∧ sample_dst_col.nrows = sample_hrep1.arg.nrows
        ∧ sample_dst_col.ncolumns = 1 ∧ sample_vrep1.nrows = 1 ∧ sample_dst_row.nrows = 1
        ∧ sample_dst_row.ncolumns = sample_vrep1.arg.ncolumns)
      ∧ (sample_hrep1.evaluate sample_dst_col = default_evaluate sample_hrep1.arg sample_dst_col
        ∧ sample_hrep1.evaluate_overload sample_dst_col
            = default_evaluate sample_hrep1.arg sample_dst_col)
      ∧ (sample_vrep1.evaluate sample_dst_row = default_evaluate sample_vrep1.arg sample_dst_row
        ∧ sample_vrep1.evaluate_overload sample_dst_row
            = default_evaluate sample_vrep1.arg sample_dst_row) :=
  ⟨⟨rfl, rfl, rfl, rfl, rfl, rfl⟩,
    single_replica_pass_through sample_hrep1 sample_vrep1 sample_dst_col sample_dst_row
      rfl rfl rfl rfl rfl rfl⟩

/-- For a seed of one row, the general routine for a horizontal repeat produces
the destination of the naive nested loops. -/
theorem horizontal_repeat_scalar_naive {T : Type} (expr : horizontal_repeat_expr T)
    (dst : IDenseMatrix T) (hs : expr.arg.nrows = 1) (hm : dst.nrows = 1)
    (hn : dst.ncolumns = expr.ncolumns) :
    expr.evaluate dst = naive_horizontal_repeat expr.arg expr.ncolumns dst := by
  obtain ⟨m, n, ld, data⟩ := dst
  simp only at hm hn
  subst hm hn
  unfold horizontal_repeat_expr.evaluate naive_horizontal_repeat
  by_cases h1 : expr.is_column = true
  · have hn1 : expr.ncolumns = 1 := by
      simpa [horizontal_repeat_expr.is_column] using h1
    rw [if_pos h1]
    simp [default_evaluate, evaluate_by_scalars, has_continuous_layout, hs, hn1,
      ref_col, copy_mem, for_index, IDenseMatrix.ptr_col]
  · have hw : (repcol_ewrapper.wrap expr.arg).nrows = 1 := hs
    rw [if_neg h1]
    simp only [if_pos hw]
    simp [fill, fill_mem, hs, for_index, IDenseMatrix.ptr_col,
      repcol_ewrapper.get, repcol_ewrapper.wrap]

/-- For a seed of one column, the general routine for a vertical repeat produces
the destination of the naive nested loops. -/
theorem vertical_repeat_scalar_naive {T : Type} (expr : vertical_repeat_expr T)
    (dst : IDenseMatrix T) (hs : expr.arg.ncolumns = 1) (hm : dst.nrows = expr.nrows) :
    expr.evaluate dst = naive_vertical_repeat expr.arg expr.nrows dst := by
  obtain ⟨m, n, ld, data⟩ := dst
  simp only at hm
  subst hm
  unfold vertical_repeat_expr.evaluate naive_vertical_repeat
  by_cases h1 : expr.is_row = true
  · have hm1 : expr.nrows = 1 := by
      simpa [vertical_repeat_expr.is_row] using h1
    rw [if_pos h1]
    by_cases hc : ld = 1
    · simp [default_evaluate, evaluate_by_scalars, has_continuous_layout, ref_row, hs, hm1,
        hc, copy_mem, for_index, IDenseMatrix.ptr_col]
    · simp [default_evaluate, evaluate_by_scalars, has_continuous_layout, ref_matrix_ex, hs,
        hm1, hc, copy_mem, for_index, IDenseMatrix.ptr_col]
  · have hw : (reprow_ewrapper.wrap expr.arg).ncolumns = 1 := hs
    rw [if_neg h1]
    by_cases hM : expr.M = 0
    · simp only [if_pos hM, if_pos hw]
      simp [hs, fill_mem, for_index, IDenseMatrix.ptr_col, IDenseMatrix.ptr_data,
        reprow_ewrapper.get, reprow_ewrapper.wrap]
    · have hrows : expr.nrows = expr.M := by
        simp [vertical_repeat_expr.nrows, hM]
      simp only [if_neg hM, if_pos hw]
      simp [hs, hrows, fill_mem, for_index, IDenseMatrix.ptr_col, IDenseMatrix.ptr_data,
        reprow_ewrapper.get, reprow_ewrapper.wrap]

/-- C12: for a scalar seed with value `v = seed[0]`, evaluation agrees with the
naive nested-loop reference.  A horizontal repeat evaluated into a 1-by-`n`
destination produces the destination of the naive loops and sets each of the
`n` entries to `v`; a vertical repeat evaluated into an `m`-by-1 destination
produces the destination of the naive loops and sets each of the `m` entries to
`v`.  This holds for every `n` and `m`, for the general routine and for the
routine that overload resolution selects. -/
theorem scalar_seed_matches_naive {T : Type} (hexpr : horizontal_repeat_expr T)
    (vexpr : vertical_repeat_expr T) (hdst vdst : IDenseMatrix T)
    (hhs : hexpr.arg.nrows = 1) (hhm : hdst.nrows = 1)
    (hhn : hdst.ncolumns = hexpr.ncolumns) (hhld : 1 ≤ hdst.lead_dim)
    (hvs : vexpr.arg.ncolumns = 1) (hvm : vdst.nrows = vexpr.nrows)
    (hvn : vdst.ncolumns = 1) (hvld : vdst.nrows ≤ vdst.lead_dim) :
    (hexpr.evaluate hdst = naive_horizontal_repeat hexpr.arg hexpr.ncolumns hdst
        ∧ hexpr.evaluate_overload hdst = naive_horizontal_repeat hexpr.arg hexpr.ncolumns hdst
        ∧ ∀ j, j < hexpr.ncolumns →
            (hexpr.evaluate hdst).elem 0 j = hexpr.arg.get_value 0
              ∧ (naive_horizontal_repeat hexpr.arg hexpr.ncolumns hdst).elem 0 j
                  = hexpr.arg.get_value 0)
      ∧ (vexpr.evaluate vdst = naive_vertical_repeat vexpr.arg vexpr.nrows vdst
        ∧ vexpr.evaluate_overload vdst = naive_vertical_repeat vexpr.arg vexpr.nrows vdst
        ∧ ∀ i, i < vexpr.nrows →
            (vexpr.evaluate vdst).elem i 0 = vexpr.arg.get_value 0
              ∧ (naive_vertical_repeat vexpr.arg vexpr.nrows vdst).elem i 0
                  = vexpr.arg.get_value 0) := by
  have hh := horizontal_repeat_scalar_naive hexpr hdst hhs hhm hhn
  have hv := vertical_repeat_scalar_naive vexpr vdst hvs hvm
  refine ⟨⟨hh, ?_, ?_⟩, ⟨hv, ?_, ?_⟩⟩
  · unfold horizontal_repeat_expr.evaluate_overload
    by_cases hN : hexpr.N = 1
    · have hcols : hexpr.ncolumns = 1 := by
        simp [horizontal_repeat_expr.ncolumns, hN]
      rw [if_pos hN, ← hh]
      exact (horizontal_repeat_single_column hexpr hdst hcols (by rw [hhm, hhs])
        (by rw [hhn, hcols])).symm
    · rw [if_neg hN]; exact hh
  · intro j hj
    have he := horizontal_repeat_evaluate_elem hexpr hdst (by rw [hhm, hhs]) hhn
      (by rw [hhm]; exact hhld) 0 j (by rw [hhm]; exact Nat.one_pos) (by rw [hhn]; exact hj)
    exact ⟨he, by rw [← hh]; exact he⟩
  · unfold vertical_repeat_expr.evaluate_overload
    by_cases hM : vexpr.M = 1
    · have hrows : vexpr.nrows = 1 := by
        simp [vertical_repeat_expr.nrows, hM]
      rw [if_pos hM, ← hv]
      exact (vertical_repeat_single_row vexpr vdst hrows (by rw [hvm, hrows])
        (by rw [hvn, hvs])).symm
    · rw [if_neg hM]; exact hv
  · intro i hi
    have he := vertical_repeat_evaluate_elem vexpr vdst hvm (by rw [hvn, hvs]) hvld i 0
      (by rw [hvm]; exact hi) (by rw [hvn]; exact Nat.one_pos)
    exact ⟨he, by rw [← hv]; exact he⟩

/-- Witness of C12: the scalar seed `7` repeated over four columns of a 1-by-4
destination and over three rows of a 3-by-1 destination. -/
theorem scalar_seed_matches_naive_witness :
    (sample_hrep_scalar.arg.nrows = 1 ∧ sample_dst_row.nrows = 1
        ∧ sample_dst_row.ncolumns = sample_hrep_scalar.ncolumns
        ∧ 1 ≤ sample_dst_row.lead_dim ∧ sample_vrep_scalar.arg.ncolumns = 1
        ∧ sample_dst_col.nrows = sample_vrep_scalar.nrows ∧ sample_dst_col.ncolumns = 1
        ∧ sample_dst_col.nrows ≤ sample_dst_col.lead_dim)
      ∧ (sample_hrep_scalar.evaluate sample_dst_row
            = naive_horizontal_repeat sample_hrep_scalar.arg sample_hrep_scalar.ncolumns
                sample_dst_row
        ∧ sample_hrep_scalar.evaluate_overload sample_dst_row
            = naive_horizontal_repeat sample_hrep_scalar.arg sample_hrep_scalar.ncolumns
                sample_dst_row
        ∧ ∀ j, j < sample_hrep_scalar.ncolumns →
            (sample_hrep_scalar.evaluate sample_dst_row).elem 0 j
                = sample_hrep_scalar.arg.get_value 0
              ∧ (naive_horizontal_repeat sample_hrep_scalar.arg sample_hrep_scalar.ncolumns
                  sample_dst_row).elem 0 j = sample_hrep_scalar.arg.get_value 0)
      ∧ (sample_vrep_scalar.evaluate sample_dst_col
            = naive_vertical_repeat sample_vrep_scalar.arg sample_vrep_scalar.nrows
                sample_dst_col
        ∧ sample_vrep_scalar.evaluate_overload sample_dst_col
            = naive_vertical_repeat sample_vrep_scalar.arg sample_vrep_scalar.nrows
                sample_dst_col
        ∧ ∀ i, i < sample_vrep_scalar.nrows →
            (sample_vrep_scalar.evaluate sample_dst_col).elem i 0
                = sample_vrep_scalar.arg.get_value 0
              ∧ (naive_vertical_repeat sample_vrep_scalar.arg sample_vrep_scalar.nrows
                  sample_dst_col).elem i 0 = sample_vrep_scalar.arg.get_value 0) :=
  ⟨⟨rfl, rfl, rfl, by decide, rfl, rfl, rfl, by decide⟩,
    scalar_seed_matches_naive sample_hrep_scalar sample_vrep_scalar sample_dst_row
      sample_dst_col rfl rfl rfl (by decide) rfl rfl rfl (by decide)⟩

/-! ### Kernels through the linear path -/

/-- A loop that rewrites, at step `i`, the position `pos i` from its current
value: when the positions are pairwise distinct, position `pos i` ends with
`h i` applied to its initial value, and a position that is no `pos i` is kept. -/
theorem for_index_update_at {T : Type} (pos : Nat → Nat) (h : Nat → T → T)
    (hinj : ∀ a b, pos a = pos b → a = b) (dst : Nat → T) (len : Nat) :
    (∀ i, i < len →
        for_index len (fun i cur => store cur (pos i) (h i (cur (pos i)))) dst (pos i)
          = h i (dst (pos i)))
      ∧ (∀ x, (∀ i, i < len → x ≠ pos i) →
        for_index len (fun i cur => store cur (pos i) (h i (cur (pos i)))) dst x = dst x) := by
  induction len with
  | zero =>
    exact ⟨fun i hi => absurd hi (Nat.not_lt_zero i), fun _ _ => rfl⟩
  | succ n ih =>
    obtain ⟨ih1, ih2⟩ := ih
    constructor
    · intro i hi
      rw [for_index_succ, store_apply]
      by_cases hin : pos i = pos n
      · have hieq : i = n := hinj i n hin
        subst hieq
        rw [if_pos rfl]
        have hkeep := ih2 (pos i) (fun k hk hc => by
          have := hinj i k hc
          omega)
        rw [hkeep]
      · rw [if_neg hin]
        have hne : i ≠ n := fun hc => hin (by rw [hc])
        exact ih1 i (by omega)
    · intro x hx
      rw [for_index_succ, store_apply, if_neg (hx n (Nat.lt_succ_self n))]
      exact ih2 x (fun i hi => hx i (Nat.lt_succ_of_lt hi))

/-- Positions `i * step` are pairwise distinct when the step is positive. -/
theorem mul_step_injective (step : Nat) (hstep : 1 ≤ step) (a b : Nat)
    (h : a * step = b * step) : a = b :=
  Nat.eq_of_mul_eq_mul_right hstep h

/-- The scalar linear pass leaves `g(D[i], S[i])` at element `i < len` of the
destination view. -/
theorem linear_eval_scalar_at {S T : Type} (g : T → S → T) (len : Nat) (src : Nat → S)
    (sstep : Nat) (dst : Nat → T) (dstep : Nat) (hd : 1 ≤ dstep) (i : Nat) (hi : i < len) :
    linear_eval_scalar g len src sstep dst dstep (i * dstep)
      = g (dst (i * dstep)) (src (i * sstep)) :=
  (for_index_update_at (fun i => i * dstep) (fun i d => g d (src (i * sstep)))
    (mul_step_injective dstep hd) dst len).1 i hi

/-- The scalar linear pass keeps every position that is not an element of the
destination view. -/
theorem linear_eval_scalar_frame {S T : Type} (g : T → S → T) (len : Nat) (src : Nat → S)
    (sstep : Nat) (dst : Nat → T) (dstep : Nat) (hd : 1 ≤ dstep) (x : Nat)
    (hx : ∀ i, i < len → x ≠ i * dstep) :
    linear_eval_scalar g len src sstep dst dstep x = dst x :=
  (for_index_update_at (fun i => i * dstep) (fun i d => g d (src (i * sstep)))
    (mul_step_injective dstep hd) dst len).2 x hx

/-- Closed form of the scalar linear pass on contiguous views. -/
theorem linear_eval_scalar_unit {S T : Type} (g : T → S → T) (len : Nat) (src : Nat → S)
    (dst : Nat → T) (x : Nat) :
    linear_eval_scalar g len src 1 dst 1 x = if x < len then g (dst x) (src x) else dst x := by
  by_cases hx : x < len
  · have h := linear_eval_scalar_at g len src 1 dst 1 (Nat.le_refl 1) x hx
    rw [Nat.mul_one] at h
    rw [if_pos hx, h]
  · rw [if_neg hx]
    exact linear_eval_scalar_frame g len src 1 dst 1 (Nat.le_refl 1) x
      (fun i hi => by omega)

/-- A run of scalar updates over the offsets `base .. base + k - 1`. -/
theorem scalar_run_apply {S T : Type} (g : T → S → T) (src : Nat → S) (base : Nat)
    (cur0 : Nat → T) (k x : Nat) :
    for_index k (fun r cur => store cur (base + r) (g (cur (base + r)) (src (base + r))))
        cur0 x
      = if base ≤ x ∧ x < base + k then g (cur0 x) (src x) else cur0 x := by
  have hpos := for_index_update_at (fun r => base + r) (fun r d => g d (src (base + r)))
    (fun a b hab => Nat.add_left_cancel hab) cur0 k
  by_cases hx : base ≤ x ∧ x < base + k
  · have h := hpos.1 (x - base) (by omega)
    have hxe : base + (x - base) = x := by omega
    simp only [hxe] at h
    rw [if_pos hx, h]
  · rw [if_neg hx]
    exact hpos.2 x (fun i hi => by omega)

/-- Closed form of a pack store: the `W` lanes land at `p .. p + W - 1`. -/
theorem store_pack_apply {T : Type} (W : Nat) (mem : Nat → T) (p : Nat) (pk : Nat → T)
    (x : Nat) :
    store_pack W mem p pk x = if p ≤ x ∧ x < p + W then pk (x - p) else mem x :=
  copy_mem_apply W pk mem p x

/-- The chunked part of the lane-wise pass: after `c` packs of `W` lanes the
first `c * W` elements are updated and the others are kept. -/
theorem pack_run_apply {S T : Type} (W : Nat) (gp : (Nat → T) → (Nat → S) → (Nat → T))
    (g : T → S → T) (hgp : ∀ pd ps l, l < W → gp pd ps l = g (pd l) (ps l))
    (src : Nat → S) (dst : Nat → T) (c x : Nat) :
    for_index c
        (fun c cur =>
          store_pack W cur (c * W) (gp (load_pack cur (c * W)) (load_pack src (c * W))))
        dst x
      = if x < c * W then g (dst x) (src x) else dst x := by
  induction c generalizing x with
  | zero =>
    have hc : ¬ x < 0 * W := by omega
    rw [if_neg hc]
    rfl
  | succ c ih =>
    rw [for_index_succ, store_pack_apply]
    have hexp : (c + 1) * W = c * W + W := by ring
    by_cases hin : c * W ≤ x ∧ x < c * W + W
    · have hlt : x < (c + 1) * W := by omega
      have hxe : c * W + (x - c * W) = x := by omega
      have hnot : ¬ x < c * W := by omega
      rw [if_pos hin, if_pos hlt, hgp _ _ _ (by omega)]
      simp only [load_pack, hxe]
      rw [ih x, if_neg hnot]
    · rw [if_neg hin, ih x]
      by_cases hlt : x < c * W
      · have hlt2 : x < (c + 1) * W := by omega
        rw [if_pos hlt, if_pos hlt2]
      · have hlt2 : ¬ x < (c + 1) * W := by omega
        rw [if_neg hlt, if_neg hlt2]

/-- Closed form of the lane-wise linear pass: when the pack function acts as `g`
on each lane, element `x < len` ends with `g(D[x], S[x])` and every other
position is kept. -/
theorem linear_eval_simd_apply {S T : Type} (W : Nat)
    (gp : (Nat → T) → (Nat → S) → (Nat → T)) (g : T → S → T)
    (hgp : ∀ pd ps l, l < W → gp pd ps l = g (pd l) (ps l))
    (len : Nat) (src : Nat → S) (dst : Nat → T) (x : Nat) :
    linear_eval_simd W gp g len src dst x = if x < len then g (dst x) (src x) else dst x := by
  have hle : len / W * W ≤ len := Nat.div_mul_le_self len W
  simp only [linear_eval_simd]
  rw [scalar_run_apply, pack_run_apply W gp g hgp]
  by_cases h1 : x < len / W * W
  · have hx : x < len := by omega
    have hb : ¬ (len / W * W ≤ x ∧ x < len / W * W + (len - len / W * W)) := by omega
    rw [if_neg hb, if_pos h1, if_pos hx]
  · by_cases hx : x < len
    · have hb : len / W * W ≤ x ∧ x < len / W * W + (len - len / W * W) := by omega
      rw [if_pos hb, if_neg h1, if_pos hx]
    · have hb : ¬ (len / W * W ≤ x ∧ x < len / W * W + (len - len / W * W)) := by omega
      rw [if_neg hb, if_neg h1, if_neg hx]

/-- C15: scalar and lane-wise evaluation agree.  For a map `f` whose pack function
`fp` applies `f` on each of the `W` lanes, and for every length `len` (in
particular every length from 0 to 64), evaluating the map over the first `len`
elements with the lane-wise access unit gives `d[i] = f(s[i])` for every
`i < len`, as the scalar access unit does, and the two resulting buffers are
equal at every position.  The default evaluation of an expression into a dense
destination equals `evaluate_by_scalars` of the same expression; in this
embedding the default evaluation is the scalar pass, so this last part holds by
definition. -/
theorem scalar_simd_agree {S T : Type} (W : Nat) (f : S → T) (fp : (Nat → S) → (Nat → T))
    (hfp : ∀ ps l, l < W → fp ps l = f (ps l)) (len : Nat) (s : Nat → S) (d : Nat → T) :
    (∀ i, i < len →
        linear_eval_simd W (fun _ ps => fp ps) (map_kernel f) len s d i = f (s i))
      ∧ (∀ i, i < len → linear_eval_scalar (map_kernel f) len s 1 d 1 i = f (s i))
      ∧ linear_eval_simd W (fun _ ps => fp ps) (map_kernel f) len s d
          = linear_eval_scalar (map_kernel f) len s 1 d 1
      ∧ (∀ (e : IMatrixXpr T) (D : IDenseMatrix T),
          default_evaluate e D = evaluate_by_scalars e D) := by
  have hgp : ∀ (pd : Nat → T) (ps : Nat → S) (l : Nat), l < W →
      (fun (_ : Nat → T) ps => fp ps) pd ps l = map_kernel f (pd l) (ps l) :=
    fun _ ps l hl => hfp ps l hl
  refine ⟨?_, ?_, ?_, fun _ _ => rfl⟩
  · intro i hi
    rw [linear_eval_simd_apply W _ (map_kernel f) hgp, if_pos hi]
    rfl
  · intro i hi
    rw [linear_eval_scalar_unit, if_pos hi]
    rfl
  · funext x
    rw [linear_eval_simd_apply W _ (map_kernel f) hgp, linear_eval_scalar_unit]

/-- Witness of C15: squaring `s[i] = 2 * i + 3` over the first 7 elements with
packs of 4 lanes (one pack and a remainder of 3). -/
theorem scalar_simd_agree_witness :
    (∀ (ps : Nat → Int) l, l < 4 → sqr_pack ps l = sqr_fun (ps l))
      ∧ (∀ i, i < 7 →
        linear_eval_simd 4 (fun _ ps => sqr_pack ps) (map_kernel sqr_fun) 7 sample_src
          zero_mem i = sqr_fun (sample_src i))
      ∧ (∀ i, i < 7 →
        linear_eval_scalar (map_kernel sqr_fun) 7 sample_src 1 zero_mem 1 i
          = sqr_fun (sample_src i))
      ∧ linear_eval_simd 4 (fun _ ps => sqr_pack ps) (map_kernel sqr_fun) 7 sample_src zero_mem
          = linear_eval_scalar (map_kernel sqr_fun) 7 sample_src 1 zero_mem 1
      ∧ (∀ (e : IMatrixXpr Int) (D : IDenseMatrix Int),
          default_evaluate e D = evaluate_by_scalars e D) :=
  ⟨fun _ _ _ => rfl,
    scalar_simd_agree 4 sqr_fun sqr_pack (fun _ _ _ => rfl) 7 sample_src zero_mem⟩

/-- C17: evaluating the copy kernel through the linear path makes element `i` of
the destination view equal to element `i` of the source view for every
`i < len`, whatever the steps of the two views are (1 for a contiguous view,
the element stride of a strided single column, the leading dimension of a
strided single row; the destination step is positive).  For contiguous
`m`-by-`n` views this is `D[k] = S[k]` for every `k < m * n`, with the scalar
and with the lane-wise access unit. -/
theorem copy_kernel_linear_correct {T : Type} (W : Nat)
    (gp : (Nat → T) → (Nat → T) → (Nat → T))
    (hgp : ∀ pd ps l, l < W → gp pd ps l = copy_kernel (pd l) (ps l))
    (sstep dstep : Nat) (hd : 1 ≤ dstep) (src dst : Nat → T) :
    (∀ len i, i < len →
        linear_eval_scalar copy_kernel len src sstep dst dstep (i * dstep) = src (i * sstep))
      ∧ (∀ m n k, k < m * n →
        linear_eval_scalar copy_kernel (m * n) src 1 dst 1 k = src k
          ∧ linear_eval_simd W gp copy_kernel (m * n) src dst k = src k) := by
  constructor
  · intro len i hi
    rw [linear_eval_scalar_at copy_kernel len src sstep dst dstep hd i hi]
    rfl
  · intro m n k hk
    rw [linear_eval_scalar_unit, linear_eval_simd_apply W gp copy_kernel hgp, if_pos hk]
    exact ⟨rfl, rfl⟩

/-- Witness of C17: a copy from a contiguous source into a destination view of
step 3, and contiguous copies with packs of 4 lanes. -/
theorem copy_kernel_linear_correct_witness :
    ((∀ (pd ps : Nat → Int) l, l < 4 → lanewise copy_kernel pd ps l
          = copy_kernel (pd l) (ps l)) ∧ 1 ≤ 3)
      ∧ (∀ len i, i < len →
        linear_eval_scalar copy_kernel len sample_src 1 zero_mem 3 (i * 3)
          = sample_src (i * 1))
      ∧ (∀ m n k, k < m * n →
        linear_eval_scalar copy_kernel (m * n) sample_src 1 zero_mem 1 k = sample_src k
          ∧ linear_eval_simd 4 (lanewise copy_kernel) copy_kernel (m * n) sample_src
              zero_mem k = sample_src k) :=
  ⟨⟨fun _ _ _ _ => rfl, by decide⟩,
    copy_kernel_linear_correct 4 (lanewise copy_kernel) (fun _ _ _ _ => rfl) 1 3 (by decide)
      sample_src zero_mem⟩

/-- C18: one in-place evaluation of the additive accumulation kernel turns every
destination element `D[i]` into `D[i] + S[i]`, and `k` successive evaluations
turn the initial `D0[i]` into `D0[i] + k * S[i]` (written `k • S[i]`, in any
additive monoid, i.e. over exact arithmetic), for every index `i < len` and
every `k`. -/
theorem accum_kernel_repeated {T : Type} [AddMonoid T] (len sstep dstep : Nat)
    (hd : 1 ≤ dstep) (src dst0 : Nat → T) (i : Nat) (hi : i < len) :
    linear_eval_scalar accum_kernel len src sstep dst0 dstep (i * dstep)
        = dst0 (i * dstep) + src (i * sstep)
      ∧ ∀ k : Nat,
        ((fun d => linear_eval_scalar accum_kernel len src sstep d dstep)^[k] dst0) (i * dstep)
          = dst0 (i * dstep) + k • src (i * sstep) := by
  constructor
  · rw [linear_eval_scalar_at accum_kernel len src sstep dst0 dstep hd i hi]
    rfl
  · intro k
    induction k with
    | zero => simp
    | succ k ih =>
      rw [Function.iterate_succ_apply',
        linear_eval_scalar_at accum_kernel len src sstep _ dstep hd i hi, ih]
      simp only [accum_kernel]
      rw [add_assoc, succ_nsmul]

/-- Witness of C18 over the integers: accumulating `s[i] = 2 * i + 3` into a zeroed
contiguous buffer; after `k` evaluations element `2` holds `0 + k * 7`. -/
theorem accum_kernel_repeated_witness :
    ((1 : Nat) ≤ 1 ∧ 2 < 5)
      ∧ linear_eval_scalar accum_kernel 5 sample_src 1 zero_mem 1 (2 * 1)
          = zero_mem (2 * 1) + sample_src (2 * 1)
      ∧ ∀ k : Nat,
        ((fun d => linear_eval_scalar accum_kernel 5 sample_src 1 d 1)^[k] zero_mem) (2 * 1)
          = zero_mem (2 * 1) + k • sample_src (2 * 1) :=
  ⟨⟨by decide, by decide⟩,
    accum_kernel_repeated 5 1 1 (by decide) sample_src zero_mem 2 (by decide)⟩

/-- C19: for a combining function `g` with `g(g(d, s), s) = g(d, s)`, applying the
in-place update `D[i] := g(D[i], S[i])` twice with the same source gives the
same buffer as applying it once; in particular evaluating the copy kernel
twice equals evaluating it once. -/
theorem idempotent_update_twice {S T : Type} (g : T → S → T)
    (hg : ∀ d s, g (g d s) s = g d s) (len sstep dstep : Nat) (hd : 1 ≤ dstep)
    (src : Nat → S) (dst : Nat → T) (csrc cdst : Nat → T) :
    linear_eval_scalar g len src sstep (linear_eval_scalar g len src sstep dst dstep) dstep
        = linear_eval_scalar g len src sstep dst dstep
      ∧ linear_eval_scalar copy_kernel len csrc sstep
          (linear_eval_scalar copy_kernel len csrc sstep cdst dstep) dstep
        = linear_eval_scalar copy_kernel len csrc sstep cdst dstep := by
  have key : ∀ {S' : Type} (g' : T → S' → T), (∀ d s, g' (g' d s) s = g' d s) →
      ∀ (src' : Nat → S') (dst' : Nat → T),
        linear_eval_scalar g' len src' sstep
            (linear_eval_scalar g' len src' sstep dst' dstep) dstep
          = linear_eval_scalar g' len src' sstep dst' dstep := by
    intro S' g' hg' src' dst'
    funext x
    by_cases hx : ∃ i, i < len ∧ x = i * dstep
    · obtain ⟨i, hi, rfl⟩ := hx
      rw [linear_eval_scalar_at g' len src' sstep _ dstep hd i hi,
        linear_eval_scalar_at g' len src' sstep dst' dstep hd i hi, hg']
    · have hx' : ∀ i, i < len → x ≠ i * dstep := fun i hi hc => hx ⟨i, hi, hc⟩
      rw [linear_eval_scalar_frame g' len src' sstep _ dstep hd x hx']
  exact ⟨key g hg src dst, key copy_kernel (fun _ _ => rfl) csrc cdst⟩

/-- Witness of C19 with the idempotent `max` function and with the copy kernel,
on contiguous integer buffers of 5 elements. -/
theorem idempotent_update_twice_witness :
    ((∀ d s : Int, max_fun (max_fun d s) s = max_fun d s) ∧ (1 : Nat) ≤ 1)
      ∧ linear_eval_scalar max_fun 5 sample_src 1
          (linear_eval_scalar max_fun 5 sample_src 1 zero_mem 1) 1
        = linear_eval_scalar max_fun 5 sample_src 1 zero_mem 1
      ∧ linear_eval_scalar copy_kernel 5 sample_src 1
          (linear_eval_scalar copy_kernel 5 sample_src 1 zero_mem 1) 1
        = linear_eval_scalar copy_kernel 5 sample_src 1 zero_mem 1 :=
  ⟨⟨fun d s => by unfold max_fun; split_ifs <;> omega, by decide⟩,
    idempotent_update_twice max_fun (fun d s => by unfold max_fun; split_ifs <;> omega)
      5 1 1 (by decide) sample_src zero_mem sample_src zero_mem⟩

/-- C20: evaluating the copy kernel with the constant source `const_(v)` over an
`m`-by-`n` shape sets each of the `m * n` destination elements to `v`, for all
`m` and `n`, with the scalar access unit and with the lane-wise access unit. -/
theorem copy_const_fills {T : Type} (W : Nat) (gp : (Nat → T) → (Nat → T) → (Nat → T))
    (hgp : ∀ pd ps l, l < W → gp pd ps l = copy_kernel (pd l) (ps l))
    (m n : Nat) (v : T) (dst : Nat → T) (k : Nat) (hk : k < m * n) :
    linear_eval_scalar copy_kernel (m * n) (const_ v) 1 dst 1 k = v
      ∧ linear_eval_simd W gp copy_kernel (m * n) (const_ v) dst k = v := by
  rw [linear_eval_scalar_unit, linear_eval_simd_apply W gp copy_kernel hgp, if_pos hk]
  exact ⟨rfl, rfl⟩

/-- Witness of C20: the constant `256` copied over a 3-by-4 shape, with packs of 4
lanes; element `11` is set. -/
theorem copy_const_fills_witness :
    ((∀ (pd ps : Nat → Int) l, l < 4 → lanewise copy_kernel pd ps l
          = copy_kernel (pd l) (ps l)) ∧ 11 < 3 * 4)
      ∧ linear_eval_scalar copy_kernel (3 * 4) (const_ (256 : Int)) 1 zero_mem 1 11 = 256
      ∧ linear_eval_simd 4 (lanewise copy_kernel) copy_kernel (3 * 4) (const_ (256 : Int))
          zero_mem 11 = 256 :=
  ⟨⟨fun _ _ _ _ => rfl, by decide⟩,
    copy_const_fills 4 (lanewise copy_kernel) (fun _ _ _ _ => rfl) 3 4 256 zero_mem 11
      (by decide)⟩

/-! ### Linear and per-column evaluators of repeat nodes -/

/-- After `j` calls of `next_column` a pass-through per-column evaluator has
advanced the evaluator of the seed by `j` columns. -/
theorem single_vec_percol_iterate {T : Type} (e : single_vec_percol_evaluator T) (j : Nat) :
    (single_vec_percol_evaluator.next_column^[j]) e
      = ⟨⟨e.m_eval.m_arg, e.m_eval.m_col + j⟩⟩ := by
  induction j with
  | zero => rfl
  | succ j ih =>
    rw [Function.iterate_succ_apply', ih]
    rfl

/-- After `j` calls of `next_column` the per-column evaluator of a vertical repeat
has advanced its column index by `j`. -/
theorem reprow_percol_iterate {T : Type} (e : reprow_percol_evaluator T) (j : Nat) :
    (reprow_percol_evaluator.next_column^[j]) e = ⟨e.m_rowwrap, e.m_j + j⟩ := by
  induction j with
  | zero => rfl
  | succ j ih =>
    rw [Function.iterate_succ_apply', ih]
    rfl

/-- Calls of `next_column` on a selected evaluator of a horizontal repeat act on
the evaluator that was selected. -/
theorem horizontal_percol_iterate {T : Type} (j : Nat) :
    (∀ e : single_vec_percol_evaluator T,
        (horizontal_percol_evaluator.next_column^[j]) (.single_vec e)
          = .single_vec ((single_vec_percol_evaluator.next_column^[j]) e))
      ∧ (∀ e : rep_scalar_percol_evaluator T,
        (horizontal_percol_evaluator.next_column^[j]) (.rep_scalar e) = .rep_scalar e)
      ∧ (∀ e : repcol_percol_evaluator T,
        (horizontal_percol_evaluator.next_column^[j]) (.repcol e) = .repcol e) := by
  induction j with
  | zero => exact ⟨fun _ => rfl, fun _ => rfl, fun _ => rfl⟩
  | succ j ih =>
    obtain ⟨h1, h2, h3⟩ := ih
    refine ⟨fun e => ?_, fun e => ?_, fun e => ?_⟩
    · rw [Function.iterate_succ_apply', Function.iterate_succ_apply', h1]; rfl
    · rw [Function.iterate_succ_apply', h2]; rfl
    · rw [Function.iterate_succ_apply', h3]; rfl

/-- Calls of `next_column` on a selected evaluator of a vertical repeat act on the
evaluator that was selected. -/
theorem vertical_percol_iterate {T : Type} (j : Nat) :
    (∀ e : single_vec_percol_evaluator T,
        (vertical_percol_evaluator.next_column^[j]) (.single_vec e)
          = .single_vec ((single_vec_percol_evaluator.next_column^[j]) e))
      ∧ (∀ e : rep_scalar_percol_evaluator T,
        (vertical_percol_evaluator.next_column^[j]) (.rep_scalar e) = .rep_scalar e)
      ∧ (∀ e : reprow_percol_evaluator T,
        (vertical_percol_evaluator.next_column^[j]) (.reprow e)
          = .reprow ((reprow_percol_evaluator.next_column^[j]) e)) := by
  induction j with
  | zero => exact ⟨fun _ => rfl, fun _ => rfl, fun _ => rfl⟩
  | succ j ih =>
    obtain ⟨h1, h2, h3⟩ := ih
    refine ⟨fun e => ?_, fun e => ?_, fun e => ?_⟩
    · rw [Function.iterate_succ_apply', Function.iterate_succ_apply', h1]; rfl
    · rw [Function.iterate_succ_apply', h2]; rfl
    · rw [Function.iterate_succ_apply', Function.iterate_succ_apply', h3]; rfl

/-- The cache of a horizontal repeat holds `seed[i]` at linear index `i + j * m`. -/
theorem cached_horizontal_value {T : Type} (expr : horizontal_repeat_expr T)
    (fresh : Nat → T) (hN : expr.N ≠ 1) (i j : Nat) (hi : i < expr.nrows)
    (hj : j < expr.ncolumns) :
    (cached_linear_evaluator.of_horizontal expr fresh).get_value (i + j * expr.nrows)
      = expr.arg.get_value i := by
  have he := horizontal_repeat_evaluate_elem expr
    ⟨expr.nrows, expr.ncolumns, expr.nrows, fresh⟩ rfl rfl (Nat.le_refl _) i j hi hj
  have hs := horizontal_repeat_evaluate_lead_dim expr
    ⟨expr.nrows, expr.ncolumns, expr.nrows, fresh⟩
  simp only [IDenseMatrix.elem, IDenseMatrix.ptr_col, hs] at he
  simp only [cached_linear_evaluator.of_horizontal, cached_linear_evaluator.get_value,
    horizontal_repeat_expr.evaluate_overload, if_neg hN]
  rw [Nat.add_comm]
  exact he

/-- The cache of a vertical repeat holds `seed[j]` at linear index `i + j * m`. -/
theorem cached_vertical_value {T : Type} (expr : vertical_repeat_expr T)
    (fresh : Nat → T) (hM : expr.M ≠ 1) (i j : Nat) (hi : i < expr.nrows)
    (hj : j < expr.ncolumns) :
    (cached_linear_evaluator.of_vertical expr fresh).get_value (i + j * expr.nrows)
      = expr.arg.get_value j := by
  have he := vertical_repeat_evaluate_elem expr
    ⟨expr.nrows, expr.ncolumns, expr.nrows, fresh⟩ rfl rfl (Nat.le_refl _) i j hi hj
  have hs := vertical_repeat_evaluate_lead_dim expr
    ⟨expr.nrows, expr.ncolumns, expr.nrows, fresh⟩
  simp only [IDenseMatrix.elem, IDenseMatrix.ptr_col, hs] at he
  simp only [cached_linear_evaluator.of_vertical, cached_linear_evaluator.get_value,
    vertical_repeat_expr.evaluate_overload, if_neg hM]
  rw [Nat.add_comm]
  exact he

/-- The selected per-column evaluator of a horizontal repeat returns `seed[i]`
from `get_value(i)` after `j` calls of `next_column`. -/
theorem horizontal_percol_value {T : Type} (expr : horizontal_repeat_expr T) (M : Nat)
    (hM : M = 0 ∨ M = expr.arg.nrows) (i j : Nat) (hi : i < expr.nrows)
    (hj : j < expr.ncolumns) :
    ((horizontal_percol_evaluator.next_column^[j]) (expr.vector_eval_percol M)).get_value i
      = expr.arg.get_value i := by
  obtain ⟨h1, h2, h3⟩ := horizontal_percol_iterate (T := T) j
  unfold horizontal_repeat_expr.vector_eval_percol
  by_cases hN1 : expr.N = 1
  · have hcols : expr.ncolumns = 1 := by simp [horizontal_repeat_expr.ncolumns, hN1]
    have hj0 : j = 0 := by omega
    subst hj0
    rw [if_pos hN1, h1, single_vec_percol_iterate]
    simp [horizontal_percol_evaluator.get_value, single_vec_percol_evaluator.get_value,
      single_vec_percol_evaluator.of_horizontal, percol_scalar_evaluator.get_value,
      percol_scalar_evaluator.bind]
  · rw [if_neg hN1]
    by_cases hM1 : M = 1
    · have hrows : expr.arg.nrows = 1 := by omega
      have hi0 : i = 0 := by
        have : expr.nrows = 1 := hrows
        omega
      subst hi0
      rw [if_pos hM1, h2]
      rfl
    · rw [if_neg hM1, h3]
      simp [horizontal_percol_evaluator.get_value, repcol_percol_evaluator.get_value,
        repcol_percol_evaluator.of_horizontal, percol_scalar_evaluator.get_value,
        percol_scalar_evaluator.bind, repcol_ewrapper.ref, repcol_ewrapper.wrap]

/-- The selected linear evaluator of a horizontal repeat returns `seed[i]` at
linear index `i + j * m`. -/
theorem horizontal_linear_value {T : Type} (expr : horizontal_repeat_expr T) (M : Nat)
    (fresh : Nat → T) (hM : M = 0 ∨ M = expr.arg.nrows) (i j : Nat) (hi : i < expr.nrows)
    (hj : j < expr.ncolumns) :
    (expr.vector_eval_linear M fresh).get_value (i + j * expr.nrows)
      = expr.arg.get_value i := by
  unfold horizontal_repeat_expr.vector_eval_linear
  by_cases hN1 : expr.N = 1
  · have hcols : expr.ncolumns = 1 := by simp [horizontal_repeat_expr.ncolumns, hN1]
    have hj0 : j = 0 := by omega
    subst hj0
    rw [if_pos hN1]
    simp [repeat_linear_evaluator.get_value, single_vec_linear_evaluator.get_value,
      single_vec_linear_evaluator.of_horizontal, linear_scalar_evaluator.get_value]
  · rw [if_neg hN1]
    by_cases hM1 : M = 1
    · have hrows : expr.arg.nrows = 1 := by omega
      have hi0 : i = 0 := by
        have : expr.nrows = 1 := hrows
        omega
      subst hi0
      rw [if_pos hM1]
      rfl
    · rw [if_neg hM1]
      exact cached_horizontal_value expr fresh hN1 i j hi hj

/-- The selected per-column evaluator of a vertical repeat of a seed row returns
`seed[j]` from `get_value(i)` after `j` calls of `next_column`. -/
theorem vertical_percol_value {T : Type} (expr : vertical_repeat_expr T) (N : Nat)
    (hN : N = 0 ∨ N = expr.arg.ncolumns) (hrow : expr.arg.nrows = 1) (i j : Nat)
    (hi : i < expr.nrows) (hj : j < expr.ncolumns) :
    ((vertical_percol_evaluator.next_column^[j]) (expr.vector_eval_percol N)).get_value i
      = expr.arg.get_value j := by
  obtain ⟨h1, h2, h3⟩ := vertical_percol_iterate (T := T) j
  unfold vertical_repeat_expr.vector_eval_percol
  by_cases hM1 : expr.M = 1
  · have hrows : expr.nrows = 1 := by simp [vertical_repeat_expr.nrows, hM1]
    have hi0 : i = 0 := by omega
    subst hi0
    rw [if_pos hM1, h1, single_vec_percol_iterate]
    simp [vertical_percol_evaluator.get_value, single_vec_percol_evaluator.get_value,
      single_vec_percol_evaluator.of_vertical, percol_scalar_evaluator.get_value,
      percol_scalar_evaluator.bind, vertical_repeat_expr.arg]
    rw [show expr.m_arg.nrows = 1 from hrow, Nat.mul_one]
  · rw [if_neg hM1]
    by_cases hN1 : N = 1
    · have hcols : expr.arg.ncolumns = 1 := by omega
      have hj0 : j = 0 := by
        have : expr.ncolumns = 1 := hcols
        omega
      subst hj0
      rw [if_pos hN1, h2]
      rfl
    · rw [if_neg hN1, h3, reprow_percol_iterate]
      simp [vertical_percol_evaluator.get_value, reprow_percol_evaluator.get_value,
        reprow_percol_evaluator.of_vertical, reprow_ewrapper.get, reprow_ewrapper.wrap]

/-- The selected linear evaluator of a vertical repeat returns `seed[j]` at linear
index `i + j * m`. -/
theorem vertical_linear_value {T : Type} (expr : vertical_repeat_expr T) (N : Nat)
    (fresh : Nat → T) (hN : N = 0 ∨ N = expr.arg.ncolumns) (i j : Nat)
    (hi : i < expr.nrows) (hj : j < expr.ncolumns) :
    (expr.vector_eval_linear N fresh).get_value (i + j * expr.nrows)
      = expr.arg.get_value j := by
  unfold vertical_repeat_expr.vector_eval_linear
  by_cases hM1 : expr.M = 1
  · have hrows : expr.nrows = 1 := by simp [vertical_repeat_expr.nrows, hM1]
    have hi0 : i = 0 := by omega
    subst hi0
    rw [if_pos hM1, hrows]
    simp [repeat_linear_evaluator.get_value, single_vec_linear_evaluator.get_value,
      single_vec_linear_evaluator.of_vertical, linear_scalar_evaluator.get_value]
  · rw [if_neg hM1]
    by_cases hN1 : N = 1
    · have hcols : expr.arg.ncolumns = 1 := by omega
      have hj0 : j = 0 := by
        have : expr.ncolumns = 1 := hcols
        omega
      subst hj0
      rw [if_pos hN1]
      rfl
    · rw [if_neg hN1]
      exact cached_vertical_value expr fresh hM1 i j hi hj

/-- C16: linear and per-column evaluation agree for repeat nodes.  For a
horizontal repeat and for a vertical repeat of a seed row, with an `m`-by-`n`
result, the value that the selected per-column evaluator returns from
`get_value(i)` after `j` calls of `next_column` equals the value of the
selected linear evaluator at linear index `i + j * m`, for every `i < m` and
`j < n`; both are the seed value (`seed[i]`, respectively `seed[j]`).  The
static extents given to the selection are `0` or the run-time extents. -/
theorem repeat_linear_percol_agree {T : Type} (hexpr : horizontal_repeat_expr T)
    (vexpr : vertical_repeat_expr T) (M N : Nat) (fresh : Nat → T)
    (hM : M = 0 ∨ M = hexpr.arg.nrows) (hN : N = 0 ∨ N = vexpr.arg.ncolumns)
    (hrow : vexpr.arg.nrows = 1)
    (ih jh : Nat) (hih : ih < hexpr.nrows) (hjh : jh < hexpr.ncolumns)
    (iv jv : Nat) (hiv : iv < vexpr.nrows) (hjv : jv < vexpr.ncolumns) :
    (((horizontal_percol_evaluator.next_column^[jh])
          (hexpr.vector_eval_percol M)).get_value ih
        = (hexpr.vector_eval_linear M fresh).get_value (ih + jh * hexpr.nrows)
      ∧ (hexpr.vector_eval_linear M fresh).get_value (ih + jh * hexpr.nrows)
        = hexpr.arg.get_value ih)
      ∧ (((vertical_percol_evaluator.next_column^[jv])
          (vexpr.vector_eval_percol N)).get_value iv
        = (vexpr.vector_eval_linear N fresh).get_value (iv + jv * vexpr.nrows)
      ∧ (vexpr.vector_eval_linear N fresh).get_value (iv + jv * vexpr.nrows)
        = vexpr.arg.get_value jv) := by
  have hp := horizontal_percol_value hexpr M hM ih jh hih hjh
  have hl := horizontal_linear_value hexpr M fresh hM ih jh hih hjh
  have vp := vertical_percol_value vexpr N hN hrow iv jv hiv hjv
  have vl := vertical_linear_value vexpr N fresh hN iv jv hiv hjv
  exact ⟨⟨hp.trans hl.symm, hl⟩, ⟨vp.trans vl.symm, vl⟩⟩

/-- Witness of C16: the run-time sized horizontal repeat of `10, 11, 12` over four
columns (cached linear evaluator, column-copy per-column evaluator) and the
vertical repeat of `10, 11, 12, 13` with static row count 3; at row `2` of
column `3` both families return `12`, respectively `13`. -/
theorem repeat_linear_percol_agree_witness :
    (((0 : Nat) = 0 ∨ 0 = sample_hrep.arg.nrows)
        ∧ ((4 : Nat) = 0 ∨ 4 = sample_vrep_static.arg.ncolumns)
        ∧ sample_vrep_static.arg.nrows = 1
        ∧ 2 < sample_hrep.nrows ∧ 3 < sample_hrep.ncolumns
        ∧ 2 < sample_vrep_static.nrows ∧ 3 < sample_vrep_static.ncolumns)
      ∧ (((horizontal_percol_evaluator.next_column^[3])
          (sample_hrep.vector_eval_percol 0)).get_value 2
        = (sample_hrep.vector_eval_linear 0 (fun _ => 0)).get_value (2 + 3 * sample_hrep.nrows)
      ∧ (sample_hrep.vector_eval_linear 0 (fun _ => 0)).get_value (2 + 3 * sample_hrep.nrows)
        = sample_hrep.arg.get_value 2)
      ∧ (((vertical_percol_evaluator.next_column^[3])
          (sample_vrep_static.vector_eval_percol 4)).get_value 2
        = (sample_vrep_static.vector_eval_linear 4 (fun _ => 0)).get_value
            (2 + 3 * sample_vrep_static.nrows)
      ∧ (sample_vrep_static.vector_eval_linear 4 (fun _ => 0)).get_value
            (2 + 3 * sample_vrep_static.nrows)
        = sample_vrep_static.arg.get_value 3) :=
  ⟨⟨Or.inl rfl, Or.inr rfl, rfl, by decide, by decide, by decide, by decide⟩,
    repeat_linear_percol_agree sample_hrep sample_vrep_static 0 4 (fun _ => 0)
      (Or.inl rfl) (Or.inr rfl) rfl 2 3 (by decide) (by decide) 2 3 (by decide) (by decide)⟩

/-! ### Frame of evaluation and zero-size results -/

/-- Scalar evaluation into a dense destination keeps every buffer position that
is not a logical element `j * lead_dim + i` of the destination. -/
theorem evaluate_by_scalars_frame {T : Type} (expr : IMatrixXpr T) (dst : IDenseMatrix T)
    (k : Nat)
    (hk : ∀ i j, i < dst.nrows → j < dst.ncolumns → k ≠ j * dst.lead_dim + i) :
    (evaluate_by_scalars expr dst).data k = dst.data k := by
  unfold evaluate_by_scalars
  by_cases hc : has_continuous_layout dst = true
  · rw [if_pos hc]
    have heq : dst.lead_dim = dst.nrows := by
      simpa [has_continuous_layout] using hc
    show copy_mem (dst.nrows * dst.ncolumns) expr.get_value dst.data 0 k = dst.data k
    rw [copy_mem_apply]
    have hout : ¬ (0 ≤ k ∧ k < 0 + dst.nrows * dst.ncolumns) := by
      rintro ⟨_, hlt⟩
      rw [Nat.zero_add] at hlt
      have hpos : 0 < dst.nrows := by
        rcases Nat.eq_zero_or_pos dst.nrows with h0 | h0
        · rw [h0, Nat.zero_mul] at hlt; omega
        · exact h0
      have hrow : k % dst.nrows < dst.nrows := Nat.mod_lt _ hpos
      have hcol : k / dst.nrows < dst.ncolumns := Nat.div_lt_of_lt_mul hlt
      have hoff : k / dst.nrows * dst.nrows + k % dst.nrows = k := Nat.div_add_mod' k dst.nrows
      exact hk _ _ hrow hcol (by rw [heq, hoff])
    rw [if_neg hout]
  · rw [if_neg hc]
    exact for_index_columns_frame dst.lead_dim dst.nrows
      (fun j i => expr.get_value (j * dst.nrows + i)) _
      (fun j cur k => copy_mem_apply _ _ _ _ _) dst.data dst.ncolumns k
      (fun j hj hin => hk (k - j * dst.lead_dim) j (by omega) hj (by omega))

/-- Filling a dense destination keeps every buffer position that is not a logical
element of the destination. -/
theorem fill_frame {T : Type} (dst : IDenseMatrix T) (v : T) (k : Nat)
    (hk : ∀ i j, i < dst.nrows → j < dst.ncolumns → k ≠ j * dst.lead_dim + i) :
    (fill dst v).data k = dst.data k :=
  for_index_columns_frame dst.lead_dim dst.nrows (fun _ _ => v) _
    (fun j cur k => fill_mem_apply _ _ _ _ _) dst.data dst.ncolumns k
    (fun j hj hin => hk (k - j * dst.lead_dim) j (by omega) hj (by omega))

/-- The general routine for a horizontal repeat keeps every buffer position that
is not a logical element `j * lead_dim + i` of the destination. -/
theorem horizontal_repeat_evaluate_frame {T : Type} (expr : horizontal_repeat_expr T)
    (dst : IDenseMatrix T) (hm : dst.nrows = expr.arg.nrows)
    (hn : dst.ncolumns = expr.ncolumns) (k : Nat)
    (hk : ∀ i j, i < dst.nrows → j < dst.ncolumns → k ≠ j * dst.lead_dim + i) :
    (expr.evaluate dst).data k = dst.data k := by
  unfold horizontal_repeat_expr.evaluate
  by_cases h1 : expr.is_column = true
  · have hn1 : expr.ncolumns = 1 := by
      simpa [horizontal_repeat_expr.is_column] using h1
    simp only [if_pos h1]
    exact evaluate_by_scalars_frame expr.arg (ref_col dst.data expr.arg.nrows) k
      (fun i j hi hj => by
        have hj0 : j = 0 := by
          have : j < 1 := hj
          omega
        have h := hk i 0 (by rw [hm]; exact hi) (by omega)
        rw [hj0]
        simpa using h)
  · by_cases h2 : (repcol_ewrapper.wrap expr.arg).nrows = 1
    · simp only [if_neg h1, if_pos h2]
      exact fill_frame dst _ k hk
    · simp only [if_neg h1, if_neg h2]
      have hrows : (repcol_ewrapper.wrap expr.arg).nrows = dst.nrows := by
        rw [hm]; rfl
      rw [hrows]
      exact for_index_columns_frame dst.lead_dim dst.nrows
        (fun _ i => (repcol_ewrapper.wrap expr.arg).data i) _
        (fun j cur k => copy_mem_apply _ _ _ _ _) dst.data expr.ncolumns k
        (fun j hj hin => hk (k - j * dst.lead_dim) j (by omega) (by omega) (by omega))

/-- The general routine for a vertical repeat keeps every buffer position that is
not a logical element `j * lead_dim + i` of the destination. -/
theorem vertical_repeat_evaluate_frame {T : Type} (expr : vertical_repeat_expr T)
    (dst : IDenseMatrix T) (hm : dst.nrows = expr.nrows)
    (hn : dst.ncolumns = expr.arg.ncolumns) (k : Nat)
    (hk : ∀ i j, i < dst.nrows → j < dst.ncolumns → k ≠ j * dst.lead_dim + i) :
    (expr.evaluate dst).data k = dst.data k := by
  unfold vertical_repeat_expr.evaluate
  by_cases h1 : expr.is_row = true
  · have hm1 : expr.nrows = 1 := by
      simpa [vertical_repeat_expr.is_row] using h1
    by_cases hc : has_continuous_layout dst = true
    · have hldim : dst.lead_dim = 1 := by
        have h := hc
        simp only [has_continuous_layout, beq_iff_eq] at h
        omega
      simp only [if_pos h1, if_pos hc]
      exact evaluate_by_scalars_frame expr.arg (ref_row dst.data expr.arg.ncolumns) k
        (fun i j hi hj => by
          have h := hk i j (by rw [hm, hm1]; exact hi) (by rw [hn]; exact hj)
          rw [hldim] at h
          exact h)
    · simp only [if_pos h1, if_neg hc]
      exact evaluate_by_scalars_frame expr.arg
        (ref_matrix_ex dst.data 1 expr.arg.ncolumns dst.lead_dim) k
        (fun i j hi hj => hk i j (by rw [hm, hm1]; exact hi) (by rw [hn]; exact hj))
  · have hcols : (reprow_ewrapper.wrap expr.arg).ncolumns = dst.ncolumns := by
      rw [hn]; rfl
    have hlen : (if expr.M = 0 then expr.nrows else expr.M) = dst.nrows := by
      rw [hm]
      by_cases hM : expr.M = 0
      · rw [if_pos hM]
      · rw [if_neg hM]; simp [vertical_repeat_expr.nrows, hM]
    have hone : ∀ v : T, (reprow_ewrapper.wrap expr.arg).ncolumns = 1 →
        fill_mem dst.nrows dst.data dst.ptr_data v k = dst.data k := by
      intro v hn1
      rw [fill_mem_apply]
      have hout : ¬ (dst.ptr_data ≤ k ∧ k < dst.ptr_data + dst.nrows) := by
        rintro ⟨_, hlt⟩
        simp only [IDenseMatrix.ptr_data, Nat.zero_add] at hlt
        exact hk k 0 hlt (by omega) (by omega)
      rw [if_neg hout]
    have hloop : ∀ g : Nat → T,
        for_index dst.ncolumns
          (fun j cur => fill_mem dst.nrows cur (dst.ptr_col j) (g j)) dst.data k
          = dst.data k := by
      intro g
      exact for_index_columns_frame dst.lead_dim dst.nrows (fun j _ => g j) _
        (fun j cur k => fill_mem_apply _ _ _ _ _) dst.data dst.ncolumns k
        (fun j hj hin => hk (k - j * dst.lead_dim) j (by omega) hj (by omega))
    by_cases hM : expr.M = 0
    · rw [if_pos hM] at hlen
      by_cases hn1 : (reprow_ewrapper.wrap expr.arg).ncolumns = 1
      · simp only [if_neg h1, if_pos hM, if_pos hn1]
        rw [hlen]
        exact hone _ hn1
      · simp only [if_neg h1, if_pos hM, if_neg hn1]
        rw [hlen, hcols]
        exact hloop _
    · rw [if_neg hM] at hlen
      by_cases hn1 : (reprow_ewrapper.wrap expr.arg).ncolumns = 1
      · simp only [if_neg h1, if_neg hM, if_pos hn1]
        rw [hlen]
        exact hone _ hn1
      · simp only [if_neg h1, if_neg hM, if_neg hn1]
        rw [hlen, hcols]
        exact hloop _

/-- C21: zero-size evaluation is a no-op.  For a destination of the result's
shape with `rows * cols = 0`, the evaluation of a horizontal repeat, of a
vertical repeat (general routine and selected overload) and the default or
scalar evaluation of any expression, element-wise nodes included, return with
every element of the destination buffer unchanged; so does a kernel evaluated
through the linear path over `0` elements, with either access unit.  The
routines are total functions: no evaluation fails. -/
theorem zero_size_no_op {T : Type} (hexpr : horizontal_repeat_expr T)
    (vexpr : vertical_repeat_expr T) (dst : IDenseMatrix T)
    (hz : dst.nrows * dst.ncolumns = 0)
    (hhm : dst.nrows = hexpr.arg.nrows) (hhn : dst.ncolumns = hexpr.ncolumns)
    (hvm : dst.nrows = vexpr.nrows) (hvn : dst.ncolumns = vexpr.arg.ncolumns) :
    ((hexpr.evaluate dst).data = dst.data ∧ (hexpr.evaluate_overload dst).data = dst.data)
      ∧ ((vexpr.evaluate dst).data = dst.data ∧ (vexpr.evaluate_overload dst).data = dst.data)
      ∧ (∀ e : IMatrixXpr T,
          (default_evaluate e dst).data = dst.data
            ∧ (evaluate_by_scalars e dst).data = dst.data)
      ∧ (∀ (S : Type) (g : T → S → T) (src : Nat → S) (sstep dstep W : Nat)
            (gp : (Nat → T) → (Nat → S) → (Nat → T)),
          linear_eval_scalar g 0 src sstep dst.data dstep = dst.data
            ∧ linear_eval_simd W gp g 0 src dst.data = dst.data) := by
  have hnone : ∀ k i j, i < dst.nrows → j < dst.ncolumns → k ≠ j * dst.lead_dim + i := by
    intro k i j hi hj
    have hpos : 0 < dst.nrows * dst.ncolumns :=
      Nat.mul_pos (Nat.lt_of_le_of_lt (Nat.zero_le i) hi) (Nat.lt_of_le_of_lt (Nat.zero_le j) hj)
    omega
  have hh : (hexpr.evaluate dst).data = dst.data :=
    funext fun k => horizontal_repeat_evaluate_frame hexpr dst hhm hhn k (hnone k)
  have hv : (vexpr.evaluate dst).data = dst.data :=
    funext fun k => vertical_repeat_evaluate_frame vexpr dst hvm hvn k (hnone k)
  have he : ∀ e : IMatrixXpr T, (evaluate_by_scalars e dst).data = dst.data :=
    fun e => funext fun k => evaluate_by_scalars_frame e dst k (hnone k)
  refine ⟨⟨hh, ?_⟩, ⟨hv, ?_⟩, fun e => ⟨he e, he e⟩, ?_⟩
  · unfold horizontal_repeat_expr.evaluate_overload
    by_cases hN : hexpr.N = 1
    · rw [if_pos hN]; exact he hexpr.arg
    · rw [if_neg hN]; exact hh
  · unfold vertical_repeat_expr.evaluate_overload
    by_cases hM : vexpr.M = 1
    · rw [if_pos hM]; exact he vexpr.arg
    · rw [if_neg hM]; exact hv
  · intro S g src sstep dstep W gp
    refine ⟨rfl, ?_⟩
    simp [linear_eval_simd, for_index]

/-- Witness of C21 on 3-by-0 results: the buffer of the destination, which holds
`k` at offset `k`, is returned as it was. -/
theorem zero_size_no_op_witness :
    (sample_dst_empty.nrows * sample_dst_empty.ncolumns = 0
        ∧ sample_dst_empty.nrows = sample_hrep_empty.arg.nrows
        ∧ sample_dst_empty.ncolumns = sample_hrep_empty.ncolumns
        ∧ sample_dst_empty.nrows = sample_vrep_empty.nrows
        ∧ sample_dst_empty.ncolumns = sample_vrep_empty.arg.ncolumns)
      ∧ ((sample_hrep_empty.evaluate sample_dst_empty).data = sample_dst_empty.data
        ∧ (sample_hrep_empty.evaluate_overload sample_dst_empty).data = sample_dst_empty.data)
      ∧ ((sample_vrep_empty.evaluate sample_dst_empty).data = sample_dst_empty.data
        ∧ (sample_vrep_empty.evaluate_overload sample_dst_empty).data = sample_dst_empty.data)
      ∧ (∀ e : IMatrixXpr Nat,
          (default_evaluate e sample_dst_empty).data = sample_dst_empty.data
            ∧ (evaluate_by_scalars e sample_dst_empty).data = sample_dst_empty.data)
      ∧ (∀ (S : Type) (g : Nat → S → Nat) (src : Nat → S) (sstep dstep W : Nat)
            (gp : (Nat → Nat) → (Nat → S) → (Nat → Nat)),
          linear_eval_scalar g 0 src sstep sample_dst_empty.data dstep = sample_dst_empty.data
            ∧ linear_eval_simd W gp g 0 src sample_dst_empty.data = sample_dst_empty.data) :=
  ⟨⟨rfl, rfl, rfl, rfl, rfl⟩,
    zero_size_no_op sample_hrep_empty sample_vrep_empty sample_dst_empty rfl rfl rfl rfl rfl⟩

/-! ### Invariants of the repeat evaluators -/

/-- C22: the per-column evaluator of a vertical repeat, built from the node, has
after exactly `k` calls of `next_column` the column index `k`, still holds the
wrapped seed row, and returns `seed_row[k]` from `get_value(i)` for every `i`.
When `next_column` is called at most `n - 1` times for an `n`-column result
(`n >= 1`), the index is below `n`, the length of the wrapped seed row, so the
access is in bounds. -/
theorem reprow_percol_invariant {T : Type} (expr : vertical_repeat_expr T) (k i : Nat)
    (hn : 1 ≤ expr.ncolumns) (hk : k ≤ expr.ncolumns - 1) :
    ((reprow_percol_evaluator.next_column^[k]) (reprow_percol_evaluator.of_vertical expr)).m_j
        = k
      ∧ ((reprow_percol_evaluator.next_column^[k])
          (reprow_percol_evaluator.of_vertical expr)).m_rowwrap = reprow_ewrapper.wrap expr.arg
      ∧ ((reprow_percol_evaluator.next_column^[k])
          (reprow_percol_evaluator.of_vertical expr)).get_value i = expr.arg.get_value k
      ∧ ((reprow_percol_evaluator.next_column^[k])
          (reprow_percol_evaluator.of_vertical expr)).m_j
          < ((reprow_percol_evaluator.next_column^[k])
              (reprow_percol_evaluator.of_vertical expr)).m_rowwrap.ncolumns := by
  rw [reprow_percol_iterate]
  have hcols : (reprow_ewrapper.wrap expr.arg).ncolumns = expr.ncolumns := rfl
  refine ⟨?_, rfl, ?_, ?_⟩
  · simp [reprow_percol_evaluator.of_vertical]
  · simp [reprow_percol_evaluator.of_vertical, reprow_percol_evaluator.get_value,
      reprow_ewrapper.get, reprow_ewrapper.wrap]
  · simp only [reprow_percol_evaluator.of_vertical, Nat.zero_add, hcols]
    omega

/-- Witness of C22: the vertical repeat of the row `10, 11, 12, 13`; after three
calls of `next_column` the index is `3` and `get_value` returns `13`. -/
theorem reprow_percol_invariant_witness :
    (1 ≤ sample_vrep.ncolumns ∧ 3 ≤ sample_vrep.ncolumns - 1)
      ∧ ((reprow_percol_evaluator.next_column^[3])
          (reprow_percol_evaluator.of_vertical sample_vrep)).m_j = 3
      ∧ ((reprow_percol_evaluator.next_column^[3])
          (reprow_percol_evaluator.of_vertical sample_vrep)).m_rowwrap
          = reprow_ewrapper.wrap sample_vrep.arg
      ∧ ((reprow_percol_evaluator.next_column^[3])
          (reprow_percol_evaluator.of_vertical sample_vrep)).get_value 2
          = sample_vrep.arg.get_value 3
      ∧ ((reprow_percol_evaluator.next_column^[3])
          (reprow_percol_evaluator.of_vertical sample_vrep)).m_j
          < ((reprow_percol_evaluator.next_column^[3])
              (reprow_percol_evaluator.of_vertical sample_vrep)).m_rowwrap.ncolumns :=
  ⟨⟨by decide, by decide⟩, reprow_percol_invariant sample_vrep 3 2 (by decide) (by decide)⟩

/-- Calls of `next_column` leave a scalar-caching per-column evaluator as it is. -/
theorem rep_scalar_percol_iterate {T : Type} (e : rep_scalar_percol_evaluator T) (k : Nat) :
    (rep_scalar_percol_evaluator.next_column^[k]) e = e :=
  Function.iterate_fixed rfl k

/-- C29: the scalar-caching evaluators hold in `m_val` the scalar value of the
seed read by their constructor and return it from `get_value(i)` for every
index `i`; for the per-column variant `next_column` returns the evaluator
unchanged, so the value returned is the same after any number `k` of calls. -/
theorem rep_scalar_constant {T : Type} (hexpr : horizontal_repeat_expr T)
    (vexpr : vertical_repeat_expr T) (i k : Nat) :
    ((rep_scalar_linear_evaluator.of_horizontal hexpr).m_val = to_scalar hexpr.arg
        ∧ (rep_scalar_linear_evaluator.of_horizontal hexpr).get_value i = to_scalar hexpr.arg
        ∧ (rep_scalar_linear_evaluator.of_vertical vexpr).m_val = to_scalar vexpr.arg
        ∧ (rep_scalar_linear_evaluator.of_vertical vexpr).get_value i = to_scalar vexpr.arg)
      ∧ ((rep_scalar_percol_evaluator.of_horizontal hexpr).m_val = to_scalar hexpr.arg
        ∧ (rep_scalar_percol_evaluator.of_vertical vexpr).m_val = to_scalar vexpr.arg
        ∧ (rep_scalar_percol_evaluator.next_column^[k])
            (rep_scalar_percol_evaluator.of_horizontal hexpr)
            = rep_scalar_percol_evaluator.of_horizontal hexpr
        ∧ (rep_scalar_percol_evaluator.next_column^[k])
            (rep_scalar_percol_evaluator.of_vertical vexpr)
            = rep_scalar_percol_evaluator.of_vertical vexpr
        ∧ ((rep_scalar_percol_evaluator.next_column^[k])
            (rep_scalar_percol_evaluator.of_horizontal hexpr)).get_value i = to_scalar hexpr.arg
        ∧ ((rep_scalar_percol_evaluator.next_column^[k])
            (rep_scalar_percol_evaluator.of_vertical vexpr)).get_value i
            = to_scalar vexpr.arg) := by
  refine ⟨⟨rfl, rfl, rfl, rfl⟩, rfl, rfl, rep_scalar_percol_iterate _ k,
    rep_scalar_percol_iterate _ k, ?_, ?_⟩
  · rw [rep_scalar_percol_iterate]; rfl
  · rw [rep_scalar_percol_iterate]; rfl

/-- C30: the single-replica evaluators are pass-throughs.  `get_value(i)` of
`single_vec_linear_evaluator` is `get_value(i)` of the linear evaluator of the
seed, `get_value(i)` of `single_vec_percol_evaluator` is `get_value(i)` of the
per-column evaluator of the seed it holds, and each call of `next_column`
advances that evaluator exactly once, so after `k` calls it has been advanced
`k` times. -/
theorem single_vec_pass_through {T : Type} (hexpr : horizontal_repeat_expr T)
    (vexpr : vertical_repeat_expr T) (e : single_vec_percol_evaluator T) (i k : Nat) :
    ((single_vec_linear_evaluator.of_horizontal hexpr).get_value i
          = (linear_scalar_evaluator.mk hexpr.arg).get_value i
        ∧ (single_vec_linear_evaluator.of_vertical vexpr).get_value i
          = (linear_scalar_evaluator.mk vexpr.arg).get_value i)
      ∧ ((single_vec_percol_evaluator.of_horizontal hexpr).get_value i
          = (percol_scalar_evaluator.bind hexpr.arg).get_value i
        ∧ (single_vec_percol_evaluator.of_vertical vexpr).get_value i
          = (percol_scalar_evaluator.bind vexpr.arg).get_value i)
      ∧ (e.get_value i = e.m_eval.get_value i
        ∧ e.next_column.m_eval = e.m_eval.next_column
        ∧ ((single_vec_percol_evaluator.next_column^[k]) e).m_eval
            = (percol_scalar_evaluator.next_column^[k]) e.m_eval
        ∧ ((single_vec_percol_evaluator.next_column^[k]) e).get_value i
            = ((percol_scalar_evaluator.next_column^[k]) e.m_eval).get_value i) := by
  have hk : ((single_vec_percol_evaluator.next_column^[k]) e).m_eval
      = (percol_scalar_evaluator.next_column^[k]) e.m_eval := by
    induction k with
    | zero => rfl
    | succ k ih =>
      rw [Function.iterate_succ_apply', Function.iterate_succ_apply', ← ih]
      rfl
  refine ⟨⟨rfl, rfl⟩, ⟨rfl, rfl⟩, rfl, rfl, hk, ?_⟩
  rw [← hk]
  rfl

/-! ### Selection and cost of the repeat evaluators -/

/-- The per-column cost of a horizontal repeat, as a function of the static row
count of the seed. -/
theorem horizontal_percol_cost_eq {T : Type} (expr : horizontal_repeat_expr T)
    (c : eval_costs) (M : Nat) :
    expr.vector_eval_percol_cost c M
      = if (M : Int) < c.SHORTVEC_LENGTH_THRESHOLD then c.SHORTVEC_PERCOL_COST else 0 := rfl

/-- The per-column cost of a vertical repeat, as a function of the static
replication factor. -/
theorem vertical_percol_cost_eq {T : Type} (expr : vertical_repeat_expr T)
    (c : eval_costs) (N : Nat) :
    expr.vector_eval_percol_cost c N
      = if (expr.M : Int) < c.SHORTVEC_LENGTH_THRESHOLD then c.SHORTVEC_PERCOL_COST else 0 := rfl

/-- The rank of the selected linear evaluator of a horizontal repeat. -/
theorem horizontal_linear_kind {T : Type} (expr : horizontal_repeat_expr T) (M : Nat)
    (fresh : Nat → T) :
    (expr.vector_eval_linear M fresh).kind
      = if expr.N = 1 then .single_vec else if M = 1 then .rep_scalar else .general := by
  unfold horizontal_repeat_expr.vector_eval_linear
  by_cases h1 : expr.N = 1
  · rw [if_pos h1, if_pos h1]; rfl
  · by_cases h2 : M = 1
    · rw [if_neg h1, if_pos h2, if_neg h1, if_pos h2]; rfl
    · rw [if_neg h1, if_neg h2, if_neg h1, if_neg h2]; rfl

/-- The rank of the selected per-column evaluator of a horizontal repeat. -/
theorem horizontal_percol_kind {T : Type} (expr : horizontal_repeat_expr T) (M : Nat) :
    (expr.vector_eval_percol M).kind
      = if expr.N = 1 then .single_vec else if M = 1 then .rep_scalar else .general := by
  unfold horizontal_repeat_expr.vector_eval_percol
  by_cases h1 : expr.N = 1
  · rw [if_pos h1, if_pos h1]; rfl
  · by_cases h2 : M = 1
    · rw [if_neg h1, if_pos h2, if_neg h1, if_pos h2]; rfl
    · rw [if_neg h1, if_neg h2, if_neg h1, if_neg h2]; rfl

/-- The rank of the selected linear evaluator of a vertical repeat. -/
theorem vertical_linear_kind {T : Type} (expr : vertical_repeat_expr T) (N : Nat)
    (fresh : Nat → T) :
    (expr.vector_eval_linear N fresh).kind
      = if expr.M = 1 then .single_vec else if N = 1 then .rep_scalar else .general := by
  unfold vertical_repeat_expr.vector_eval_linear
  by_cases h1 : expr.M = 1
  · rw [if_pos h1, if_pos h1]; rfl
  · by_cases h2 : N = 1
    · rw [if_neg h1, if_pos h2, if_neg h1, if_pos h2]; rfl
    · rw [if_neg h1, if_neg h2, if_neg h1, if_neg h2]; rfl

/-- The rank of the selected per-column evaluator of a vertical repeat. -/
theorem vertical_percol_kind {T : Type} (expr : vertical_repeat_expr T) (N : Nat) :
    (expr.vector_eval_percol N).kind
      = if expr.M = 1 then .single_vec else if N = 1 then .rep_scalar else .general := by
  unfold vertical_repeat_expr.vector_eval_percol
  by_cases h1 : expr.M = 1
  · rw [if_pos h1, if_pos h1]; rfl
  · by_cases h2 : N = 1
    · rw [if_neg h1, if_pos h2, if_neg h1, if_pos h2]; rfl
    · rw [if_neg h1, if_neg h2, if_neg h1, if_neg h2]; rfl

/-- C23 (the claim fails in the per-column family): with the threshold 4 and the
short-vector cost 200, the pass-through per-column evaluator of a horizontal
repeat with static factor 1 over a seed of 3 static rows costs 200, the
scalar-caching per-column evaluator over a seed of 1 static row costs 200, and
the pass-through per-column evaluator of a vertical repeat with static factor 1
costs 200.  For all constants with a threshold above 1 and a non-zero
short-vector cost the last two costs are not 0. -/
theorem degenerate_percol_cost_not_zero :
    ((sample_hrep_static1.vector_eval_percol 3).kind = .single_vec
        ∧ sample_hrep_static1.vector_eval_percol_cost sample_costs 3 = 200)
      ∧ ((sample_hrep_scalar.vector_eval_percol 1).kind = .rep_scalar
        ∧ sample_hrep_scalar.vector_eval_percol_cost sample_costs 1 = 200)
      ∧ ((sample_vrep_static1.vector_eval_percol 4).kind = .single_vec
        ∧ sample_vrep_static1.vector_eval_percol_cost sample_costs 4 = 200)
      ∧ (∀ c : eval_costs, 1 < c.SHORTVEC_LENGTH_THRESHOLD → c.SHORTVEC_PERCOL_COST ≠ 0 →
          sample_hrep_scalar.vector_eval_percol_cost c 1 ≠ 0
            ∧ sample_vrep_static1.vector_eval_percol_cost c 4 ≠ 0) := by
  refine ⟨⟨rfl, by decide⟩, ⟨rfl, by decide⟩, ⟨rfl, by decide⟩, ?_⟩
  intro c ht hs
  rw [horizontal_percol_cost_eq, vertical_percol_cost_eq]
  have h1 : ((1 : Nat) : Int) < c.SHORTVEC_LENGTH_THRESHOLD := by
    simpa using ht
  have h2 : ((sample_vrep_static1.M : Nat) : Int) < c.SHORTVEC_LENGTH_THRESHOLD := by
    simpa [sample_vrep_static1] using ht
  rw [if_pos h1, if_pos h2]
  exact ⟨hs, hs⟩

/-- C23 (amended): for a repeat node whose replication factor is statically 1 or
whose seed's orthogonal extent is statically 1, the selected linear evaluator
has cost 0.  The cost of the per-column evaluator does not depend on which
evaluator is selected: it is `SHORTVEC_PERCOL_COST` when the static column
length of the result (the seed's static row count for a horizontal repeat, the
factor `M` for a vertical repeat) is below `SHORTVEC_LENGTH_THRESHOLD`, and 0
when it is at or above it. -/
theorem degenerate_selection_cost {T : Type} (hexpr : horizontal_repeat_expr T)
    (vexpr : vertical_repeat_expr T) (c : eval_costs) (M N : Nat)
    (hh : hexpr.N = 1 ∨ M = 1) (hv : vexpr.M = 1 ∨ N = 1) :
    (hexpr.vector_eval_linear_cost c M = 0 ∧ vexpr.vector_eval_linear_cost c N = 0)
      ∧ (hexpr.vector_eval_percol_cost c M
          = if (M : Int) < c.SHORTVEC_LENGTH_THRESHOLD then c.SHORTVEC_PERCOL_COST else 0)
      ∧ (vexpr.vector_eval_percol_cost c N
          = if (vexpr.M : Int) < c.SHORTVEC_LENGTH_THRESHOLD then c.SHORTVEC_PERCOL_COST
            else 0) := by
  refine ⟨⟨?_, ?_⟩, rfl, rfl⟩
  · unfold horizontal_repeat_expr.vector_eval_linear_cost
    rw [if_pos hh]
  · unfold vertical_repeat_expr.vector_eval_linear_cost
    rw [if_pos hv]

/-- Witness of C23 (amended): the horizontal repeat with static factor 1 over a
seed of 3 static rows, and the vertical repeat with static factor 1. -/
theorem degenerate_selection_cost_witness :
    ((sample_hrep_static1.N = 1 ∨ 3 = 1) ∧ (sample_vrep_static1.M = 1 ∨ 4 = 1))
      ∧ (sample_hrep_static1.vector_eval_linear_cost sample_costs 3 = 0
        ∧ sample_vrep_static1.vector_eval_linear_cost sample_costs 4 = 0)
      ∧ (sample_hrep_static1.vector_eval_percol_cost sample_costs 3
          = if ((3 : Nat) : Int) < sample_costs.SHORTVEC_LENGTH_THRESHOLD then
              sample_costs.SHORTVEC_PERCOL_COST else 0)
      ∧ (sample_vrep_static1.vector_eval_percol_cost sample_costs 4
          = if (sample_vrep_static1.M : Int) < sample_costs.SHORTVEC_LENGTH_THRESHOLD then
              sample_costs.SHORTVEC_PERCOL_COST else 0) :=
  ⟨⟨Or.inl rfl, Or.inl rfl⟩,
    degenerate_selection_cost sample_hrep_static1 sample_vrep_static1 sample_costs 3 4
      (Or.inl rfl) (Or.inl rfl)⟩

/-- C24: when the replication factor and the seed's extent are only known at run
time (both static values are the sentinel 0), the selected linear evaluator is
the cached linear evaluator, its cost is `VEC_EVAL_CACHE_COST`, and the selected
per-column evaluator is the column-copy (horizontal) or row-index (vertical)
evaluator, whatever the seed and the run-time extents are. -/
theorem runtime_extents_select_general {T : Type} (harg varg : IMatrixXpr T)
    (n m : Nat) (fresh : Nat → T) (c : eval_costs) :
    ((⟨0, harg, n⟩ : horizontal_repeat_expr T).vector_eval_linear 0 fresh
          = .cached (cached_linear_evaluator.of_horizontal ⟨0, harg, n⟩ fresh)
        ∧ (⟨0, harg, n⟩ : horizontal_repeat_expr T).vector_eval_linear_cost c 0
          = c.VEC_EVAL_CACHE_COST
        ∧ (⟨0, harg, n⟩ : horizontal_repeat_expr T).vector_eval_percol 0
          = .repcol (repcol_percol_evaluator.of_horizontal ⟨0, harg, n⟩))
      ∧ ((⟨0, varg, m⟩ : vertical_repeat_expr T).vector_eval_linear 0 fresh
          = .cached (cached_linear_evaluator.of_vertical ⟨0, varg, m⟩ fresh)
        ∧ (⟨0, varg, m⟩ : vertical_repeat_expr T).vector_eval_linear_cost c 0
          = c.VEC_EVAL_CACHE_COST
        ∧ (⟨0, varg, m⟩ : vertical_repeat_expr T).vector_eval_percol 0
          = .reprow (reprow_percol_evaluator.of_vertical ⟨0, varg, m⟩)) := by
  refine ⟨⟨?_, ?_, ?_⟩, ⟨?_, ?_, ?_⟩⟩
  · simp [horizontal_repeat_expr.vector_eval_linear]
  · simp [horizontal_repeat_expr.vector_eval_linear_cost]
  · simp [horizontal_repeat_expr.vector_eval_percol]
  · simp [vertical_repeat_expr.vector_eval_linear]
  · simp [vertical_repeat_expr.vector_eval_linear_cost]
  · simp [vertical_repeat_expr.vector_eval_percol]

/-- C26: the selection is a fixed priority on the static extents.  With static
factor `N` and static seed extent `M`, in the linear and in the per-column
family, for horizontal and for vertical repeats: the pass-through evaluator is
selected if `N = 1`, otherwise the scalar-caching evaluator if `M = 1`,
otherwise the general evaluator.  With both equal to 1 the pass-through is
selected.  The seed, the run-time extent and the contents of fresh memory do
not enter the choice. -/
theorem selection_priority {T : Type} (N M : Nat) (harg varg : IMatrixXpr T)
    (hrt vrt : Nat) (fresh : Nat → T) :
    (((⟨N, harg, hrt⟩ : horizontal_repeat_expr T).vector_eval_linear M fresh).kind
          = (if N = 1 then .single_vec else if M = 1 then .rep_scalar else .general)
        ∧ ((⟨N, harg, hrt⟩ : horizontal_repeat_expr T).vector_eval_percol M).kind
          = (if N = 1 then .single_vec else if M = 1 then .rep_scalar else .general)
        ∧ ((⟨N, varg, vrt⟩ : vertical_repeat_expr T).vector_eval_linear M fresh).kind
          = (if N = 1 then .single_vec else if M = 1 then .rep_scalar else .general)
        ∧ ((⟨N, varg, vrt⟩ : vertical_repeat_expr T).vector_eval_percol M).kind
          = (if N = 1 then .single_vec else if M = 1 then .rep_scalar else .general))
      ∧ (((⟨1, harg, hrt⟩ : horizontal_repeat_expr T).vector_eval_linear 1 fresh).kind
          = .single_vec
        ∧ ((⟨1, harg, hrt⟩ : horizontal_repeat_expr T).vector_eval_percol 1).kind
          = .single_vec
        ∧ ((⟨1, varg, vrt⟩ : vertical_repeat_expr T).vector_eval_linear 1 fresh).kind
          = .single_vec
        ∧ ((⟨1, varg, vrt⟩ : vertical_repeat_expr T).vector_eval_percol 1).kind
          = .single_vec) := by
  refine ⟨⟨horizontal_linear_kind _ M fresh, horizontal_percol_kind _ M,
    vertical_linear_kind _ M fresh, vertical_percol_kind _ M⟩, ?_, ?_, ?_, ?_⟩
  · rw [horizontal_linear_kind]; rfl
  · rw [horizontal_percol_kind]; rfl
  · rw [vertical_linear_kind]; rfl
  · rw [vertical_percol_kind]; rfl

/-- C27: the cost of the linear evaluator of a repeat node is
`VEC_EVAL_CACHE_COST` if the cached linear evaluator is the selected type and 0
otherwise; with a non-zero `VEC_EVAL_CACHE_COST`, the cost is
`VEC_EVAL_CACHE_COST` exactly when neither the static factor nor the static
extent of the seed is 1, that is exactly when the cached linear evaluator is
selected.  This holds for horizontal repeats (`N`, `M`) and for vertical
repeats (`M`, `N`). -/
theorem linear_cost_iff_cached {T : Type} (c : eval_costs)
    (hc : c.VEC_EVAL_CACHE_COST ≠ 0) (hexpr : horizontal_repeat_expr T)
    (vexpr : vertical_repeat_expr T) (M N : Nat) (fresh : Nat → T) :
    ((hexpr.vector_eval_linear_cost c M = c.VEC_EVAL_CACHE_COST ↔ ¬ (hexpr.N = 1 ∨ M = 1))
        ∧ (hexpr.vector_eval_linear_cost c M = c.VEC_EVAL_CACHE_COST
            ↔ (hexpr.vector_eval_linear M fresh).kind = .general)
        ∧ hexpr.vector_eval_linear_cost c M
            = if (hexpr.vector_eval_linear M fresh).kind = .general then c.VEC_EVAL_CACHE_COST
              else 0)
      ∧ ((vexpr.vector_eval_linear_cost c N = c.VEC_EVAL_CACHE_COST ↔ ¬ (vexpr.M = 1 ∨ N = 1))
        ∧ (vexpr.vector_eval_linear_cost c N = c.VEC_EVAL_CACHE_COST
            ↔ (vexpr.vector_eval_linear N fresh).kind = .general)
        ∧ vexpr.vector_eval_linear_cost c N
            = if (vexpr.vector_eval_linear N fresh).kind = .general then c.VEC_EVAL_CACHE_COST
              else 0) := by
  have hc' : ¬ (0 : Int) = c.VEC_EVAL_CACHE_COST := fun h => hc h.symm
  constructor
  · rw [horizontal_linear_kind]
    unfold horizontal_repeat_expr.vector_eval_linear_cost
    by_cases h1 : hexpr.N = 1
    · simp [h1, hc']
    · by_cases h2 : M = 1
      · simp [h1, h2, hc']
      · simp [h1, h2]
  · rw [vertical_linear_kind]
    unfold vertical_repeat_expr.vector_eval_linear_cost
    by_cases h1 : vexpr.M = 1
    · simp [h1, hc']
    · by_cases h2 : N = 1
      · simp [h1, h2, hc']
      · simp [h1, h2]

/-- Witness of C27 with the materialisation cost 1000, on the run-time sized
horizontal repeat and on the vertical repeat with static row count 3. -/
theorem linear_cost_iff_cached_witness :
    sample_costs.VEC_EVAL_CACHE_COST ≠ 0
      ∧ ((sample_hrep.vector_eval_linear_cost sample_costs 0 = sample_costs.VEC_EVAL_CACHE_COST
            ↔ ¬ (sample_hrep.N = 1 ∨ 0 = 1))
        ∧ (sample_hrep.vector_eval_linear_cost sample_costs 0 = sample_costs.VEC_EVAL_CACHE_COST
            ↔ (sample_hrep.vector_eval_linear 0 (fun _ => 0)).kind = .general)
        ∧ sample_hrep.vector_eval_linear_cost sample_costs 0
            = if (sample_hrep.vector_eval_linear 0 (fun _ => 0)).kind = .general then
                sample_costs.VEC_EVAL_CACHE_COST else 0)
      ∧ ((sample_vrep_static.vector_eval_linear_cost sample_costs 4
              = sample_costs.VEC_EVAL_CACHE_COST
            ↔ ¬ (sample_vrep_static.M = 1 ∨ 4 = 1))
        ∧ (sample_vrep_static.vector_eval_linear_cost sample_costs 4
              = sample_costs.VEC_EVAL_CACHE_COST
            ↔ (sample_vrep_static.vector_eval_linear 4 (fun _ => 0)).kind = .general)
        ∧ sample_vrep_static.vector_eval_linear_cost sample_costs 4
            = if (sample_vrep_static.vector_eval_linear 4 (fun _ => 0)).kind = .general then
                sample_costs.VEC_EVAL_CACHE_COST else 0) :=
  ⟨by decide,
    linear_cost_iff_cached sample_costs (by decide) sample_hrep sample_vrep_static 0 4
      (fun _ => 0)⟩

/-- C28: the per-column evaluator of a repeat node costs `SHORTVEC_PERCOL_COST`
when the static column length of the result is below
`SHORTVEC_LENGTH_THRESHOLD` and 0 when it is at or above it; the column length
is the seed's static row count `M` for a horizontal repeat and the replication
factor for a vertical repeat. -/
theorem percol_cost_rule {T : Type} (hexpr : horizontal_repeat_expr T)
    (vexpr : vertical_repeat_expr T) (c : eval_costs) (M N : Nat) :
    (((M : Int) < c.SHORTVEC_LENGTH_THRESHOLD →
          hexpr.vector_eval_percol_cost c M = c.SHORTVEC_PERCOL_COST)
        ∧ (c.SHORTVEC_LENGTH_THRESHOLD ≤ (M : Int) → hexpr.vector_eval_percol_cost c M = 0))
      ∧ (((vexpr.M : Int) < c.SHORTVEC_LENGTH_THRESHOLD →
          vexpr.vector_eval_percol_cost c N = c.SHORTVEC_PERCOL_COST)
        ∧ (c.SHORTVEC_LENGTH_THRESHOLD ≤ (vexpr.M : Int) →
          vexpr.vector_eval_percol_cost c N = 0)) := by
  rw [horizontal_percol_cost_eq, vertical_percol_cost_eq]
  refine ⟨⟨fun h => if_pos h, fun h => if_neg (by omega)⟩,
    ⟨fun h => if_pos h, fun h => if_neg (by omega)⟩⟩

/-! ### Traits of a binary element-wise node -/

/-- C25 (the claim fails in a build without `LMAT_USE_STATIC_ASSERT`): the traits
of a binary node over an operand of domain `cpu` and one of domain `other` are
then well-formed, with the domain of the first operand. -/
theorem domain_check_is_gated :
    sample_domain.cpu ≠ sample_domain.other
      ∧ binary_ewise_expr_traits false 0 0
          (⟨2, 0, 0, false, sample_domain.cpu⟩ : matrix_traits sample_domain)
          ⟨2, 0, 0, false, sample_domain.other⟩
        = .ok ⟨2, 0, 0, true, sample_domain.cpu⟩ := by
  refine ⟨by decide, ?_⟩
  simp [binary_ewise_expr_traits]

/-- C25 (amended): in a build that defines `LMAT_USE_STATIC_ASSERT`, the traits of
a binary element-wise node are rejected with `DomainMismatch` if and only if
the two operands are declared in different element domains, and are well-formed
with the first operand's domain if and only if the domains are equal, so that
the node's domain is the common domain.  In a build that does not define it no
domain check is made and the node's domain is the first operand's. -/
theorem binary_traits_domain_check {D : Type} [DecidableEq D] (r c : Nat)
    (t1 t2 : matrix_traits D) :
    (binary_ewise_expr_traits true r c t1 t2 = .error .DomainMismatch
        ↔ t1.domain ≠ t2.domain)
      ∧ (binary_ewise_expr_traits true r c t1 t2 = .ok ⟨2, r, c, true, t1.domain⟩
        ↔ t1.domain = t2.domain)
      ∧ binary_ewise_expr_traits false r c t1 t2 = .ok ⟨2, r, c, true, t1.domain⟩ := by
  unfold binary_ewise_expr_traits has_same_domain
  by_cases hd : t1.domain = t2.domain
  · simp [hd]
  · simp [hd]

/-! ### Ranges: totality and bounds of the strided range -/

/-- For a positive step over a non-negative span the count is the floor of
`(b - a) / s`. -/
theorem colon_step_num_up (a s b : Int) (hs : 0 < s) (hab : a ≤ b) :
    (colon_step a s b).num = (b - a) / s := by
  simp only [colon_step, step_range.num]
  rw [if_pos hab, if_pos hs]
  exact Int.tdiv_eq_ediv (by omega) (by omega)

/-- For a negative step over a negative span the count is the floor of
`(a - b) / (-s)`. -/
theorem colon_step_num_down (a s b : Int) (hs : s < 0) (hba : b < a) :
    (colon_step a s b).num = (a - b) / (-s) := by
  simp only [colon_step, step_range.num]
  rw [if_neg (by omega), if_pos hs]
  exact Int.tdiv_eq_ediv (by omega) (by omega)

/-- The count of `colon(a, s, b)` is never negative. -/
theorem colon_step_num_nonneg (a s b : Int) : 0 ≤ (colon_step a s b).num := by
  simp only [colon_step, step_range.num]
  by_cases hab : a ≤ b
  · by_cases hs : s > 0
    · rw [if_pos hab, if_pos hs]
      exact Int.tdiv_nonneg (by omega) (by omega)
    · rw [if_pos hab, if_neg hs]
  · by_cases hs : s < 0
    · rw [if_neg hab, if_pos hs]
      exact Int.tdiv_nonneg (by omega) (by omega)
    · rw [if_neg hab, if_neg hs]

/-- C36: `colon(a, s, b)` is total and its count is never negative.  No division
by zero is ever evaluated (the version with explicit division faults returns
the same range for all `a`, `s`, `b`), the count is `>= 0`, and for `s = 0`
neither division is reached: the result is the range at `a` with count 0. -/
theorem colon_step_total (a s b : Int) :
    colon_step_checked a s b = some (colon_step a s b)
      ∧ 0 ≤ (colon_step a s b).num
      ∧ colon_step_checked a 0 b = some ⟨a, 0, 0⟩
      ∧ (colon_step a 0 b).num = 0 := by
  refine ⟨?_, colon_step_num_nonneg a s b, ?_, ?_⟩
  · simp only [colon_step_checked, colon_step, index_div]
    by_cases hab : a ≤ b
    · by_cases hs : s > 0
      · have hne : ¬ s = 0 := by omega
        simp only [if_pos hab, if_pos hs, if_neg hne, Option.map_some']
      · simp only [if_pos hab, if_neg hs, Option.map_some']
    · by_cases hs : s < 0
      · have hne : ¬ -s = 0 := by omega
        simp only [if_neg hab, if_pos hs, if_neg hne, Option.map_some']
      · simp only [if_neg hab, if_neg hs, Option.map_some']
  · simp only [colon_step_checked]
    by_cases hab : a ≤ b
    · simp [hab]
    · simp [hab]
  · simp only [colon_step, step_range.num]
    by_cases hab : a ≤ b
    · simp [hab]
    · simp [hab]

/-- C37 (the claim fails for a step that conflicts with the span): `colon(3, 2, 1)`
has a positive step, no element, and `end_index() = 3`, which lies beyond
`b = 1`: `b - end_index() = -2` is negative.  Symmetrically `colon(1, -2, 3)`
has `end_index() - b = -2`.  With the step `0`, `get_offset` is constant:
`colon(0, 0, 5)` gives offset `0` at `i = 0` and at `i = 1`. -/
theorem colon_step_end_beyond_bound :
    ((0 : Int) < 2 ∧ (colon_step 3 2 1).num = 0 ∧ (colon_step 3 2 1).end_index = 3
        ∧ ¬ (0 ≤ 1 - (colon_step 3 2 1).end_index))
      ∧ ((-2 : Int) < 0 ∧ (colon_step 1 (-2) 3).num = 0
        ∧ (colon_step 1 (-2) 3).end_index = 1
        ∧ ¬ (0 ≤ (colon_step 1 (-2) 3).end_index - 3))
      ∧ (colon_step 0 0 5).get_offset 5 0 = (colon_step 0 0 5).get_offset 5 1 := by
  decide

/-- C37 (amended): every offset of `colon(a, s, b)` stays on the near side of `b`
and offsets never repeat.  For `s > 0` and `0 <= i < num`, `a <= a + i*s < b`;
for `s < 0`, `b < a + i*s <= a`; for `s != 0`, `get_offset` is strictly
monotone in `i` (increasing for `s > 0`, decreasing for `s < 0`).  When the
step does not conflict with the span, `end_index() = a + num*s` overshoots
neither way: `0 <= b - end_index() < s` for `s > 0` and `a <= b`, and
`0 <= end_index() - b < -s` for `s < 0` and `b <= a`.  When the step conflicts
with the span the range is empty and `end_index() = a`. -/
theorem colon_step_offsets_bounded (a s b dim : Int) :
    (0 < s → ∀ i, 0 ≤ i → i < (colon_step a s b).num →
        a ≤ (colon_step a s b).get_offset dim i ∧ (colon_step a s b).get_offset dim i < b)
      ∧ (s < 0 → ∀ i, 0 ≤ i → i < (colon_step a s b).num →
        b < (colon_step a s b).get_offset dim i ∧ (colon_step a s b).get_offset dim i ≤ a)
      ∧ (0 < s → ∀ i j, i < j →
        (colon_step a s b).get_offset dim i < (colon_step a s b).get_offset dim j)
      ∧ (s < 0 → ∀ i j, i < j →
        (colon_step a s b).get_offset dim j < (colon_step a s b).get_offset dim i)
      ∧ (0 < s → a ≤ b →
        0 ≤ b - (colon_step a s b).end_index ∧ b - (colon_step a s b).end_index < s)
      ∧ (s < 0 → b ≤ a →
        0 ≤ (colon_step a s b).end_index - b ∧ (colon_step a s b).end_index - b < -s)
      ∧ ((0 < s ∧ b < a) ∨ (s < 0 ∧ a < b) →
        (colon_step a s b).num = 0 ∧ (colon_step a s b).end_index = a) := by
  have hoff : ∀ i, (colon_step a s b).get_offset dim i = a + i * s := fun _ => rfl
  have hend : (colon_step a s b).end_index = a + (colon_step a s b).num * s := rfl
  refine ⟨?_, ?_, ?_, ?_, ?_, ?_, ?_⟩
  · intro hs i hi0 hin
    rw [hoff]
    by_cases hab : a ≤ b
    · rw [colon_step_num_up a s b hs hab] at hin
      have h1 : (b - a) / s * s ≤ b - a := Int.ediv_mul_le (b - a) (by omega)
      have h2 : (i + 1) * s ≤ (b - a) / s * s :=
        Int.mul_le_mul_of_nonneg_right (by omega) (by omega)
      have h3 : (i + 1) * s = i * s + s := by ring
      have h4 : 0 ≤ i * s := Int.mul_nonneg hi0 (by omega)
      omega
    · have hz : (colon_step a s b).num = 0 := by
        simp only [colon_step, step_range.num]
        rw [if_neg hab, if_neg (by omega)]
      omega
  · intro hs i hi0 hin
    rw [hoff]
    by_cases hba : b < a
    · rw [colon_step_num_down a s b hs hba] at hin
      have h1 : (a - b) / (-s) * (-s) ≤ a - b := Int.ediv_mul_le (a - b) (by omega)
      have h2 : (i + 1) * (-s) ≤ (a - b) / (-s) * (-s) :=
        Int.mul_le_mul_of_nonneg_right (by omega) (by omega)
      have h3 : (i + 1) * (-s) = -(i * s) - s := by ring
      have h4 : 0 ≤ i * (-s) := Int.mul_nonneg hi0 (by omega)
      have h5 : i * (-s) = -(i * s) := by ring
      omega
    · have hz : (colon_step a s b).num = 0 := by
        simp only [colon_step, step_range.num]
        rw [if_pos (by omega), if_neg (by omega)]
      omega
  · intro hs i j hij
    rw [hoff, hoff]
    have h : i * s < j * s := Int.mul_lt_mul_of_pos_right hij hs
    omega
  · intro hs i j hij
    rw [hoff, hoff]
    have h : i * (-s) < j * (-s) := Int.mul_lt_mul_of_pos_right hij (by omega)
    have h1 : i * (-s) = -(i * s) := by ring
    have h2 : j * (-s) = -(j * s) := by ring
    omega
  · intro hs hab
    rw [hend, colon_step_num_up a s b hs hab]
    have h1 : (b - a) / s * s ≤ b - a := Int.ediv_mul_le (b - a) (by omega)
    have h2 : b - a < ((b - a) / s + 1) * s := Int.lt_ediv_add_one_mul_self (b - a) hs
    have h3 : ((b - a) / s + 1) * s = (b - a) / s * s + s := by ring
    omega
  · intro hs hba
    by_cases hlt : b < a
    · rw [hend, colon_step_num_down a s b hs hlt]
      have h1 : (a - b) / (-s) * (-s) ≤ a - b := Int.ediv_mul_le (a - b) (by omega)
      have h2 : a - b < ((a - b) / (-s) + 1) * (-s) :=
        Int.lt_ediv_add_one_mul_self (a - b) (by omega)
      have h3 : ((a - b) / (-s) + 1) * (-s) = (a - b) / (-s) * (-s) - s := by ring
      have h4 : (a - b) / (-s) * (-s) = -((a - b) / (-s) * s) := by ring
      omega
    · have hz : (colon_step a s b).num = 0 := by
        simp only [colon_step, step_range.num]
        rw [if_pos (by omega), if_neg (by omega)]
      rw [hend, hz]
      omega
  · intro hconf
    have hz : (colon_step a s b).num = 0 := by
      simp only [colon_step, step_range.num]
      rcases hconf with ⟨hs, hba⟩ | ⟨hs, hab⟩
      · rw [if_neg (by omega), if_neg (by omega)]
      · rw [if_pos (by omega), if_neg (by omega)]
    refine ⟨hz, ?_⟩
    rw [hend, hz]
    omega

/-! ### Shapes of element-wise nodes -/

/-- C31: element-wise nodes take their shape from their operands.  The unary
node returned by `ewise(f, A)`, whose construction cannot fail, reports the
`nrows`, `ncolumns`, `nelems` and `size` of `A`; a binary node returned by
`ewise(g, A, B)` holds `A` and `B`, reports those four values of its first
operand, and its row and column counts are also those of the second operand. -/
theorem ewise_node_shape {S1 S2 T U : Type} (f : S1 → U) (g : S1 → S2 → T)
    (A : IMatrixXpr S1) (B : IMatrixXpr S2) (e : binary_ewise_expr S1 S2 T)
    (he : ewise_binary g A B = .ok e) :
    ((ewise_unary f A).arg = A
        ∧ (ewise_unary f A).nrows = A.nrows ∧ (ewise_unary f A).ncolumns = A.ncolumns
        ∧ (ewise_unary f A).nelems = A.nelems ∧ (ewise_unary f A).size = A.size)
      ∧ (e.first_arg = A ∧ e.second_arg = B
        ∧ e.nrows = A.nrows ∧ e.ncolumns = A.ncolumns
        ∧ e.nelems = A.nelems ∧ e.size = A.size
        ∧ e.nrows = B.nrows ∧ e.ncolumns = B.ncolumns) := by
  refine ⟨⟨rfl, rfl, rfl, rfl, rfl⟩, ?_⟩
  unfold ewise_binary binary_expr_map_get at he
  rw [binary_ewise_construct_eq] at he
  by_cases hs : A.nrows = B.nrows ∧ A.ncolumns = B.ncolumns
  · rw [if_pos hs] at he
    cases he
    exact ⟨rfl, rfl, rfl, rfl, rfl, rfl, hs.1, hs.2⟩
  · rw [if_neg hs] at he
    cases he

/-- Witness of C31 on the two 2-by-2 sample matrices. -/
theorem ewise_node_shape_witness :
    ewise_binary max_fun sample_mat sample_mat2 = .ok sample_binary
      ∧ ((ewise_unary sqr_fun sample_mat).arg = sample_mat
        ∧ (ewise_unary sqr_fun sample_mat).nrows = sample_mat.nrows
        ∧ (ewise_unary sqr_fun sample_mat).ncolumns = sample_mat.ncolumns
        ∧ (ewise_unary sqr_fun sample_mat).nelems = sample_mat.nelems
        ∧ (ewise_unary sqr_fun sample_mat).size = sample_mat.size)
      ∧ (sample_binary.first_arg = sample_mat ∧ sample_binary.second_arg = sample_mat2
        ∧ sample_binary.nrows = sample_mat.nrows ∧ sample_binary.ncolumns = sample_mat.ncolumns
        ∧ sample_binary.nelems = sample_mat.nelems ∧ sample_binary.size = sample_mat.size
        ∧ sample_binary.nrows = sample_mat2.nrows
        ∧ sample_binary.ncolumns = sample_mat2.ncolumns) :=
  ⟨rfl, ewise_node_shape sqr_fun max_fun sample_mat sample_mat2 sample_binary rfl⟩

/-! ### Agreement between the branches of repeat evaluation -/

/-- C32: the routines specialised for the static factor 1 agree with the general
routines.  For every seed and every destination of the result's shape,
`evaluate` on `horizontal_repeat_expr<.., 1>` produces the destination that the
general `evaluate` produces on the run-time sized repeat (static factor 0) with
run-time column count 1; likewise for `vertical_repeat_expr<.., 1>` and the
run-time row count 1. -/
theorem static_single_replica_agrees {T : Type} (hseed vseed : IMatrixXpr T)
    (hdst vdst : IDenseMatrix T) (hrt vrt : Nat)
    (hhm : hdst.nrows = hseed.nrows) (hhn : hdst.ncolumns = 1)
    (hvm : vdst.nrows = 1) (hvn : vdst.ncolumns = vseed.ncolumns) :
    ((⟨1, hseed, hrt⟩ : horizontal_repeat_expr T).evaluate_1 hdst
          = (⟨0, hseed, 1⟩ : horizontal_repeat_expr T).evaluate hdst
        ∧ (⟨1, hseed, hrt⟩ : horizontal_repeat_expr T).evaluate_overload hdst
          = (⟨0, hseed, 1⟩ : horizontal_repeat_expr T).evaluate_overload hdst)
      ∧ ((⟨1, vseed, vrt⟩ : vertical_repeat_expr T).evaluate_1 vdst
          = (⟨0, vseed, 1⟩ : vertical_repeat_expr T).evaluate vdst
        ∧ (⟨1, vseed, vrt⟩ : vertical_repeat_expr T).evaluate_overload vdst
          = (⟨0, vseed, 1⟩ : vertical_repeat_expr T).evaluate_overload vdst) := by
  have hh := horizontal_repeat_single_column (⟨0, hseed, 1⟩ : horizontal_repeat_expr T) hdst
    rfl hhm hhn
  have hv := vertical_repeat_single_row (⟨0, vseed, 1⟩ : vertical_repeat_expr T) vdst
    rfl hvm hvn
  refine ⟨⟨hh.symm, ?_⟩, ⟨hv.symm, ?_⟩⟩
  · simp only [horizontal_repeat_expr.evaluate_overload, if_true]
    rw [if_neg (by decide)]
    exact hh.symm
  · simp only [vertical_repeat_expr.evaluate_overload, if_true]
    rw [if_neg (by decide)]
    exact hv.symm

/-- Witness of C32: the seed column `10, 11, 12` into a 3-by-1 destination and the
seed row `10, 11, 12, 13` into a 1-by-4 destination with leading dimension 3. -/
theorem static_single_replica_agrees_witness :
    (sample_dst_col.nrows = sample_col.nrows ∧ sample_dst_col.ncolumns = 1
        ∧ sample_dst_row.nrows = 1 ∧ sample_dst_row.ncolumns = sample_row.ncolumns)
      ∧ ((⟨1, sample_col, 0⟩ : horizontal_repeat_expr Nat).evaluate_1 sample_dst_col
          = (⟨0, sample_col, 1⟩ : horizontal_repeat_expr Nat).evaluate sample_dst_col
        ∧ (⟨1, sample_col, 0⟩ : horizontal_repeat_expr Nat).evaluate_overload sample_dst_col
          = (⟨0, sample_col, 1⟩ : horizontal_repeat_expr Nat).evaluate_overload sample_dst_col)
      ∧ ((⟨1, sample_row, 0⟩ : vertical_repeat_expr Nat).evaluate_1 sample_dst_row
          = (⟨0, sample_row, 1⟩ : vertical_repeat_expr Nat).evaluate sample_dst_row
        ∧ (⟨1, sample_row, 0⟩ : vertical_repeat_expr Nat).evaluate_overload sample_dst_row
          = (⟨0, sample_row, 1⟩ : vertical_repeat_expr Nat).evaluate_overload
              sample_dst_row) :=
  ⟨⟨rfl, rfl, rfl, rfl⟩,
    static_single_replica_agrees sample_col sample_row sample_dst_col sample_dst_row 0 0
      rfl rfl rfl rfl⟩

/-- C33: in the evaluation of a vertical repeat, the branch for a compile-time row
count (`M != 0`, fill length `M`) and the branch for a run-time row count
(`M == 0`, fill length `expr.nrows()`) produce the same destination whenever
`expr.nrows()` equals `M`, for every seed row (a single-column seed included)
and every destination. -/
theorem vertical_static_dynamic_agree {T : Type} (M : Nat) (hM : M ≠ 0)
    (seed : IMatrixXpr T) (rt : Nat) (dst : IDenseMatrix T) :
    (⟨M, seed, rt⟩ : vertical_repeat_expr T).nrows = (⟨0, seed, M⟩ : vertical_repeat_expr T).nrows
      ∧ (⟨M, seed, rt⟩ : vertical_repeat_expr T).evaluate dst
        = (⟨0, seed, M⟩ : vertical_repeat_expr T).evaluate dst := by
  have hn1 : (⟨M, seed, rt⟩ : vertical_repeat_expr T).nrows = M := by
    simp [vertical_repeat_expr.nrows, hM]
  have hn2 : (⟨0, seed, M⟩ : vertical_repeat_expr T).nrows = M := by
    simp [vertical_repeat_expr.nrows]
  refine ⟨by rw [hn1, hn2], ?_⟩
  simp only [vertical_repeat_expr.evaluate, vertical_repeat_expr.is_row, hn1, hn2,
    vertical_repeat_expr.arg, if_neg hM, if_true]

/-- Witness of C33: the seed row `10, 11, 12, 13` repeated over 3 rows, with the
static row count 3 and with the run-time row count 3. -/
theorem vertical_static_dynamic_agree_witness :
    (3 : Nat) ≠ 0
      ∧ (⟨3, sample_row, 0⟩ : vertical_repeat_expr Nat).nrows
          = (⟨0, sample_row, 3⟩ : vertical_repeat_expr Nat).nrows
      ∧ (⟨3, sample_row, 0⟩ : vertical_repeat_expr Nat).evaluate sample_dst
        = (⟨0, sample_row, 3⟩ : vertical_repeat_expr Nat).evaluate sample_dst :=
  ⟨by decide, vertical_static_dynamic_agree 3 (by decide) sample_row 0 sample_dst⟩

/-! ### Strided destinations: what is written and what is kept -/

/-- C34: for a single-row vertical repeat (result 1-by-`n`) evaluated into a
1-by-`n` destination with leading dimension `ld >= 1`, element `(0, j)`, which
is stored at buffer offset `j * ld`, receives `seed[j]` for every `j < n`, and
every buffer position that is not one of these offsets keeps its value.  With
a contiguous destination (`ld = 1`) value `j` is at offset `j`; with `ld > 1`
the positions between the offsets `j * ld` are unchanged.  This holds for the
general routine and for the routine that overload resolution selects. -/
theorem single_row_vertical_strided {T : Type} (expr : vertical_repeat_expr T)
    (dst : IDenseMatrix T) (h1 : expr.nrows = 1) (hm : dst.nrows = 1)
    (hn : dst.ncolumns = expr.arg.ncolumns) (hld : 1 ≤ dst.lead_dim) :
    ((∀ j, j < dst.ncolumns →
          (expr.evaluate dst).elem 0 j = expr.arg.get_value j
            ∧ (expr.evaluate dst).data (j * dst.lead_dim) = expr.arg.get_value j)
        ∧ (dst.lead_dim = 1 → ∀ j, j < dst.ncolumns →
          (expr.evaluate dst).data j = expr.arg.get_value j)
        ∧ (∀ k, (∀ j, j < dst.ncolumns → k ≠ j * dst.lead_dim) →
          (expr.evaluate dst).data k = dst.data k))
      ∧ expr.evaluate_overload dst = expr.evaluate dst := by
  have hval : ∀ j, j < dst.ncolumns →
      (expr.evaluate dst).elem 0 j = expr.arg.get_value j
        ∧ (expr.evaluate dst).data (j * dst.lead_dim) = expr.arg.get_value j := by
    intro j hj
    have he := vertical_repeat_evaluate_elem expr dst (by rw [hm, h1]) hn
      (by rw [hm]; exact hld) 0 j (by rw [hm]; exact Nat.one_pos) hj
    refine ⟨he, ?_⟩
    have hs := vertical_repeat_evaluate_lead_dim expr dst
    simp only [IDenseMatrix.elem, IDenseMatrix.ptr_col, hs, Nat.add_zero] at he
    exact he
  refine ⟨⟨hval, ?_, ?_⟩, ?_⟩
  · intro hone j hj
    have h := (hval j hj).2
    rw [hone, Nat.mul_one] at h
    exact h
  · intro k hk
    exact vertical_repeat_evaluate_frame expr dst (by rw [hm, h1]) hn k
      (fun i j hi hj => by
        have hi0 : i = 0 := by omega
        rw [hi0, Nat.add_zero]
        exact hk j hj)
  · unfold vertical_repeat_expr.evaluate_overload
    by_cases hM : expr.M = 1
    · rw [if_pos hM]
      exact (vertical_repeat_single_row expr dst h1 hm hn).symm
    · rw [if_neg hM]

/-- Witness of C34: the seed row `10, 11, 12, 13` repeated once into a 1-by-4
destination with leading dimension 3 whose buffer holds `100 + k` at offset
`k`. -/
theorem single_row_vertical_strided_witness :
    (sample_vrep1.nrows = 1 ∧ sample_dst_row_marked.nrows = 1
        ∧ sample_dst_row_marked.ncolumns = sample_vrep1.arg.ncolumns
        ∧ 1 ≤ sample_dst_row_marked.lead_dim)
      ∧ ((∀ j, j < sample_dst_row_marked.ncolumns →
          (sample_vrep1.evaluate sample_dst_row_marked).elem 0 j = sample_vrep1.arg.get_value j
            ∧ (sample_vrep1.evaluate sample_dst_row_marked).data
                (j * sample_dst_row_marked.lead_dim) = sample_vrep1.arg.get_value j)
        ∧ (sample_dst_row_marked.lead_dim = 1 → ∀ j, j < sample_dst_row_marked.ncolumns →
          (sample_vrep1.evaluate sample_dst_row_marked).data j = sample_vrep1.arg.get_value j)
        ∧ (∀ k, (∀ j, j < sample_dst_row_marked.ncolumns →
            k ≠ j * sample_dst_row_marked.lead_dim) →
          (sample_vrep1.evaluate sample_dst_row_marked).data k
            = sample_dst_row_marked.data k))
      ∧ sample_vrep1.evaluate_overload sample_dst_row_marked
        = sample_vrep1.evaluate sample_dst_row_marked :=
  ⟨⟨rfl, rfl, rfl, by decide⟩,
    single_row_vertical_strided sample_vrep1 sample_dst_row_marked rfl rfl rfl (by decide)⟩

/-- C35: repeat evaluation into an `m`-by-`n` destination with leading dimension
`ld >= m` writes only the logical elements.  After the evaluation of a
horizontal repeat the buffer offset `j * ld + i` holds `seed[i]` for all
`i < m`, `j < n`, after that of a vertical repeat it holds `seed[j]`, and every
other position of the buffer (the padding between the columns and what lies
behind the last column) keeps its previous value.  This holds in every branch
of the two routines, the per-column copy and fill loops included. -/
theorem repeat_writes_logical_elements {T : Type} (hexpr : horizontal_repeat_expr T)
    (vexpr : vertical_repeat_expr T) (dst : IDenseMatrix T)
    (hld : dst.nrows ≤ dst.lead_dim)
    (hhm : dst.nrows = hexpr.arg.nrows) (hhn : dst.ncolumns = hexpr.ncolumns)
    (hvm : dst.nrows = vexpr.nrows) (hvn : dst.ncolumns = vexpr.arg.ncolumns) :
    ((∀ i j, i < dst.nrows → j < dst.ncolumns →
          (hexpr.evaluate dst).data (j * dst.lead_dim + i) = hexpr.arg.get_value i)
        ∧ (∀ k, (∀ i j, i < dst.nrows → j < dst.ncolumns → k ≠ j * dst.lead_dim + i) →
          (hexpr.evaluate dst).data k = dst.data k))
      ∧ ((∀ i j, i < dst.nrows → j < dst.ncolumns →
          (vexpr.evaluate dst).data (j * dst.lead_dim + i) = vexpr.arg.get_value j)
        ∧ (∀ k, (∀ i j, i < dst.nrows → j < dst.ncolumns → k ≠ j * dst.lead_dim + i) →
          (vexpr.evaluate dst).data k = dst.data k)) := by
  refine ⟨⟨?_, ?_⟩, ⟨?_, ?_⟩⟩
  · intro i j hi hj
    have he := horizontal_repeat_evaluate_elem hexpr dst hhm hhn hld i j hi hj
    have hs := horizontal_repeat_evaluate_lead_dim hexpr dst
    simp only [IDenseMatrix.elem, IDenseMatrix.ptr_col, hs] at he
    exact he
  · intro k hk
    exact horizontal_repeat_evaluate_frame hexpr dst hhm hhn k hk
  · intro i j hi hj
    have he := vertical_repeat_evaluate_elem vexpr dst hvm hvn hld i j hi hj
    have hs := vertical_repeat_evaluate_lead_dim vexpr dst
    simp only [IDenseMatrix.elem, IDenseMatrix.ptr_col, hs] at he
    exact he
  · intro k hk
    exact vertical_repeat_evaluate_frame vexpr dst hvm hvn k hk

/-- Witness of C35: the 3-by-4 repeats evaluated into a destination with leading
dimension 5 whose buffer holds `100 + k` at offset `k`. -/
theorem repeat_writes_logical_elements_witness :
    (sample_dst_marked.nrows ≤ sample_dst_marked.lead_dim
        ∧ sample_dst_marked.nrows = sample_hrep.arg.nrows
        ∧ sample_dst_marked.ncolumns = sample_hrep.ncolumns
        ∧ sample_dst_marked.nrows = sample_vrep.nrows
        ∧ sample_dst_marked.ncolumns = sample_vrep.arg.ncolumns)
      ∧ ((∀ i j, i < sample_dst_marked.nrows → j < sample_dst_marked.ncolumns →
          (sample_hrep.evaluate sample_dst_marked).data (j * sample_dst_marked.lead_dim + i)
            = sample_hrep.arg.get_value i)
        ∧ (∀ k, (∀ i j, i < sample_dst_marked.nrows → j < sample_dst_marked.ncolumns →
            k ≠ j * sample_dst_marked.lead_dim + i) →
          (sample_hrep.evaluate sample_dst_marked).data k = sample_dst_marked.data k))
      ∧ ((∀ i j, i < sample_dst_marked.nrows → j < sample_dst_marked.ncolumns →
          (sample_vrep.evaluate sample_dst_marked).data (j * sample_dst_marked.lead_dim + i)
            = sample_vrep.arg.get_value j)
        ∧ (∀ k, (∀ i j, i < sample_dst_marked.nrows → j < sample_dst_marked.ncolumns →
            k ≠ j * sample_dst_marked.lead_dim + i) →
          (sample_vrep.evaluate sample_dst_marked).data k = sample_dst_marked.data k)) :=
  ⟨⟨by decide, rfl, rfl, rfl, rfl⟩,
    repeat_writes_logical_elements sample_hrep sample_vrep sample_dst_marked (by decide)
      rfl rfl rfl rfl⟩

/-! ### Per-column cost of a run-time column length -/

/-- C38: with `0 < SHORTVEC_LENGTH_THRESHOLD`, a repeat node whose static column
length is the sentinel 0 (the seed's static row count for a horizontal repeat,
the replication factor for a vertical repeat) has the per-column cost
`SHORTVEC_PERCOL_COST`, whatever evaluator type is selected: also when the
pass-through evaluator is selected (horizontal repeat with static factor 1) and
when the scalar-caching evaluator is selected (vertical repeat over a seed with
one static column). -/
theorem dynamic_column_length_is_short {T : Type} (c : eval_costs)
    (h0 : 0 < c.SHORTVEC_LENGTH_THRESHOLD) (harg varg : IMatrixXpr T)
    (N Nc hrt vrt : Nat) :
    ((⟨N, harg, hrt⟩ : horizontal_repeat_expr T).vector_eval_percol_cost c 0
          = c.SHORTVEC_PERCOL_COST
        ∧ ((⟨1, harg, hrt⟩ : horizontal_repeat_expr T).vector_eval_percol 0).kind = .single_vec
        ∧ (⟨1, harg, hrt⟩ : horizontal_repeat_expr T).vector_eval_percol_cost c 0
          = c.SHORTVEC_PERCOL_COST)
      ∧ ((⟨0, varg, vrt⟩ : vertical_repeat_expr T).vector_eval_percol_cost c Nc
          = c.SHORTVEC_PERCOL_COST
        ∧ ((⟨0, varg, vrt⟩ : vertical_repeat_expr T).vector_eval_percol 1).kind = .rep_scalar
        ∧ (⟨0, varg, vrt⟩ : vertical_repeat_expr T).vector_eval_percol_cost c 1
          = c.SHORTVEC_PERCOL_COST) := by
  have hz : ((0 : Nat) : Int) < c.SHORTVEC_LENGTH_THRESHOLD := by simpa using h0
  refine ⟨⟨?_, ?_, ?_⟩, ⟨?_, ?_, ?_⟩⟩
  · rw [horizontal_percol_cost_eq, if_pos hz]
  · rw [horizontal_percol_kind]; rfl
  · rw [horizontal_percol_cost_eq, if_pos hz]
  · rw [vertical_percol_cost_eq, if_pos hz]
  · rw [vertical_percol_kind]; rfl
  · rw [vertical_percol_cost_eq, if_pos hz]

/-- Witness of C38 with the threshold 4 and the short-vector cost 200. -/
theorem dynamic_column_length_is_short_witness :
    0 < sample_costs.SHORTVEC_LENGTH_THRESHOLD
      ∧ ((⟨2, sample_col, 0⟩ : horizontal_repeat_expr Nat).vector_eval_percol_cost
            sample_costs 0 = sample_costs.SHORTVEC_PERCOL_COST
        ∧ ((⟨1, sample_col, 0⟩ : horizontal_repeat_expr Nat).vector_eval_percol 0).kind
            = .single_vec
        ∧ (⟨1, sample_col, 0⟩ : horizontal_repeat_expr Nat).vector_eval_percol_cost
            sample_costs 0 = sample_costs.SHORTVEC_PERCOL_COST)
      ∧ ((⟨0, sample_row, 3⟩ : vertical_repeat_expr Nat).vector_eval_percol_cost
            sample_costs 4 = sample_costs.SHORTVEC_PERCOL_COST
        ∧ ((⟨0, sample_row, 3⟩ : vertical_repeat_expr Nat).vector_eval_percol 1).kind
            = .rep_scalar
        ∧ (⟨0, sample_row, 3⟩ : vertical_repeat_expr Nat).vector_eval_percol_cost
            sample_costs 1 = sample_costs.SHORTVEC_PERCOL_COST) :=
  ⟨by decide,
    dynamic_column_length_is_short sample_costs (by decide) sample_col sample_row 2 4 0 3⟩

end lmat
